import Mathlib

/-!
WebVTT reader and writer of go-astisub (`src/webvtt.go`).

A shallow embedding of the WebVTT parser (`ReadFromWebVTT`), the serializer
(`WriteToWebVTTWithSync`) and their helpers, followed by theorems about them.

Conventions of the embedding:

* a Go `string` / `[]byte` is a list of bytes (`GoString`), a byte is a `Nat`;
* a `time.Duration` is an `Int` number of nanoseconds, with `wrapInt64` applied
  where the Go code computes on `int64`;
* a Go `map` is an association list whose order stands for the (unspecified)
  iteration order of the map;
* a pointer that may be `nil` is an `Option`;
* a function that returns `(value, error)` returns an `Except`.
-/

namespace WebVTT

/-- Equality of `Except` values is decidable when it is on both sides. -/
instance instDecidableEqExcept {ε α : Type} [DecidableEq ε] [DecidableEq α] :
    DecidableEq (Except ε α)
  | .ok a, .ok b =>
    if h : a = b then isTrue (by rw [h]) else isFalse (fun h2 => h (Except.ok.inj h2))
  | .error a, .error b =>
    if h : a = b then isTrue (by rw [h]) else isFalse (fun h2 => h (Except.error.inj h2))
  | .ok _, .error _ => isFalse (fun h => Except.noConfusion h)
  | .error _, .ok _ => isFalse (fun h => Except.noConfusion h)

/-! ## Go strings -/

/-- A Go string: a sequence of bytes. -/
abbrev GoString := List Nat

/-- The bytes of an ASCII literal. -/
def str (s : String) : GoString := s.toList.map Char.toNat

/-- Go `strings.HasPrefix`. -/
def HasPrefix : GoString → GoString → Bool
  | _, [] => true
  | [], _ :: _ => false
  | a :: s, b :: p => a == b && HasPrefix s p

/-- Go `strings.HasSuffix`. -/
def HasSuffix (s suffix : GoString) : Bool := HasPrefix s.reverse suffix.reverse

/-- Go `strings.TrimPrefix`. -/
def TrimPrefix (s p : GoString) : GoString :=
  if HasPrefix s p then s.drop p.length else s

/-- Go `strings.Contains`. -/
def Contains : GoString → GoString → Bool
  | [], sub => sub.isEmpty
  | b :: t, sub => HasPrefix (b :: t) sub || Contains t sub

/-- Go `strings.Index`: the offset of the first occurrence of `sub`, if any. -/
def Index : GoString → GoString → Option Nat
  | [], sub => if sub.isEmpty then some 0 else none
  | b :: t, sub =>
    if HasPrefix (b :: t) sub then some 0 else (Index t sub).map (· + 1)

/-- The pieces of `strings.Split(s, sep)` for a non-empty `sep`, scanning left to
right; `skip` counts the bytes of a separator occurrence still to be passed. -/
def splitFrom (sep : GoString) : Nat → GoString → List GoString
  | _, [] => [[]]
  | skip + 1, _ :: t => splitFrom sep skip t
  | 0, b :: t =>
    if HasPrefix (b :: t) sep then [] :: splitFrom sep (sep.length - 1) t
    else
      match splitFrom sep 0 t with
      | p :: ps => (b :: p) :: ps
      | [] => [[b]]

/-- Go `strings.Split(s, sep)` for a non-empty separator. -/
def Split (s sep : GoString) : List GoString := splitFrom sep 0 s

/-- Go `strings.SplitN(s, sep, 2)` for a non-empty separator. -/
def SplitN2 (s sep : GoString) : List GoString :=
  match Index s sep with
  | none => [s]
  | some i => [s.take i, s.drop (i + sep.length)]

/-- Go `strings.Join`. -/
def Join : List GoString → GoString → GoString
  | [], _ => []
  | [a], _ => a
  | a :: b :: rest, sep => a ++ sep ++ Join (b :: rest) sep

/-- Whether `r` is the UTF-8 encoding of a rune for which Go `unicode.IsSpace`
holds: TAB, LF, VT, FF, CR, SPACE, U+0085, U+00A0, U+1680, U+2000..U+200A,
U+2028, U+2029, U+202F, U+205F, U+3000. -/
def isSpaceRune : GoString → Bool
  | [b] => b == 9 || b == 10 || b == 11 || b == 12 || b == 13 || b == 32
  | [b, c] => b == 0xC2 && (c == 0x85 || c == 0xA0)
  | [b, c, d] =>
    (b == 0xE1 && c == 0x9A && d == 0x80) ||
    (b == 0xE2 && c == 0x80 &&
      ((decide (0x80 ≤ d) && decide (d ≤ 0x8A)) || d == 0xA8 || d == 0xA9 || d == 0xAF)) ||
    (b == 0xE2 && c == 0x81 && d == 0x9F) ||
    (b == 0xE3 && c == 0x80 && d == 0x80)
  | _ => false

/-- The width in bytes of the white-space rune `s` starts with, `0` when it
starts with none. Every encoding above begins with a lead byte and continues
with continuation bytes, so looking for one at a byte offset agrees with Go,
which decodes rune by rune (an invalid byte decodes to U+FFFD, width 1). -/
def spaceWidth (s : GoString) : Nat :=
  if isSpaceRune (s.take 1) then 1
  else if isSpaceRune (s.take 2) then 2
  else if isSpaceRune (s.take 3) then 3
  else 0

/-- The width of the white-space rune `s` ends with (`r` is `s` reversed). -/
def spaceWidthRev (r : GoString) : Nat :=
  if isSpaceRune (r.take 1).reverse then 1
  else if isSpaceRune (r.take 2).reverse then 2
  else if isSpaceRune (r.take 3).reverse then 3
  else 0

/-- Strips leading white-space runes, at most `fuel` of them. -/
def trimLeftN : Nat → GoString → GoString
  | 0, s => s
  | fuel + 1, s => if spaceWidth s = 0 then s else trimLeftN fuel (s.drop (spaceWidth s))

/-- Strips trailing white-space runes from the reversed string `r`. -/
def trimRightN : Nat → GoString → GoString
  | 0, r => r
  | fuel + 1, r =>
    if spaceWidthRev r = 0 then r else trimRightN fuel (r.drop (spaceWidthRev r))

/-- Go `strings.TrimSpace`. -/
def TrimSpace (s : GoString) : GoString :=
  let l := trimLeftN s.length s
  (trimRightN l.length l.reverse).reverse

/-- The first field of Go `strings.Fields(s)`, if there is one: after the leading
white space, the bytes up to the next white-space rune. -/
def firstFieldN : Nat → GoString → GoString
  | 0, _ => []
  | _ + 1, [] => []
  | fuel + 1, b :: t => if spaceWidth (b :: t) = 0 then b :: firstFieldN fuel t else []

/-- The head of `strings.Fields(s)`: `none` when `Fields` returns no field. -/
def firstField (s : GoString) : Option GoString :=
  match trimLeftN s.length s with
  | [] => none
  | l => some (firstFieldN l.length l)

/-- ASCII lower-casing of one byte. -/
def lowerByte (b : Nat) : Nat := if 65 ≤ b ∧ b ≤ 90 then b + 32 else b

/-- Go `strings.ToLower` on the ASCII letters. The source only compares the
result with the ASCII words `local` and `mpegts`, and no non-ASCII rune
lower-cases to a letter of those words, so the comparison is decided exactly. -/
def ToLower (s : GoString) : GoString := s.map lowerByte

/-! ## Go integers -/

/-- Two's-complement wrap of an integer to `int64`. -/
def wrapInt64 (x : Int) : Int := (x + 2 ^ 63) % 2 ^ 64 - 2 ^ 63

/-- Whether a byte is an ASCII digit. -/
def isDigit (b : Nat) : Bool := decide (48 ≤ b) && decide (b ≤ 57)

/-- The value of a string of ASCII digits; `none` when it is empty or holds
another byte. -/
def parseDigits : GoString → Option Nat
  | [] => none
  | s => if s.all isDigit then some (s.foldl (fun acc b => acc * 10 + (b - 48)) 0) else none

/-- Go `strconv.ParseInt(s, 10, 64)` (and `strconv.Atoi` on a 64-bit platform):
an optional sign, then decimal digits; out-of-range values are errors. -/
def ParseInt (s : GoString) : Option Int :=
  match s with
  | 43 :: t => (parseDigits t).bind fun n => if n < 2 ^ 63 then some (n : Int) else none
  | 45 :: t => (parseDigits t).bind fun n => if n ≤ 2 ^ 63 then some (-(n : Int)) else none
  | t => (parseDigits t).bind fun n => if n < 2 ^ 63 then some (n : Int) else none

/-- The integer `strconv.Atoi` returns whether or not it also returns an error:
`0` on a syntax error, the nearest bound on a range error. -/
def atoiValue (s : GoString) : Int :=
  match ParseInt s with
  | some n => n
  | none =>
    match s with
    | 43 :: t => if (parseDigits t).isSome then 2 ^ 63 - 1 else 0
    | 45 :: t => if (parseDigits t).isSome then -(2 ^ 63) else 0
    | t => if (parseDigits t).isSome then 2 ^ 63 - 1 else 0

/-- The decimal digits of a natural number, most significant first. -/
def natDigits : Nat → Nat → GoString
  | 0, _ => []
  | fuel + 1, n => if n < 10 then [48 + n] else natDigits fuel (n / 10) ++ [48 + n % 10]

/-- Go `strconv.Itoa`. -/
def Itoa (i : Int) : GoString :=
  if i < 0 then 45 :: natDigits (i.natAbs + 1) i.natAbs else natDigits (i.natAbs + 1) i.natAbs

/-! ## Data model (the types `webvtt.go` uses) -/

/-- A `time.Duration`: a number of nanoseconds. -/
abbrev Duration := Int

/-- Go `time.Millisecond`. -/
def Millisecond : Duration := 1000000

/-- Go `time.Second`. -/
def Second : Duration := 1000000000

/-- The inline markup tag `WebVTTTag`. -/
structure WebVTTTag where
  Name : GoString
  Classes : List GoString
  Annotation : GoString
  deriving DecidableEq, Repr

/-- The fields of `StyleAttributes` that `webvtt.go` reads or writes. -/
structure StyleAttributes where
  TTMLColor : Option GoString := none
  WebVTTAlign : GoString := []
  WebVTTLine : GoString := []
  WebVTTLines : Int := 0
  WebVTTPosition : GoString := []
  WebVTTRegionAnchor : GoString := []
  WebVTTScroll : GoString := []
  WebVTTSize : GoString := []
  WebVTTStyles : List GoString := []
  WebVTTTags : List WebVTTTag := []
  WebVTTVertical : GoString := []
  WebVTTViewportAnchor : GoString := []
  WebVTTWidth : GoString := []
  deriving DecidableEq, Repr

/-- A `Style`: an identifier and an optional (`nil`-able) attribute record. -/
structure Style where
  ID : GoString := []
  InlineStyle : Option StyleAttributes := none
  deriving DecidableEq, Repr

/-- A `Region`. -/
structure Region where
  ID : GoString := []
  InlineStyle : Option StyleAttributes := none
  Style : Option Style := none
  deriving DecidableEq, Repr

/-- A `LineItem`: one styled run of text. -/
structure LineItem where
  InlineStyle : Option StyleAttributes := none
  StartAt : Duration := 0
  Text : GoString := []
  deriving DecidableEq, Repr

/-- A `Line`: one row of cue text. -/
structure Line where
  Items : List LineItem := []
  VoiceName : GoString := []
  deriving DecidableEq, Repr

/-- An `Item`: one cue. -/
structure Item where
  Comments : List GoString := []
  Index : Int := 0
  EndAt : Duration := 0
  InlineStyle : Option StyleAttributes := none
  Lines : List Line := []
  Region : Option Region := none
  StartAt : Duration := 0
  Style : Option Style := none
  deriving DecidableEq, Repr

/-- The document `Subtitles`; the two maps are association lists. -/
structure Subtitles where
  Items : List Item := []
  Regions : List (GoString × Region) := []
  Styles : List (GoString × Style) := []
  deriving DecidableEq, Repr

/-- Go map read `m[k]`: `none` when the key is absent. -/
def mapGet {β : Type} : List (GoString × β) → GoString → Option β
  | [], _ => none
  | (k, v) :: rest, key => if k = key then some v else mapGet rest key

/-- Go map write `m[k] = v`: replaces the entry of an existing key, adds one
otherwise. -/
def mapSet {β : Type} : List (GoString × β) → GoString → β → List (GoString × β)
  | [], key, v => [(key, v)]
  | (k, w) :: rest, key, v =>
    if k = key then (k, v) :: rest else (k, w) :: mapSet rest key v

/-! ## Time codec -/

/-- The value of a field of exactly `width` ASCII digits (`width = 0`: two or
more digits). -/
def parseField (width : Nat) (s : GoString) : Option Nat :=
  if (width = 0 ∧ 2 ≤ s.length) ∨ (width ≠ 0 ∧ s.length = width) then parseDigits s else none

/-- Modelled from the spec: `parseDuration` is declared outside `src/`. Section
4.1 gives `parseTimestamp`: it parses `[HH:]MM:SS.mmm` with the fixed fractional
separator and exactly 3 fractional digits, the hour component optional, and fails
on non-numeric or wrong-width fields. The hour field is read as two or more
digits, as the inline-timestamp pattern of `webvtt.go` does. -/
def parseDuration (i : GoString) : Option Duration :=
  match Split i (str ".") with
  | [hms, frac] =>
    match Split hms (str ":"), parseField 3 frac with
    | [m, s], some ms =>
      match parseField 2 m, parseField 2 s with
      | some mm, some ss => some (((mm * 60 + ss) * 1000 + ms : Nat) * Millisecond)
      | _, _ => none
    | [h, m, s], some ms =>
      match parseField 0 h, parseField 2 m, parseField 2 s with
      | some hh, some mm, some ss =>
        some ((((hh * 60 + mm) * 60 + ss) * 1000 + ms : Nat) * Millisecond)
      | _, _, _ => none
    | _, _ => none
  | _ => none

/-- The source function `parseDurationWebVTT`: `parseDuration(i, ".", 3)`. -/
def parseDurationWebVTT (i : GoString) : Option Duration := parseDuration i

/-- A natural number in decimal, zero-padded on the left to `width` digits. -/
def padDigits (width n : Nat) : GoString :=
  let d := natDigits (n + 1) n
  List.replicate (width - d.length) 48 ++ d

/-- Modelled from the spec: `formatDuration` is declared outside `src/`. Section
4.1 gives `formatTimestamp` as the inverse of `parseTimestamp`: always
zero-padded, the fractional component always emitted to 3 digits, the hour field
always present. The spec only has non-negative times; a negative duration is
formatted as zero. -/
def formatDuration (d : Duration) : GoString :=
  let ms := d.toNat / 1000000
  padDigits 2 (ms / 3600000) ++ str ":" ++ padDigits 2 (ms / 60000 % 60) ++ str ":" ++
    padDigits 2 (ms / 1000 % 60) ++ str "." ++ padDigits 3 (ms % 1000)

/-- The source function `formatDurationWebVTT`: `formatDuration(i, ".", 3)`. -/
def formatDurationWebVTT (i : Duration) : GoString := formatDuration i

/-- The errors of `parseTimestampMapWebVTT`, one per `fmt.Errorf` site. -/
inductive TimestampMapError where
  | noEquals
  | noColon (right : GoString)
  | badDuration (text : GoString)
  | badInt (text : GoString)
  deriving DecidableEq, Repr

/-- The loop of `parseTimestampMapWebVTT` over the comma-separated parts, with
the running values of `local` and `mpegts`. -/
def parseTimestampMapParts (right : GoString) :
    List GoString → Duration → Int → Except TimestampMapError (Duration × Int)
  | [], loc, mpegts => .ok (loc, mpegts)
  | split :: rest, loc, mpegts =>
    match SplitN2 split (str ":") with
    | [key, val] =>
      if ToLower (TrimSpace key) = str "local" then
        match parseDurationWebVTT val with
        | some d => parseTimestampMapParts right rest d mpegts
        | none => .error (.badDuration val)
      else if ToLower (TrimSpace key) = str "mpegts" then
        match ParseInt val with
        | some n => parseTimestampMapParts right rest loc n
        | none => .error (.badInt val)
      else parseTimestampMapParts right rest loc mpegts
    | _ => .error (.noColon right)

/-- The source function `parseTimestampMapWebVTT`. The offset is computed on
`int64`: `time.Duration(mpegts)*time.Second/90000 - local`, so the product and
the difference wrap and the quotient truncates toward zero. -/
def parseTimestampMapWebVTT (line : GoString) : Except TimestampMapError Duration :=
  match Split line (str "=") with
  | _ :: right :: _ =>
    match parseTimestampMapParts right (Split right (str ",")) 0 0 with
    | .ok (loc, mpegts) => .ok (wrapInt64 (Int.tdiv (wrapInt64 (mpegts * Second)) 90000 - loc))
    | .error e => .error e
  | _ => .error .noEquals

/-- The text to the right of the first `=` of a correlation header line, the
`right` of `parseTimestampMapWebVTT`; empty when the line has no `=`. -/
def timestampMapRight (line : GoString) : GoString :=
  match Split line (str "=") with
  | _ :: right :: _ => right
  | _ => []

/-- A comma-separated part of a correlation header that the spec calls malformed:
the sub-field separator `:` is missing, or the part is a LOCAL or MPEGTS
sub-field whose value fails to parse. -/
def malformedPart (part : GoString) : Bool :=
  match SplitN2 part (str ":") with
  | [key, val] =>
    if ToLower (TrimSpace key) = str "local" then (parseDurationWebVTT val).isNone
    else if ToLower (TrimSpace key) = str "mpegts" then (ParseInt val).isNone
    else false
  | _ => true

/-! ## Escaping -/

/-- The replacement of one byte by `webVTTEscaper`: all its old strings are single
bytes, so Go replaces byte by byte. -/
def webVTTEscaper (b : Nat) : GoString :=
  if b = 38 then str "&amp;"
  else if b = 60 then str "&lt;"
  else if b = 62 then str "&gt;"
  else if b = 0xA0 then str "&nbsp"
  else [b]

/-- The source function `escapeWebVTT`. -/
def escapeWebVTT (i : GoString) : GoString := (i.map webVTTEscaper).flatten

/-- The pairs of `webVTTUnescaper`, in argument order. -/
def webVTTUnescaper : List (GoString × GoString) :=
  [(str "&amp;", str "&"), (str "&lt;", str "<"), (str "&gt;", str ">"), (str "&nbsp", [0xA0])]

/-- The lookup of Go's generic replacer: the first pair, in argument order, whose
old string starts the input. -/
def replacerLookup : List (GoString × GoString) → GoString → Option (GoString × GoString)
  | [], _ => none
  | (old, new) :: rest, s => if HasPrefix s old then some (old, new) else replacerLookup rest s

/-- Go `(*strings.Replacer).Replace` for non-empty old strings: at each offset,
left to right, a matching old string is replaced and passed over, any other byte
is copied. `skip` counts the bytes of a replaced occurrence still to be passed. -/
def replaceFrom (pairs : List (GoString × GoString)) : Nat → GoString → GoString
  | _, [] => []
  | skip + 1, _ :: t => replaceFrom pairs skip t
  | 0, b :: t =>
    match replacerLookup pairs (b :: t) with
    | some (old, new) => new ++ replaceFrom pairs (old.length - 1) t
    | none => b :: replaceFrom pairs 0 t

/-- The source function `unescapeWebVTT`. -/
def unescapeWebVTT (i : GoString) : GoString := replaceFrom webVTTUnescaper 0 i

/-! ## The markup tokenizer `golang.org/x/net/html`

`parseTextWebVTT` reads a cue-text line through `html.NewTokenizer` and uses only
the type and the raw bytes of each token. The functions below follow the
tokenizer of the library (the 2020 revision the module depends on): text, start
and end tags with their attributes, comments and declarations, and the raw-text
elements. The script-data escape states of a `script` element are read as plain
raw text. -/

/-- The token types of the tokenizer. -/
inductive TokenType where
  | TextToken
  | StartTagToken
  | EndTagToken
  | SelfClosingTagToken
  | CommentToken
  deriving DecidableEq, Repr

/-- A token: its type and `Raw()` bytes. -/
structure Token where
  tt : TokenType
  raw : GoString
  deriving DecidableEq, Repr

/-- The white space of the tokenizer inside a tag. -/
def isTagSpace (c : Nat) : Bool := c == 32 || c == 10 || c == 13 || c == 9 || c == 12

/-- An ASCII letter. -/
def isLetter (c : Nat) : Bool :=
  (decide (97 ≤ c) && decide (c ≤ 122)) || (decide (65 ≤ c) && decide (c ≤ 90))

/-- Tokenizer `skipWhiteSpace`: the input from the first byte that is not white
space; `none` when the end of input is reached. -/
def skipWhiteSpace : GoString → Option GoString
  | [] => none
  | c :: t => if isTagSpace c then skipWhiteSpace t else some (c :: t)

/-- Tokenizer `readTagName`, the first byte of the name already read. -/
def readTagName : GoString → Option GoString
  | [] => none
  | c :: t =>
    if isTagSpace c then some t
    else if c == 47 || c == 62 then some (c :: t)
    else readTagName t

/-- Tokenizer `readTagAttrKey`. -/
def readTagAttrKey : GoString → Option GoString
  | [] => none
  | c :: t =>
    if isTagSpace c || c == 47 then some t
    else if c == 61 || c == 62 then some (c :: t)
    else readTagAttrKey t

/-- The rest of a quoted attribute value: up to and including the quote. -/
def readQuoted (quote : Nat) : GoString → Option GoString
  | [] => none
  | c :: t => if c == quote then some t else readQuoted quote t

/-- The rest of an unquoted attribute value. -/
def readUnquoted : GoString → Option GoString
  | [] => none
  | c :: t =>
    if isTagSpace c then some t
    else if c == 62 then some (c :: t)
    else readUnquoted t

/-- Tokenizer `readTagAttrVal`. -/
def readTagAttrVal (s : GoString) : Option GoString :=
  match skipWhiteSpace s with
  | some (c :: t) =>
    if c ≠ 61 then some (c :: t)
    else
      match skipWhiteSpace t with
      | some (q :: t2) =>
        if q == 62 then some (q :: t2)
        else if q == 39 || q == 34 then readQuoted q t2
        else readUnquoted t2
      | _ => none
  | _ => none

/-- The attribute loop of tokenizer `readTag`: up to and including the closing
`>`; `none` when the input ends first. -/
def readTagAttrs : Nat → GoString → Option GoString
  | 0, _ => none
  | _ + 1, [] => none
  | fuel + 1, c :: t =>
    if c == 62 then some t
    else
      match readTagAttrKey (c :: t) with
      | none => none
      | some s1 =>
        match readTagAttrVal s1 with
        | none => none
        | some s2 =>
          match skipWhiteSpace s2 with
          | none => none
          | some s3 => readTagAttrs fuel s3

/-- Tokenizer `readTag`, the first byte of the name already read: the input that
follows the tag, `none` when the input ends inside the tag. -/
def readTag (s : GoString) : Option GoString :=
  match readTagName s with
  | none => none
  | some s1 =>
    match skipWhiteSpace s1 with
    | none => none
    | some s2 => readTagAttrs (s2.length + 1) s2

/-- Tokenizer `readUntilCloseAngle`: the input after the next `>`. -/
def readUntilCloseAngle : GoString → GoString
  | [] => []
  | c :: t => if c == 62 then t else readUntilCloseAngle t

/-- Tokenizer `readComment` after `<!--`, with its dash count: the input after
the comment. -/
def readComment : Nat → GoString → GoString
  | _, [] => []
  | dashCount, c :: t =>
    if c == 45 then readComment (dashCount + 1) t
    else if c == 62 && decide (2 ≤ dashCount) then t
    else if c == 33 && decide (2 ≤ dashCount) then
      match t with
      | [] => []
      | c2 :: t2 => if c2 == 62 then t2 else readComment 0 t2
    else readComment 0 t

/-- Whether the input starts a tag, a comment or a declaration: `<` and then a
letter, `/`, `!` or `?`. -/
def markupStart : GoString → Bool
  | 60 :: c :: _ => isLetter c || c == 47 || c == 33 || c == 63
  | _ => false

/-- The number of bytes of text before the next tag, comment or declaration. -/
def textLength : GoString → Nat
  | [] => 0
  | c :: t => if markupStart (c :: t) then 0 else textLength t + 1

/-- The name the tokenizer records for a start tag: up to white space, `/` or
`>`. -/
def tokenTagName : GoString → GoString
  | [] => []
  | c :: t => if isTagSpace c || c == 47 || c == 62 then [] else c :: tokenTagName t

/-- The elements whose content the tokenizer reads as raw text. -/
def rawTextTags : List GoString :=
  [str "iframe", str "noembed", str "noframes", str "noscript", str "plaintext",
   str "script", str "style", str "textarea", str "title", str "xmp"]

/-- Tokenizer `readRawEndTag` seen from the `<`: the input starts with `</`, the
raw tag in either case, and one of white space, `/`, `>`. -/
def rawEndTagAt (rawTag : GoString) : GoString → Bool
  | 60 :: 47 :: t =>
    (ToLower (t.take rawTag.length) == rawTag) &&
      (match t.drop rawTag.length with
       | c :: _ => isTagSpace c || c == 47 || c == 62
       | [] => false)
  | _ => false

/-- The number of bytes of raw text before the end tag of the raw element. -/
def rawTextLength (rawTag : GoString) : GoString → Nat
  | [] => 0
  | c :: t => if rawEndTagAt rawTag (c :: t) then 0 else rawTextLength rawTag t + 1

/-- The token a tag, comment or declaration at the head of `s` gives, with the
input after it and the raw tag it sets; `none` is `ErrorToken`. -/
def nextMarkup (s : GoString) : Option (Token × GoString × GoString) :=
  match s with
  | 60 :: c :: t =>
    if isLetter c then
      match readTag t with
      | none => none
      | some rest =>
        let raw := s.take (s.length - rest.length)
        let name := ToLower (tokenTagName (c :: t))
        let rawTag := if name ∈ rawTextTags then name else []
        if (raw.reverse.drop 1).head? = some 47 then
          some (⟨.SelfClosingTagToken, raw⟩, rest, rawTag)
        else some (⟨.StartTagToken, raw⟩, rest, rawTag)
    else if c == 47 then
      match t with
      | [] => some (⟨.TextToken, s⟩, [], [])
      | c2 :: t2 =>
        if c2 == 62 then some (⟨.CommentToken, s.take 3⟩, t2, [])
        else if isLetter c2 then
          match readTag t2 with
          | none => none
          | some rest => some (⟨.EndTagToken, s.take (s.length - rest.length)⟩, rest, [])
        else
          let rest := readUntilCloseAngle (c2 :: t2)
          some (⟨.CommentToken, s.take (s.length - rest.length)⟩, rest, [])
    else if c == 33 then
      let rest :=
        match t with
        | 45 :: 45 :: t2 => readComment 2 t2
        | [_] => []
        | _ => readUntilCloseAngle t
      some (⟨.CommentToken, s.take (s.length - rest.length)⟩, rest, [])
    else
      let rest := readUntilCloseAngle (c :: t)
      some (⟨.CommentToken, s.take (s.length - rest.length)⟩, rest, [])
  | _ => none

/-- Tokenizer `Next` on the remaining input `s` with the pending raw tag: the
token, the input after it and the new raw tag; `none` is `ErrorToken`. -/
def tokenizerNext (rawTag s : GoString) : Option (Token × GoString × GoString) :=
  if s = [] then none
  else
    let n :=
      if rawTag = [] then 0
      else if rawTag = str "plaintext" then s.length
      else rawTextLength rawTag s
    if 0 < n then some (⟨.TextToken, s.take n⟩, s.drop n, [])
    else
      let m := textLength s
      if 0 < m then some (⟨.TextToken, s.take m⟩, s.drop m, [])
      else nextMarkup s

/-- The tokens of a line, up to the first `ErrorToken`. -/
def tokenize : Nat → GoString → GoString → List Token
  | 0, _, _ => []
  | fuel + 1, rawTag, s =>
    match tokenizerNext rawTag s with
    | none => []
    | some (tok, rest, rawTag2) => tok :: tokenize fuel rawTag2 rest

/-! ## The two regular expressions

Go's `regexp` returns the leftmost match and, among the matches that start there,
the one a backtracking search finds first. The matchers below are that search
written out for the two patterns of `webvtt.go`. Both patterns are delimited by
ASCII bytes only, so matching byte by byte gives the groups Go finds rune by
rune. -/

/-- The length of the longest initial run of bytes that satisfy `p`. -/
def spanLen (p : Nat → Bool) : GoString → Nat
  | [] => 0
  | c :: t => if p c then spanLen p t + 1 else 0

/-- The first success of `f n`, `f (n - 1)`, ..., `f 0`: a greedy repetition that
gives bytes back one at a time. -/
def firstDown {α : Type} (f : Nat → Option α) : Nat → Option α
  | 0 => f 0
  | n + 1 =>
    match f (n + 1) with
    | some r => some r
    | none => firstDown f n

/-- The class `\s` of Go regular expressions. -/
def reSpace (c : Nat) : Bool := c == 9 || c == 10 || c == 12 || c == 13 || c == 32

/-- The end `\s*/*>` of `webVTTRegexpTag`: its three parts match disjoint bytes,
so only the longest runs can succeed. -/
def tagTail (s : GoString) : Bool :=
  match (s.dropWhile reSpace).dropWhile (· == 47) with
  | 62 :: _ => true
  | _ => false

/-- The part `([^/]*)\s*/*>` of `webVTTRegexpTag`: group 4. -/
def tagLabel (s : GoString) : Option GoString :=
  firstDown (fun a => if tagTail (s.drop a) then some (s.take a) else none)
    (spanLen (fun c => c != 47) s)

/-- The part `\s*([^/]*)\s*/*>` of `webVTTRegexpTag`. -/
def tagSpaceLabel (s : GoString) : Option GoString :=
  firstDown (fun w => tagLabel (s.drop w)) (spanLen reSpace s)

/-- The part `(\.[^\s/]*)*\s*([^/]*)\s*/*>` of `webVTTRegexpTag`; `last` is the
text of the latest repetition of group 3. The result is groups 3 and 4. -/
def tagClasses : Nat → GoString → GoString → Option (GoString × GoString)
  | 0, _, _ => none
  | fuel + 1, s, last =>
    let more : Option (GoString × GoString) :=
      match s with
      | 46 :: t =>
        firstDown (fun m => tagClasses fuel (t.drop m) (46 :: t.take m))
          (spanLen (fun c => !reSpace c && c != 47) t)
      | _ => none
    match more with
    | some r => some r
    | none => (tagSpaceLabel s).map fun a => (last, a)

/-- The part `([^\.\s]+)(\.[^\s/]*)*\s*([^/]*)\s*/*>` of `webVTTRegexpTag`:
groups 2, 3 and 4. -/
def tagNameClasses (s : GoString) : Option (GoString × GoString × GoString) :=
  firstDown
    (fun n =>
      if n = 0 then none
      else (tagClasses (s.length + 1) (s.drop n) []).map fun r => (s.take n, r.1, r.2))
    (spanLen (fun c => c != 46 && !reSpace c) s)

/-- The pattern `webVTTRegexpTag` after its opening `<`. -/
def tagAfterOpen (s : GoString) : Option (GoString × GoString × GoString) :=
  firstDown
    (fun k => firstDown (fun w => tagNameClasses (s.drop (k + w))) (spanLen reSpace (s.drop k)))
    (spanLen (· == 47) s)

/-- `webVTTRegexpTag.FindStringSubmatch`: groups 2, 3 and 4 of the leftmost match
of `(</*\s*([^\.\s]+)(\.[^\s/]*)*\s*([^/]*)\s*/*>)`, `none` when nothing
matches. -/
def webVTTRegexpTag : GoString → Option (GoString × GoString × GoString)
  | [] => none
  | c :: t =>
    match (if c == 60 then tagAfterOpen t else none) with
    | some r => some r
    | none => webVTTRegexpTag t

/-- The part `\d{2}:\d{2}\.\d{3}>` of `webVTTRegexpInlineTimestamp`. -/
def timestampTail : GoString → Bool
  | [a, b, 58, c, d, 46, e, f, g, 62] =>
    isDigit a && isDigit b && isDigit c && isDigit d && isDigit e && isDigit f && isDigit g
  | _ => false

/-- The length of the match of `<((?:\d{2,}:)?\d{2}:\d{2}\.\d{3})>` that starts
the input, if there is one. -/
def inlineTimestampLen : GoString → Option Nat
  | 60 :: t =>
    let h := spanLen isDigit t
    if 2 ≤ h ∧ (t.drop h).head? = some 58 ∧ timestampTail ((t.drop (h + 1)).take 10) then
      some (h + 12)
    else if timestampTail (t.take 10) then some 11
    else none
  | _ => none

/-- `webVTTRegexpInlineTimestamp.FindAllStringSubmatchIndex(line, -1)`: the start
and end offsets of the successive matches; `pos` is the offset of `s` in the
line and `skip` the bytes of a match still to be passed. -/
def findInlineTimestamps : Nat → Nat → GoString → List (Nat × Nat)
  | _, _, [] => []
  | pos, skip + 1, _ :: t => findInlineTimestamps (pos + 1) skip t
  | pos, 0, c :: t =>
    match inlineTimestampLen (c :: t) with
    | some n => (pos, pos + n) :: findInlineTimestamps (pos + 1) (n - 1) t
    | none => findInlineTimestamps (pos + 1) 0 t

/-- Go slice expression `line[a:b]`. -/
def slice (line : GoString) (a b : Nat) : GoString := (line.take b).drop a

/-! ## Cue text -/

/-- The colour names and their hexadecimal values, the table of `cssColor`. -/
def cssColors : List (GoString × GoString) :=
  [(str "#00ffff", str "cyan"), (str "#ffff00", str "yellow"), (str "#ff0000", str "red"),
   (str "#ff00ff", str "magenta"), (str "#00ff00", str "lime")]

/-- The source function `cssColor`: the name of a colour, empty when unknown. -/
def cssColor (rgb : GoString) : GoString := (mapGet cssColors (ToLower rgb)).getD []

/-- Modelled from the spec: `propagateWebVTTAttributes` is declared outside
`src/`. Section 3 describes it as the helper that recomputes the derived fields
of a StyleAttributes record when its tag stack has changed. Of the fields the
record has here, those `webvtt.go` reads, the WebVTT fields are what the helper
is given; `TTMLColor` is assigned by no statement of `webvtt.go`, and section
4.2 names as derivation of a colour only the resolution of a hexadecimal value
to a colour name, which is `cssColor` in the writer. The helper is therefore
read as leaving the fields of the record here as they are. -/
def propagateWebVTTAttributes (sa : StyleAttributes) : StyleAttributes := sa

/-- The loop of `parseTextWebVTTTextToken` over the inline timestamps. -/
def textTokenSegments (sa : Option StyleAttributes) (line : GoString) :
    List (Nat × Nat) → List LineItem
  | [] => []
  | m :: rest =>
    let endIndex := match rest with
      | [] => line.length
      | next :: _ => next.1
    let s := TrimSpace (slice line m.2 endIndex)
    if s = [] then textTokenSegments sa line rest
    else
      let t := (parseDurationWebVTT (slice line (m.1 + 1) (m.2 - 1))).getD 0
      { InlineStyle := sa, StartAt := t, Text := unescapeWebVTT s } ::
        textTokenSegments sa line rest

/-- The source function `parseTextWebVTTTextToken`. -/
def parseTextWebVTTTextToken (sa : Option StyleAttributes) (line : GoString) : List LineItem :=
  match findInlineTimestamps 0 0 line with
  | [] =>
    let s := TrimSpace line
    if s ≠ [] then [{ InlineStyle := sa, Text := unescapeWebVTT s }] else []
  | first :: rest =>
    let s := TrimSpace (slice line 0 first.1)
    (if s ≠ [] then [{ InlineStyle := sa, Text := unescapeWebVTT s }] else []) ++
      textTokenSegments sa line (first :: rest)

/-- Go `strings.Trim(s, ".")`. -/
def trimDots (s : GoString) : GoString :=
  ((s.dropWhile (· == 46)).reverse.dropWhile (· == 46)).reverse

/-- The loop of `parseTextWebVTT` over the tokens: the tag stack and the line
built so far. -/
def parseTextTokens : List Token → List WebVTTTag → Line → Line
  | [], _, o => o
  | tok :: rest, stack, o =>
    match tok.tt with
    | .EndTagToken => parseTextTokens rest stack.dropLast o
    | .StartTagToken =>
      match webVTTRegexpTag tok.raw with
      | some (tagName, classes, note) =>
        if tagName = str "v" then
          if o.VoiceName = [] then
            parseTextTokens rest stack { o with VoiceName := TrimSpace note }
          else parseTextTokens rest stack o
        else
          parseTextTokens rest
            (stack ++ [{ Name := tagName,
                         Classes := if classes ≠ [] then Split (trimDots classes) (str ".") else [],
                         Annotation := TrimSpace note }]) o
      | none => parseTextTokens rest stack o
    | .TextToken =>
      let sa : Option StyleAttributes :=
        if stack ≠ [] then some (propagateWebVTTAttributes { WebVTTTags := stack }) else none
      parseTextTokens rest stack
        { o with Items := o.Items ++ parseTextWebVTTTextToken sa tok.raw }
    | _ => parseTextTokens rest stack o

/-- The source function `parseTextWebVTT`. -/
def parseTextWebVTT (i : GoString) : Line :=
  parseTextTokens (tokenize (i.length + 1) [] i) [] {}

/-! ## The reader `ReadFromWebVTT` -/

/-- The constant `webvttBlockNameComment`. -/
def webvttBlockNameComment : GoString := str "comment"

/-- The constant `webvttBlockNameStyle`. -/
def webvttBlockNameStyle : GoString := str "style"

/-- The constant `webvttBlockNameText`. -/
def webvttBlockNameText : GoString := str "text"

/-- The constant `webvttDefaultStyleID`. -/
def webvttDefaultStyleID : GoString := str "astisub-webvtt-default-style-id"

/-- The constant `webvttTimeBoundariesSeparator`. -/
def webvttTimeBoundariesSeparator : GoString := str " --> "

/-- The constant `webvttTimestampMap`. -/
def webvttTimestampMap : GoString := str "X-TIMESTAMP-MAP"

/-- The constant `BytesBOM`. -/
def BytesBOM : GoString := [239, 187, 191]

/-- The errors `ReadFromWebVTT` returns, one per site, and the two run-time panics
its statements can raise. -/
inductive ReadError where
  | invalidRegionStyle (lineNum : Nat) (part : GoString)
  | atoiFailed (text : GoString)
  | durationFailed (lineNum : Nat) (text : GoString)
  | invalidInlineStyle (lineNum : Nat) (field : GoString)
  | unknownRegion (lineNum : Nat) (id : GoString)
  | timestampMapAfterItems
  | timestampMapFailed (e : TimestampMapError)
  | nilDereference
  | indexOutOfRange
  deriving DecidableEq, Repr

/-- The variables of the scan loop of `ReadFromWebVTT`.

The pointer `item` is either the initial `&Item{}` or the last element of
`o.Items`: `prev` holds the items appended before the current one and `inDoc`
tells whether `item` is in the document, so `o.Items` is `prev` followed by
`item` when `inDoc`. The pointer `webVTTStyles` is `nil` or the record of the
default style of `o.Styles`, the only style the reader creates, so `o.Styles`
is that one entry when the pointer is set. -/
structure ReaderState where
  prev : List Item := []
  item : Item := {}
  inDoc : Bool := false
  Regions : List (GoString × Region) := []
  blockName : GoString := []
  comments : List GoString := []
  index : Int := 0
  timeOffset : Duration := 0
  webVTTStyles : Option StyleAttributes := none
  lineNum : Nat := 0
  deriving DecidableEq, Repr

/-- The slice `o.Items` of a reader state. -/
def ReaderState.Items (st : ReaderState) : List Item :=
  st.prev ++ (if st.inDoc then [st.item] else [])

/-- The map `o.Styles` of a reader state. -/
def ReaderState.Styles (st : ReaderState) : List (GoString × Style) :=
  match st.webVTTStyles with
  | none => []
  | some sa => [(webvttDefaultStyleID, { ID := webvttDefaultStyleID, InlineStyle := some sa })]

/-- The loop over the parts of a `Region: ` line: the identifier and the style
record of the region being built. -/
def parseRegionParts (lineNum : Nat) :
    List GoString → GoString → StyleAttributes → Except ReadError (GoString × StyleAttributes)
  | [], id, sa => .ok (id, sa)
  | part :: rest, id, sa =>
    match Split part (str "=") with
    | key :: val :: _ =>
      if key = str "id" then parseRegionParts lineNum rest val sa
      else if key = str "lines" then
        match ParseInt val with
        | some n => parseRegionParts lineNum rest id { sa with WebVTTLines := n }
        | none => .error (.atoiFailed val)
      else if key = str "regionanchor" then
        parseRegionParts lineNum rest id { sa with WebVTTRegionAnchor := val }
      else if key = str "scroll" then
        parseRegionParts lineNum rest id { sa with WebVTTScroll := val }
      else if key = str "viewportanchor" then
        parseRegionParts lineNum rest id { sa with WebVTTViewportAnchor := val }
      else if key = str "width" then
        parseRegionParts lineNum rest id { sa with WebVTTWidth := val }
      else parseRegionParts lineNum rest id sa
    | _ => .error (.invalidRegionStyle lineNum part)

/-- The loop over the fields that follow the end time on a timing line: the inline
style record and the region of the item being built. -/
def parseCueSettings (lineNum : Nat) (regions : List (GoString × Region)) :
    List GoString → StyleAttributes → Option Region →
      Except ReadError (StyleAttributes × Option Region)
  | [], sa, r => .ok (sa, r)
  | field :: rest, sa, r =>
    if field = [] then parseCueSettings lineNum regions rest sa r
    else
      match Split field (str ":") with
      | key :: val :: _ =>
        if key = str "align" then
          parseCueSettings lineNum regions rest { sa with WebVTTAlign := val } r
        else if key = str "line" then
          parseCueSettings lineNum regions rest { sa with WebVTTLine := val } r
        else if key = str "position" then
          parseCueSettings lineNum regions rest { sa with WebVTTPosition := val } r
        else if key = str "region" then
          match mapGet regions val with
          | none => .error (.unknownRegion lineNum val)
          | some reg => parseCueSettings lineNum regions rest sa (some reg)
        else if key = str "size" then
          parseCueSettings lineNum regions rest { sa with WebVTTSize := val } r
        else if key = str "vertical" then
          parseCueSettings lineNum regions rest { sa with WebVTTVertical := val } r
        else parseCueSettings lineNum regions rest sa r
      | _ => .error (.invalidInlineStyle lineNum field)

/-- The `Region: ` case of the scan loop. -/
def stepRegion (st : ReaderState) (line : GoString) : Except ReadError ReaderState :=
  match parseRegionParts st.lineNum (Split (TrimPrefix line (str "Region: ")) (str " ")) [] {} with
  | .error e => .error e
  | .ok (id, sa) =>
    .ok { st with
      Regions := mapSet st.Regions id { ID := id, InlineStyle := some (propagateWebVTTAttributes sa) } }

/-- The time-boundaries case of the scan loop. -/
def stepTiming (st : ReaderState) (line : GoString) : Except ReadError ReaderState :=
  match Split line webvttTimeBoundariesSeparator with
  | left0 :: left1 :: _ =>
    match Split left1 (str " ") with
    | right0 :: fields =>
      match parseDurationWebVTT left0 with
      | none => .error (.durationFailed st.lineNum left0)
      | some startAt =>
        match parseDurationWebVTT right0 with
        | none => .error (.durationFailed st.lineNum right0)
        | some endAt =>
          match parseCueSettings st.lineNum st.Regions fields {} none with
          | .error e => .error e
          | .ok (sa, region) =>
            .ok { st with
              blockName := webvttBlockNameText
              prev := st.Items
              item := { Comments := st.comments, Index := st.index, StartAt := startAt,
                        EndAt := endAt, InlineStyle := some (propagateWebVTTAttributes sa),
                        Region := region }
              inDoc := true
              index := 0
              comments := [] }
    | [] => .error .indexOutOfRange
  | _ => .error .indexOutOfRange

/-- The default case of the scan loop: a line of the current block. -/
def stepText (st : ReaderState) (line : GoString) : Except ReadError ReaderState :=
  if st.blockName = webvttBlockNameComment then
    .ok { st with comments := st.comments ++ [line] }
  else if st.blockName = webvttBlockNameStyle then
    match st.webVTTStyles with
    | none => .error .nilDereference
    | some sa => .ok { st with webVTTStyles := some { sa with WebVTTStyles := sa.WebVTTStyles ++ [line] } }
  else if st.blockName = webvttBlockNameText then
    let l := parseTextWebVTT line
    if 0 < l.Items.length then
      .ok { st with item := { st.item with Lines := st.item.Lines ++ [l] } }
    else .ok st
  else .ok { st with index := atoiValue line }

/-- Whether an empty line leaves the style block open: the block is a style
sheet whose last accumulated line does not end with a closing brace (byte
125). -/
def styleBlockOpen (st : ReaderState) : Bool :=
  st.blockName == webvttBlockNameStyle &&
    (match st.webVTTStyles with
     | none => false
     | some sa =>
       match sa.WebVTTStyles.getLast? with
       | none => false
       | some last => !HasSuffix last [125])

/-- The `switch` of the scan loop of `ReadFromWebVTT` on the trimmed line. -/
def stepLine (st : ReaderState) (line : GoString) : Except ReadError ReaderState :=
  if HasPrefix line (str "NOTE ") then
    .ok { st with
      blockName := webvttBlockNameComment
      comments := st.comments ++ [TrimPrefix line (str "NOTE ")] }
  else if line.length = 0 then
    if styleBlockOpen st then .ok st else .ok { st with blockName := [] }
  else if HasPrefix line (str "Region: ") then stepRegion st line
  else if HasPrefix line (str "STYLE") then
    .ok { st with
      blockName := webvttBlockNameStyle
      webVTTStyles := match st.webVTTStyles with
        | none => some {}
        | some sa => some sa }
  else if Contains line webvttTimeBoundariesSeparator then stepTiming st line
  else if HasPrefix line webvttTimestampMap then
    if 0 < st.item.Lines.length then .error .timestampMapAfterItems
    else
      match parseTimestampMapWebVTT line with
      | .error e => .error (.timestampMapFailed e)
      | .ok d => .ok { st with timeOffset := d }
  else stepText st line

/-- One iteration of the scan loop of `ReadFromWebVTT` on the scanned text
`text`: the line is trimmed, the line number counted, the line dispatched. -/
def step (st : ReaderState) (text : GoString) : Except ReadError ReaderState :=
  stepLine { st with lineNum := st.lineNum + 1 } (TrimSpace text)

/-- The scan loop over the lines that follow the header. -/
def scan : ReaderState → List GoString → Except ReadError ReaderState
  | st, [] => .ok st
  | st, text :: rest =>
    match step st text with
    | .error e => .error e
    | .ok st2 => scan st2 rest

/-- Whether the header loop stops at this line: with the byte-order mark
trimmed, its first field is `WEBVTT`. -/
def isHeaderLine (text : GoString) : Bool :=
  firstField (TrimPrefix text BytesBOM) == some (str "WEBVTT")

/-- The lines left to the scan loop by the header loop. -/
def skipHeader : List GoString → List GoString
  | [] => []
  | text :: rest => if isHeaderLine text then rest else skipHeader rest

/-- Modelled from the spec: `Subtitles.Add` is declared outside `src/`. Section
4.3 has the reader shift every cue's start and end time forward by the
offset. -/
def Subtitles.Add (s : Subtitles) (d : Duration) : Subtitles :=
  { s with Items := s.Items.map fun it => { it with StartAt := it.StartAt + d, EndAt := it.EndAt + d } }

/-- The document a final reader state stands for, before the offset is applied. -/
def ReaderState.document (st : ReaderState) : Subtitles :=
  { Items := st.Items, Regions := st.Regions, Styles := st.Styles }

/-- The end of `ReadFromWebVTT`: the offset is applied when it is positive. -/
def finish (st : ReaderState) : Subtitles :=
  if 0 < st.timeOffset then st.document.Add st.timeOffset else st.document

/-- `ReadFromWebVTT` on the lines the scanner delivers. -/
def readLines (lines : List GoString) : Except ReadError Subtitles :=
  match scan { lineNum := lines.length - (skipHeader lines).length } (skipHeader lines) with
  | .error e => .error e
  | .ok st => .ok (finish st)

/-- The lines of the input as `bufio.ScanLines` cuts them, before the carriage
return is dropped. -/
def splitLines : GoString → List GoString
  | [] => []
  | c :: t =>
    if c = 10 then [] :: splitLines t
    else
      match splitLines t with
      | l :: ls => (c :: l) :: ls
      | [] => [[c]]

/-- The `dropCR` of `bufio.ScanLines`: one trailing carriage return is dropped. -/
def dropCR (l : GoString) : GoString := if l.getLast? = some 13 then l.dropLast else l

/-- The longest line a `bufio.Scanner` delivers: with its line feed the line has
to fit the buffer of `bufio.MaxScanTokenSize` bytes. -/
def maxLineLength : Nat := 64 * 1024 - 1

/-- The successive `scanner.Text()` of a `bufio.Scanner` over the input: the
scanner stops at a line that is too long, and the source does not look at the
scanner's error. -/
def scanLines (i : GoString) : List GoString :=
  ((splitLines i).takeWhile fun l => l.length ≤ maxLineLength).map dropCR

/-- The source function `ReadFromWebVTT`. -/
def ReadFromWebVTT (i : GoString) : Except ReadError Subtitles := readLines (scanLines i)

/-! ## The lines of an input as the spec names them -/

/-- Whether the scan loop takes a trimmed line for a cue timing line: it holds the
time-boundary separator and is not taken by an earlier case (comment, empty
line, region, style sheet). -/
def isTimingLine (line : GoString) : Bool :=
  !HasPrefix line (str "NOTE ") && line.length != 0 && !HasPrefix line (str "Region: ") &&
    !HasPrefix line (str "STYLE") && Contains line webvttTimeBoundariesSeparator

/-- Whether the scan loop takes a trimmed line for a correlation header: it begins
with the header keyword and is not taken by an earlier case. -/
def isTimestampMapLine (line : GoString) : Bool :=
  !HasPrefix line (str "NOTE ") && line.length != 0 && !HasPrefix line (str "Region: ") &&
    !HasPrefix line (str "STYLE") && !Contains line webvttTimeBoundariesSeparator &&
    HasPrefix line webvttTimestampMap

/-- The start and end time written in a timing line: the text to the left of the
separator, and the first space-delimited field to its right. -/
def writtenTimes (line : GoString) : Option (Duration × Duration) :=
  match Split line webvttTimeBoundariesSeparator with
  | left0 :: left1 :: _ =>
    match Split left1 (str " ") with
    | right0 :: _ =>
      match parseDurationWebVTT left0, parseDurationWebVTT right0 with
      | some a, some b => some (a, b)
      | _, _ => none
    | [] => none
  | _ => none

/-- The settings of a timing line: the space-delimited fields after the end
time. -/
def timingFields (line : GoString) : List GoString :=
  match Split line webvttTimeBoundariesSeparator with
  | _ :: left1 :: _ => (Split left1 (str " ")).drop 1
  | _ => []

/-- Whether a setting of a timing line is a region reference `region:<id>`. -/
def isRegionField (field : GoString) : Bool :=
  match Split field (str ":") with
  | key :: _ :: _ => key == str "region"
  | _ => false

/-- Whether the scan loop takes a trimmed line for a Region declaration. -/
def isRegionLine (line : GoString) : Bool :=
  !HasPrefix line (str "NOTE ") && line.length != 0 && HasPrefix line (str "Region: ")

/-- The identifier among the parts of a Region declaration: the value of the last
`id=` part, `id` when there is none. -/
def regionIdOf : List GoString → GoString → GoString
  | [], id => id
  | part :: rest, id =>
    match Split part (str "=") with
    | key :: val :: _ => if key = str "id" then regionIdOf rest val else regionIdOf rest id
    | _ => regionIdOf rest id

/-- The identifiers the Region lines of an input declare. -/
def declaredRegions (lines : List GoString) : List GoString :=
  lines.filterMap fun text =>
    if isRegionLine (TrimSpace text) then
      some (regionIdOf (Split (TrimPrefix (TrimSpace text) (str "Region: ")) (str " ")) [])
    else none

/-- Whether the scan loop takes a trimmed line for an ordinary line of the current
block: it is not empty and none of the cases before the default one takes it. -/
def isOrdinaryLine (line : GoString) : Bool :=
  !HasPrefix line (str "NOTE ") && line.length != 0 && !HasPrefix line (str "Region: ") &&
    !HasPrefix line (str "STYLE") && !Contains line webvttTimeBoundariesSeparator &&
    !HasPrefix line webvttTimestampMap

/-- The times written in the timing lines of an input, in order. -/
def cueTimes (lines : List GoString) : List (Duration × Duration) :=
  lines.filterMap fun text =>
    if isTimingLine (TrimSpace text) then writtenTimes (TrimSpace text) else none

/-- The offset of the correlation header of an input: that of its last header
line, zero when it has none. -/
def correlationOffset (lines : List GoString) : Duration :=
  lines.foldl
    (fun d text =>
      if isTimestampMapLine (TrimSpace text) then
        match parseTimestampMapWebVTT (TrimSpace text) with
        | .ok x => x
        | .error _ => d
      else d)
    0

/-- The start and end time of a cue. -/
def Item.times (it : Item) : Duration × Duration := (it.StartAt, it.EndAt)

/-! ## The writer `WriteToWebVTTWithSync` -/

/-- The constant `bytesSpace`. -/
def bytesSpace : GoString := str " "

/-- The constant `bytesLineSeparator`. -/
def bytesLineSeparator : GoString := [10]

/-- Modelled from the spec: `WebVTTTag.startTag` is declared outside `src/`.
Section 4.4 has the tag stack rendered as open tags; a tag is written with its
name, its dot-separated classes and its annotation, the form section 4.2 reads. -/
def WebVTTTag.startTag (t : WebVTTTag) : GoString :=
  if t.Name = [] then []
  else
    str "<" ++ t.Name ++ (if t.Classes ≠ [] then str "." ++ Join t.Classes (str ".") else []) ++
      (if WebVTTTag.Annotation t ≠ [] then str " " ++ WebVTTTag.Annotation t else []) ++ str ">"

/-- Modelled from the spec: `WebVTTTag.endTag` is declared outside `src/`.
Section 4.4 has the close tags of the stack written in reverse order. -/
def WebVTTTag.endTag (t : WebVTTTag) : GoString :=
  if t.Name = [] then [] else str "</" ++ t.Name ++ str ">"

/-- The source method `LineItem.webVTTBytes`. -/
def LineItem.webVTTBytes (li : LineItem) : GoString :=
  let color : GoString :=
    match li.InlineStyle with
    | some sa =>
      match sa.TTMLColor with
      | some c => cssColor c
      | none => []
    | none => []
  let tags : List WebVTTTag :=
    match li.InlineStyle with
    | some sa => sa.WebVTTTags
    | none => []
  (if 0 < li.StartAt then str "<" ++ formatDurationWebVTT li.StartAt ++ str ">" else []) ++
    (if color ≠ [] then str "<c." ++ color ++ str ">" else []) ++
    (tags.map WebVTTTag.startTag).flatten ++
    escapeWebVTT li.Text ++
    (tags.reverse.map WebVTTTag.endTag).flatten ++
    (if color ≠ [] then str "</c>" else [])

/-- The items of a line, a space after each but the last. -/
def lineItemsBytes : List LineItem → GoString
  | [] => []
  | [li] => li.webVTTBytes
  | li :: rest => li.webVTTBytes ++ str " " ++ lineItemsBytes rest

/-- The source method `Line.webVTTBytes`. -/
def Line.webVTTBytes (l : Line) : GoString :=
  (if l.VoiceName ≠ [] then str "<v " ++ l.VoiceName ++ str ">" else []) ++
    lineItemsBytes l.Items ++ bytesLineSeparator

/-- The two things `WriteToWebVTTWithSync` does with its `float64` argument
`offset`: the test `offset == 0` and the conversion `int(offset*90000)`. -/
structure SyncOffset where
  isZero : Bool
  ticks : Int
  deriving DecidableEq, Repr

/-- The header bytes of `WriteToWebVTTWithSync`. -/
def headerBytes (offset : SyncOffset) : GoString :=
  if offset.isZero then str "WEBVTT\n\n"
  else str "WEBVTT\n" ++ webvttTimestampMap ++ str "=MPEGTS:" ++ Itoa offset.ticks ++
    str ",LOCAL:00:00:00.000\n\n"

/-- The slice `style` of `WriteToWebVTTWithSync`: the declaration lines of every
style that has a record, in the iteration order of the map. -/
def styleLines (styles : List (GoString × Style)) : List GoString :=
  (styles.map fun kv =>
    match kv.2.InlineStyle with
    | some sa => sa.WebVTTStyles
    | none => []).flatten

/-- The style block of `WriteToWebVTTWithSync`. -/
def styleBytes (styles : List (GoString × Style)) : GoString :=
  if 0 < (styleLines styles).length then
    str "STYLE\n" ++ Join (styleLines styles) (str "\n") ++ str "\n\n"
  else []

/-- The style record a region or an item falls back on: that of its `Style`,
when both pointers are set. -/
def fallbackStyle (st : Option Style) : Option StyleAttributes :=
  match st with
  | some s => s.InlineStyle
  | none => none

/-- One text setting as the writer emits it: the inline value when it is not
empty, else the value of the referenced style when there is one and it is not
empty, else nothing. -/
def settingBytes (key : GoString) (inline : GoString) (fallback : Option GoString) : GoString :=
  if inline ≠ [] then bytesSpace ++ key ++ inline
  else
    match fallback with
    | some v => if v ≠ [] then bytesSpace ++ key ++ v else []
    | none => []

/-- The order `sort.Strings` sorts by: byte-wise lexicographic. -/
def stringLE : GoString → GoString → Bool
  | [], _ => true
  | _ :: _, [] => false
  | a :: s, b :: t => decide (a < b) || (a == b && stringLE s t)

/-- Go `sort.Strings`: the result of sorting is the same for every sorting
algorithm, equal strings being indistinguishable. -/
def sortStrings (k : List GoString) : List GoString :=
  k.insertionSort fun a b => stringLE a b = true

/-- The line `WriteToWebVTTWithSync` writes for a region; `none` is the nil
dereference when the region has no style record. -/
def regionEntryLine (r : Region) : Option GoString :=
  match r.InlineStyle with
  | none => none
  | some sa =>
    let fb := fallbackStyle r.Style
    some (str "Region: id=" ++ r.ID ++
      (if sa.WebVTTLines ≠ 0 then bytesSpace ++ str "lines=" ++ Itoa sa.WebVTTLines
       else
         match fb with
         | some f => if f.WebVTTLines ≠ 0 then bytesSpace ++ str "lines=" ++ Itoa f.WebVTTLines else []
         | none => []) ++
      settingBytes (str "regionanchor=") sa.WebVTTRegionAnchor (fb.map (·.WebVTTRegionAnchor)) ++
      settingBytes (str "scroll=") sa.WebVTTScroll (fb.map (·.WebVTTScroll)) ++
      settingBytes (str "viewportanchor=") sa.WebVTTViewportAnchor (fb.map (·.WebVTTViewportAnchor)) ++
      settingBytes (str "width=") sa.WebVTTWidth (fb.map (·.WebVTTWidth)) ++
      bytesLineSeparator)

/-- The line `WriteToWebVTTWithSync` writes for the region `s.Regions[id]`;
`none` is the nil dereference when `id` is not a key of the map or the region
has no style record. -/
def regionLine (regions : List (GoString × Region)) (id : GoString) : Option GoString :=
  match mapGet regions id with
  | none => none
  | some r => regionEntryLine r

/-- The lines of the regions, in the order of the sorted identifiers `k`. -/
def regionLines (regions : List (GoString × Region)) : List GoString → Option (List GoString)
  | [] => some []
  | id :: rest =>
    match regionLine regions id, regionLines regions rest with
    | some l, some ls => some (l :: ls)
    | _, _ => none

/-- The slice `k` of `WriteToWebVTTWithSync`, sorted: the identifiers of the
regions of the map. -/
def regionKeys (regions : List (GoString × Region)) : List GoString :=
  sortStrings (regions.map fun kv => kv.2.ID)

/-- The region block of `WriteToWebVTTWithSync`. -/
def regionsBytes (regions : List (GoString × Region)) : Option GoString :=
  match regionLines regions (regionKeys regions) with
  | none => none
  | some ls => some (ls.flatten ++ (if 0 < regions.length then bytesLineSeparator else []))

/-- The settings `WriteToWebVTTWithSync` appends to the timing line of an
item. -/
def itemStyleBytes (item : Item) : GoString :=
  match item.InlineStyle with
  | none => []
  | some sa =>
    let fb := fallbackStyle item.Style
    settingBytes (str "align:") sa.WebVTTAlign (fb.map (·.WebVTTAlign)) ++
    settingBytes (str "line:") sa.WebVTTLine (fb.map (·.WebVTTLine)) ++
    settingBytes (str "position:") sa.WebVTTPosition (fb.map (·.WebVTTPosition)) ++
    (match item.Region with
     | some r => bytesSpace ++ str "region:" ++ r.ID
     | none => []) ++
    settingBytes (str "size:") sa.WebVTTSize (fb.map (·.WebVTTSize)) ++
    settingBytes (str "vertical:") sa.WebVTTVertical (fb.map (·.WebVTTVertical))

/-- The value the spec gives a text setting of a cue: the cue's inline value when
that is not empty, otherwise the value of the cue's referenced Style, the empty
string standing for nothing. -/
def resolveSetting (inline : GoString) (style : Option Style)
    (field : StyleAttributes → GoString) : GoString :=
  if inline ≠ [] then inline
  else
    match style with
    | some st =>
      match st.InlineStyle with
      | some sa => field sa
      | none => []
    | none => []

/-- The settings of a cue with inline record `sa` as the spec lists them, each a
key and a value, in the fixed order align, line, position, region, size,
vertical: a text setting is listed when its resolved value is not empty, the
region whenever the cue references one. -/
def cueSettings (item : Item) (sa : StyleAttributes) : List (GoString × GoString) :=
  [(str "align", resolveSetting sa.WebVTTAlign item.Style (·.WebVTTAlign)),
   (str "line", resolveSetting sa.WebVTTLine item.Style (·.WebVTTLine)),
   (str "position", resolveSetting sa.WebVTTPosition item.Style (·.WebVTTPosition))].filter
      (fun kv => kv.2 ≠ []) ++
    (match item.Region with
     | some r => [(str "region", r.ID)]
     | none => []) ++
    [(str "size", resolveSetting sa.WebVTTSize item.Style (·.WebVTTSize)),
     (str "vertical", resolveSetting sa.WebVTTVertical item.Style (·.WebVTTVertical))].filter
      (fun kv => kv.2 ≠ [])

/-- A list of settings on a timing line: a space, the key, a colon, the value for
each. -/
def renderSettings (l : List (GoString × GoString)) : GoString :=
  (l.map fun kv => str " " ++ kv.1 ++ str ":" ++ kv.2).flatten

/-- The comments block `WriteToWebVTTWithSync` writes before an item. -/
def commentsBytes (comments : List GoString) : GoString :=
  if 0 < comments.length then
    str "NOTE " ++ (comments.map fun c => c ++ bytesLineSeparator).flatten ++ bytesLineSeparator
  else []

/-- The bytes `WriteToWebVTTWithSync` writes for the item at position `index`. -/
def itemBytes (index : Nat) (item : Item) : GoString :=
  commentsBytes item.Comments ++
    Itoa (index + 1) ++ bytesLineSeparator ++
    formatDurationWebVTT item.StartAt ++ webvttTimeBoundariesSeparator ++
    formatDurationWebVTT item.EndAt ++
    itemStyleBytes item ++ bytesLineSeparator ++
    (item.Lines.map Line.webVTTBytes).flatten ++ bytesLineSeparator

/-- The loop of `WriteToWebVTTWithSync` through the items, from position
`index`. -/
def itemsBytes : Nat → List Item → GoString
  | _, [] => []
  | index, item :: rest => itemBytes index item ++ itemsBytes (index + 1) rest

/-- The source method `WriteToWebVTTWithSync`: the bytes handed to `o.Write`,
`none` when the method panics before it writes. -/
def WriteToWebVTTWithSync (s : Subtitles) (offset : SyncOffset) : Option GoString :=
  match regionsBytes s.Regions with
  | none => none
  | some regions =>
    some (headerBytes offset ++ styleBytes s.Styles ++ regions ++ itemsBytes 0 s.Items).dropLast

/-- The source method `WriteToWebVTT`: `WriteToWebVTTWithSync(o, 0)`. -/
def WriteToWebVTT (s : Subtitles) : Option GoString :=
  WriteToWebVTTWithSync s { isZero := true, ticks := 0 }

/-! ## Example inputs -/

/-- An input with a correlation header of 10 seconds before its one cue. -/
def exampleCorrelated : GoString :=
  str ("WEBVTT\nX-TIMESTAMP-MAP=LOCAL:00:00:00.000,MPEGTS:900000\n\n" ++
    "00:00:01.000 --> 00:00:04.000\nHi\n")

/-- An input whose correlation header comes after a cue that has text, on the
line after the timing line of a second cue. -/
def exampleLateHeader : GoString :=
  str ("WEBVTT\n\n00:00:01.000 --> 00:00:02.000\nHello\n\n" ++
    "00:00:03.000 --> 00:00:04.000\n" ++
    "X-TIMESTAMP-MAP=LOCAL:00:00:00.000,MPEGTS:900000\n")

/-- An input whose correlation header comes right after the text of its cue. -/
def exampleHeaderAfterText : GoString :=
  str ("WEBVTT\n\n00:00:01.000 --> 00:00:02.000\nHello\n" ++
    "X-TIMESTAMP-MAP=LOCAL:00:00:00.000,MPEGTS:900000\n")

/-- An input whose one cue has the text line `NOTE<00:00:01.500>x`. -/
def exampleNoteText : GoString :=
  str "WEBVTT\n\n00:00:01.000 --> 00:00:02.000\nNOTE<00:00:01.500>x\n"

/-- An input whose one cue refers to a region that no line declares. -/
def exampleUnknownRegion : GoString :=
  str "WEBVTT\n\n00:00:01.000 --> 00:00:02.000 region:doesnotexist\nHi\n"

/-- The document `ReadFromWebVTT` returns for an input, the empty document when
it returns an error. -/
def documentOf (i : GoString) : Subtitles :=
  match ReadFromWebVTT i with
  | .ok doc => doc
  | .error _ => {}

/-- The bytes `WriteToWebVTT` writes for a document, nothing when it panics. -/
def writtenOf (s : Subtitles) : GoString := (WriteToWebVTT s).getD []

/-- The text of the cues of a document: for each cue, for each of its lines, the
text of each item. -/
def cueTexts (s : Subtitles) : List (List (List GoString)) :=
  s.Items.map fun it => it.Lines.map fun l => l.Items.map LineItem.Text

/-- A document with two regions, inserted in descending order of identifier. -/
def exampleRegions : Subtitles :=
  { Regions := [(str "b", { ID := str "b", InlineStyle := some {} }),
                (str "a", { ID := str "a", InlineStyle := some { WebVTTWidth := str "40%" } })] }

/-! ## The runs of a text token as the spec names them -/

/-- Where the segment that starts a list of inline timestamps ends: at the start
of the first of them, at the end of the text when there is none. -/
def segmentEnd (line : GoString) : List (Nat × Nat) → Nat
  | [] => line.length
  | m :: _ => m.1

/-- The segments that follow the inline timestamps of a text: for each timestamp,
its text between the angle brackets and the segment from its end up to the next
timestamp or the end of the text. -/
def segmentsAfter (line : GoString) : List (Nat × Nat) → List (Option GoString × GoString)
  | [] => []
  | m :: rest =>
    (some (slice line (m.1 + 1) (m.2 - 1)), slice line m.2 (segmentEnd line rest)) ::
      segmentsAfter line rest

/-- Whether `b` is the text of a timestamp as section 4.1 writes it,
`[HH:]MM:SS.mmm`, read from its end: three digits of milliseconds, the dot, two
digits of seconds, a colon, two digits of minutes, and before them either
nothing or a colon preceded by an hour field of two or more digits. -/
def isTimestampText (b : GoString) : Bool :=
  match b.reverse with
  | f3 :: f2 :: f1 :: 46 :: s2 :: s1 :: 58 :: m2 :: m1 :: hours =>
    isDigit f3 && isDigit f2 && isDigit f1 && isDigit s2 && isDigit s1 && isDigit m2 &&
      isDigit m1 &&
      (match hours with
       | [] => true
       | 58 :: h => decide (2 ≤ h.length) && h.all isDigit
       | _ => false)
  | _ => false

/-- The inline timestamp that stands at the head of the text `s`, if one does:
`<`, then up to the next `>` the text of a timestamp. The result is the text of
the timestamp, without the two brackets. -/
def inlineTimestampAt : GoString → Option GoString
  | 60 :: t =>
    let body := t.takeWhile (· != 62)
    if (t.drop body.length).head? = some 62 ∧ isTimestampText body = true then some body
    else none
  | _ => none

/-- The inline timestamps of a text as section 4.2 names them: every byte offset
at which an inline timestamp stands, with the offset after its `>`, in
increasing order; `pos` is the offset of `s` in the text. -/
def inlineTimestamps (pos : Nat) : GoString → List (Nat × Nat)
  | [] => []
  | c :: t =>
    match inlineTimestampAt (c :: t) with
    | some body => (pos, pos + (body.length + 2)) :: inlineTimestamps (pos + 1) t
    | none => inlineTimestamps (pos + 1) t

/-- Unescaping as section 4.2 describes it: from left to right, each entity
reference of `&`, `<`, `>` and the non-breaking space becomes the byte it stands
for and every other byte is kept. The reference of the non-breaking space is
`&nbsp`, without a semicolon, as the table `webVTTUnescaper` of the source has
it. -/
def unescapeEntities : GoString → GoString
  | 38 :: 97 :: 109 :: 112 :: 59 :: t => 38 :: unescapeEntities t
  | 38 :: 108 :: 116 :: 59 :: t => 60 :: unescapeEntities t
  | 38 :: 103 :: 116 :: 59 :: t => 62 :: unescapeEntities t
  | 38 :: 110 :: 98 :: 115 :: 112 :: t => 160 :: unescapeEntities t
  | c :: t => c :: unescapeEntities t
  | [] => []

/-- The segments of a text token: the text before the first inline timestamp,
which has no timestamp, then the segment of each inline timestamp. -/
def textSegments (line : GoString) : List (Option GoString × GoString) :=
  (none, slice line 0 (segmentEnd line (inlineTimestamps 0 line))) ::
    segmentsAfter line (inlineTimestamps 0 line)

/-- The item of a segment: none when the segment is blank after trimming,
otherwise the item that carries `sa`, has the unescaped trimmed segment as text
and the parsed timestamp as start offset, zero when the segment has no timestamp
or the timestamp fails to parse. -/
def segmentItem (sa : Option StyleAttributes) (seg : Option GoString × GoString) :
    Option LineItem :=
  if TrimSpace seg.2 = [] then none
  else
    some { InlineStyle := sa
           StartAt := match seg.1 with
             | none => 0
             | some ts => (parseDurationWebVTT ts).getD 0
           Text := unescapeEntities (TrimSpace seg.2) }

/-! ## Well-formed tags and the tag stack of a run -/

/-- The tag stack of a run: that of its style record, empty when it has none. -/
def LineItem.tags (li : LineItem) : List WebVTTTag :=
  match li.InlineStyle with
  | some sa => sa.WebVTTTags
  | none => []

/-- The colour name `LineItem.webVTTBytes` finds for a run: empty when the run has
no style record, no colour, or a colour outside the table. -/
def LineItem.colorName (li : LineItem) : GoString :=
  match li.InlineStyle with
  | some sa =>
    match sa.TTMLColor with
    | some c => cssColor c
    | none => []
  | none => []

/-- A byte that may stand in the name or in a class of a tag: no control byte,
not the space, and none of `.`, `/` and `>`. -/
def isTagByte (c : Nat) : Bool := decide (33 ≤ c) && c != 46 && c != 47 && c != 62

/-- A well-formed tag: its name begins with a letter and goes on with tag bytes,
it is not the voice tag, which the reader keeps out of the stack, and without
classes it is none of the raw-text elements of the tokenizer; its classes are
non-empty and made of tag bytes; its annotation, which may have several words,
has no `/` and no `>`, has no quotation mark when it has a `=`, and neither
begins nor ends with white space. -/
def wellFormedTag (t : WebVTTTag) : Bool :=
  (match t.Name with
   | c :: rest => isLetter c && rest.all isTagByte
   | [] => false) &&
    t.Name != str "v" && (t.Classes != [] || !rawTextTags.contains (ToLower t.Name)) &&
    t.Classes.all (fun cls => cls != [] && cls.all isTagByte) &&
    (WebVTTTag.Annotation t).all (fun c => c != 47 && c != 62) &&
    (!(WebVTTTag.Annotation t).contains 61 ||
      (WebVTTTag.Annotation t).all (fun c => c != 34 && c != 39)) &&
    TrimSpace (WebVTTTag.Annotation t) == WebVTTTag.Annotation t

/-- A printable ASCII byte other than `.`, `/`, `<`, `=` and `>`. -/
def isPlainByte (c : Nat) : Bool :=
  decide (33 ≤ c) && decide (c ≤ 126) && c != 46 && c != 47 && c != 60 && c != 61 && c != 62

/-- A plain tag: its name begins with a letter and goes on with plain bytes, it is
neither the voice tag nor one of the raw-text elements of the tokenizer, its
classes are non-empty and made of plain bytes, and so is its annotation when it
has one. -/
def plainTag (t : WebVTTTag) : Bool :=
  (match t.Name with
   | c :: rest => isLetter c && rest.all isPlainByte
   | [] => false) &&
    t.Name != str "v" && !rawTextTags.contains (ToLower t.Name) &&
    t.Classes.all (fun cls => cls != [] && cls.all isPlainByte) &&
    (WebVTTTag.Annotation t).all isPlainByte

/-- The classes of a rendered start tag: a dot before each class. -/
def classPart (classes : List GoString) : GoString :=
  if classes ≠ [] then str "." ++ Join classes (str ".") else []

/-- The annotation of a rendered start tag: a space before it when there is
one. -/
def labelPart (a : GoString) : GoString := if a ≠ [] then str " " ++ a else []

/-- Text in which the tokenizer finds no tag, comment or declaration, whatever
follows it: no `<` is followed by a letter, `/`, `!` or `?`, and the last byte
is not `<`. -/
def plainText : GoString → Bool
  | [] => true
  | [c] => c != 60
  | c :: d :: t => !markupStart [c, d] && plainText (d :: t)

/-! ## The style pointers of the scan loop

`ReaderState` keeps one record for the two pointers the source holds to the
style sheet, the variable `webVTTStyles` and the `InlineStyle` of the entry
`o.Styles[webvttDefaultStyleID]`. The state below keeps the two pointers apart,
with the heap of the records they point to, and follows the statements of the
scan loop that read or write the block name and the two pointers. -/

/-- The block name, the variable `webVTTStyles` (`nil` or an address), the
`InlineStyle` pointer of the entry `o.Styles[webvttDefaultStyleID]` (no entry, or
an address) and the heap of the `StyleAttributes` records allocated by the loop:
the address of a record is its position, and of a record the field
`WebVTTStyles` is kept, the one the loop writes. -/
structure StylePointers where
  blockName : GoString := []
  styleVar : Option Nat := none
  defaultStyle : Option Nat := none
  heap : List (List GoString) := []
  deriving DecidableEq, Repr

/-- The `switch` of the scan loop on the trimmed line, seen from the block name
and the style pointers; `none` is the panic of a nil or dangling pointer
dereference. The cases that can return an error in the source go on here, so
the states reached here include those the source reaches. -/
def pointerStepLine (s : StylePointers) (line : GoString) : Option StylePointers :=
  if HasPrefix line (str "NOTE ") then some { s with blockName := webvttBlockNameComment }
  else if line.length = 0 then
    if s.blockName ≠ webvttBlockNameStyle then some { s with blockName := [] }
    else
      match s.styleVar with
      | none => some { s with blockName := [] }
      | some p =>
        match s.heap[p]? with
        | none => none
        | some styles =>
          match styles.getLast? with
          | none => some { s with blockName := [] }
          | some last =>
            if HasSuffix last [125] then some { s with blockName := [] } else some s
  else if HasPrefix line (str "Region: ") then some s
  else if HasPrefix line (str "STYLE") then
    match s.defaultStyle with
    | none =>
      some { blockName := webvttBlockNameStyle
             styleVar := some s.heap.length
             defaultStyle := some s.heap.length
             heap := s.heap ++ [[]] }
    | some _ => some { s with blockName := webvttBlockNameStyle }
  else if Contains line webvttTimeBoundariesSeparator then
    some { s with blockName := webvttBlockNameText }
  else if HasPrefix line webvttTimestampMap then some s
  else if s.blockName = webvttBlockNameComment then some s
  else if s.blockName = webvttBlockNameStyle then
    match s.styleVar with
    | none => none
    | some p =>
      match s.heap[p]? with
      | none => none
      | some styles => some { s with heap := s.heap.set p (styles ++ [line]) }
  else some s

/-- The scan loop over the lines that follow the header, seen from the block name
and the style pointers. -/
def pointerScan : StylePointers → List GoString → Option StylePointers
  | s, [] => some s
  | s, text :: rest =>
    match pointerStepLine s (TrimSpace text) with
    | none => none
    | some s2 => pointerScan s2 rest

/-- The record a style pointer points to, as the `StyleAttributes` it is: all
fields but `WebVTTStyles` are those of `&StyleAttributes{}`. -/
def StylePointers.record (s : StylePointers) (ptr : Option Nat) : Option StyleAttributes :=
  (ptr.bind fun p => s.heap[p]?).map fun styles => { WebVTTStyles := styles }

/-- The two style pointers are the same, nil or an allocated address, and not nil
while the block is a style sheet. -/
def StylePointers.sound (s : StylePointers) : Prop :=
  s.styleVar = s.defaultStyle ∧ (∀ p, s.styleVar = some p → p < s.heap.length) ∧
    (s.blockName = webvttBlockNameStyle → s.styleVar ≠ none)

/-- A reader state and a state of the style pointers tell the same: the same
block name, and the record of the reader state is the one the default style of
`o.Styles` points to. -/
def agrees (st : ReaderState) (s : StylePointers) : Prop :=
  st.blockName = s.blockName ∧ st.webVTTStyles = s.record s.defaultStyle

/-! ## The sink of the writer -/

/-- An `io.Writer`: the error `Write` returns for the bytes it is handed, `none`
when it accepts them. -/
abbrev Sink := GoString → Option GoString

/-- How a call of `WriteToWebVTTWithSync` ends: it returns `nil`, it returns the
wrapped error of the sink, or it panics before it writes. -/
inductive WriteOutcome where
  | returnedNil
  | returnedError (cause : GoString)
  | panicked
  deriving DecidableEq, Repr

/-- The call `s.WriteToWebVTTWithSync(o, offset)` as a whole: the bytes are built,
handed to `o.Write`, and the error of the sink, if any, is returned wrapped. -/
def WriteToWebVTTWithSyncTo (o : Sink) (s : Subtitles) (offset : SyncOffset) : WriteOutcome :=
  match WriteToWebVTTWithSync s offset with
  | none => .panicked
  | some c =>
    match o c with
    | none => .returnedNil
    | some e => .returnedError (str "astisub: writing failed: " ++ e)

/-- A sink that accepts everything. -/
def acceptingSink : Sink := fun _ => none

/-! ## More example inputs -/

/-- The end-to-end input of the spec: the header, a blank line, a timing line with
an alignment, a text line with a voice tag and a bold tag, a blank line. -/
def exampleEndToEnd : GoString :=
  str "WEBVTT\n\n00:00:01.000 --> 00:00:04.000 align:center\n<v Bob>Hello <b>world</b></v>\n\n"

/-- A document with one region that has no style record. -/
def exampleBareRegion : Subtitles :=
  { Regions := [(str "r", { ID := str "r", InlineStyle := none })] }

/-- A document whose region map holds the region `b` under the key `a` and the
region `a` under the key `b`. -/
def exampleSwappedRegions : Subtitles :=
  { Regions := [(str "a", { ID := str "b", InlineStyle := some { WebVTTWidth := str "40%" } }),
                (str "b", { ID := str "a", InlineStyle := some {} })] }

/-- A document whose region map holds two regions that both carry the
identifier `x`, under the keys `x` and `y`. -/
def exampleSharedIdentifier : Subtitles :=
  { Regions := [(str "x", { ID := str "x", InlineStyle := some { WebVTTLines := 3 } }),
                (str "y", { ID := str "x", InlineStyle := some { WebVTTLines := 5 } })] }

/-- The content of a text token with three inline timestamps, the second
followed by blanks only and the third written without hours, with entity
references, and with the text `<5:00.000>`, which is no timestamp. -/
def exampleTimedText : GoString :=
  str " a &amp; b <00:00:01.000> c&lt;d <01:02:03.004>  <00:05.250>e<5:00.000>&nbsp;f "

/-- The style record of a run inside the tag `b`. -/
def exampleBoldStyle : StyleAttributes :=
  { WebVTTTags := [{ Name := str "b", Classes := [], Annotation := [] }] }

/-- A document with two styles that both carry a declaration line. -/
def exampleStyles : Subtitles :=
  { Styles := [(str "a", { ID := str "a", InlineStyle := some { WebVTTStyles := [str "x"] } }),
               (str "b", { ID := str "b", InlineStyle := some { WebVTTStyles := [str "y"] } })] }

/-- An input that declares the region `r` twice, a cue referring to it in
between. -/
def exampleRedeclared : GoString :=
  str ("WEBVTT\nRegion: id=r lines=3\n\n00:00:01.000 --> 00:00:04.000 region:r\nx\n\n" ++
    "Region: id=r lines=5\n")

/-- The reader state inside a style block whose one accumulated line is `::cue`. -/
def exampleOpenStyle : ReaderState :=
  { blockName := webvttBlockNameStyle
    webVTTStyles := some { WebVTTStyles := [str "::cue"] }
    lineNum := 3 }

/-- An input with one region and one cue that refers to it. -/
def exampleRegionRef : GoString :=
  str "WEBVTT\nRegion: id=r lines=3\n\n00:00:01.000 --> 00:00:04.000 region:r\nx\n"

/-- A run with the tag `c` of the class `red` and the colour red. -/
def exampleRedRun : LineItem :=
  { InlineStyle := some
      { TTMLColor := some (str "#ff0000")
        WebVTTTags := [{ Name := str "c", Classes := [str "red"], Annotation := [] }] }
    Text := str "x" }

/-- A cue-text line with two nested tags: the tag `c` with the classes `a=b` and
`é` (the two bytes of its UTF-8 form), and inside it the tag `lang` with the
annotation `en US x=1`; text inside both tags and text inside the outer tag
only. -/
def exampleTaggedLine : GoString :=
  str "<c.a=b." ++ [0xC3, 0xA9] ++ str "><lang en US x=1>x &amp; y</lang> z</c>"

/-- The outer tag of `exampleTaggedLine`. -/
def exampleClassTag : WebVTTTag :=
  { Name := str "c", Classes := [str "a=b", [0xC3, 0xA9]], Annotation := [] }

/-- The inner tag of `exampleTaggedLine`. -/
def exampleLangTag : WebVTTTag :=
  { Name := str "lang", Classes := [], Annotation := str "en US x=1" }

/-- The run read from the cue text `<b><00:00:01.000>x</b>`: the text `x` inside
the tag `b`, with the start offset of one second. -/
def exampleTimedBold : LineItem :=
  { InlineStyle := some { WebVTTTags := [{ Name := str "b", Classes := [], Annotation := [] }] }
    StartAt := 1 * Second
    Text := str "x" }

/-- The run read from the second segment of the cue text `a<00:00:01.500>x`: the
text `x` without tags, with the start offset of one second and a half. -/
def exampleTimedPlain : LineItem :=
  { InlineStyle := none
    StartAt := 1500 * Millisecond
    Text := str "x" }

end WebVTT

namespace WebVTT

theorem webVTTUnescaper_eq : webVTTUnescaper =
    [([38, 97, 109, 112, 59], [38]), ([38, 108, 116, 59], [60]), ([38, 103, 116, 59], [62]),
     ([38, 110, 98, 115, 112], [160])] := by decide

theorem webVTTEscaper_eq (b : Nat) : webVTTEscaper b =
    if b = 38 then [38, 97, 109, 112, 59] else if b = 60 then [38, 108, 116, 59]
    else if b = 62 then [38, 103, 116, 59] else if b = 160 then [38, 110, 98, 115, 112]
    else [b] := by
  unfold webVTTEscaper
  rw [show str "&amp;" = [38, 97, 109, 112, 59] by decide,
    show str "&lt;" = [38, 108, 116, 59] by decide,
    show str "&gt;" = [38, 103, 116, 59] by decide,
    show str "&nbsp" = [38, 110, 98, 115, 112] by decide]

/-- Unescaping the escaped form of one byte followed by `rest` gives the byte back
and goes on with `rest`. -/
theorem replaceFrom_escaper (b : Nat) (rest : GoString) :
    replaceFrom webVTTUnescaper 0 (webVTTEscaper b ++ rest) =
      b :: replaceFrom webVTTUnescaper 0 rest := by
  rw [webVTTEscaper_eq, webVTTUnescaper_eq]
  by_cases h1 : b = 38
  · subst h1; simp [replaceFrom, replacerLookup, HasPrefix]
  by_cases h2 : b = 60
  · subst h2; simp [replaceFrom, replacerLookup, HasPrefix]
  by_cases h3 : b = 62
  · subst h3; simp [replaceFrom, replacerLookup, HasPrefix]
  by_cases h4 : b = 160
  · subst h4; simp [replaceFrom, replacerLookup, HasPrefix]
  simp [h1, h2, h3, h4, replaceFrom, replacerLookup, HasPrefix]

/-- C2: for every string `s`, `unescapeWebVTT (escapeWebVTT s) = s`. -/
theorem unescape_escape (s : GoString) : unescapeWebVTT (escapeWebVTT s) = s := by
  induction s with
  | nil => rfl
  | cons b t ih =>
    have h : escapeWebVTT (b :: t) = webVTTEscaper b ++ escapeWebVTT t := by
      simp [escapeWebVTT]
    rw [h]
    unfold unescapeWebVTT at ih ⊢
    rw [replaceFrom_escaper, ih]

end WebVTT

namespace WebVTT

/-! ### Splitting at a single byte -/

theorem splitFrom_single_cons (c b : Nat) (t : GoString) :
    splitFrom [c] 0 (b :: t) =
      if b = c then [] :: splitFrom [c] 0 t
      else
        match splitFrom [c] 0 t with
        | p :: ps => (b :: p) :: ps
        | [] => [[b]] := by
  simp [splitFrom, HasPrefix]

theorem splitFrom_single_ne_nil (c : Nat) (s : GoString) : splitFrom [c] 0 s ≠ [] := by
  induction s with
  | nil => simp [splitFrom]
  | cons b t ih =>
    rw [splitFrom_single_cons]
    split
    · simp
    · split <;> simp

theorem Split_single_of_not_mem (c : Nat) (s : GoString) (h : c ∉ s) : Split s [c] = [s] := by
  unfold Split
  induction s with
  | nil => simp [splitFrom]
  | cons b t ih =>
    have hb : ¬ b = c := fun e => h (by simp [e])
    have ht : c ∉ t := fun e => h (by simp [e])
    rw [splitFrom_single_cons, if_neg hb, ih ht]

theorem Split_single_append (c : Nat) (a b : GoString) (h : c ∉ a) :
    Split (a ++ c :: b) [c] = a :: Split b [c] := by
  unfold Split
  induction a with
  | nil => simp [splitFrom_single_cons]
  | cons x t ih =>
    have hx : ¬ x = c := fun e => h (by simp [e])
    have ht : c ∉ t := fun e => h (by simp [e])
    simp only [List.cons_append]
    rw [splitFrom_single_cons, if_neg hx, ih ht]

/-- Every byte of a string is the separator or lies in a piece of its split. -/
theorem mem_Split_single (c : Nat) (s : GoString) (x : Nat) (hx : x ∈ s) :
    x = c ∨ ∃ p ∈ Split s [c], x ∈ p := by
  unfold Split
  induction s with
  | nil => simp at hx
  | cons b t ih =>
    rw [splitFrom_single_cons]
    by_cases hb : b = c
    · rw [if_pos hb]
      rcases List.mem_cons.mp hx with h | h
      · left; rw [h, hb]
      · rcases ih h with h2 | ⟨p, hp, hxp⟩
        · left; exact h2
        · right; exact ⟨p, by simp [hp], hxp⟩
    · rw [if_neg hb]
      rcases List.mem_cons.mp hx with h | h
      · right
        cases hs : splitFrom [c] 0 t with
        | nil => exact ⟨[b], by simp, by simp [h]⟩
        | cons p ps => exact ⟨b :: p, by simp, by simp [h]⟩
      · rcases ih h with h2 | ⟨p, hp, hxp⟩
        · left; exact h2
        · right
          cases hs : splitFrom [c] 0 t with
          | nil => rw [hs] at hp; simp at hp
          | cons q qs =>
            rw [hs] at hp
            rcases List.mem_cons.mp hp with e | e
            · exact ⟨b :: q, by simp, by simp [← e, hxp]⟩
            · exact ⟨p, by simp [e], hxp⟩

/-! ### The bytes of parsed numbers and timestamps -/

theorem parseDigits_all (s : GoString) (n : Nat) (h : parseDigits s = some n) :
    ∀ x ∈ s, isDigit x = true := by
  cases s with
  | nil => simp [parseDigits] at h
  | cons b t =>
    simp only [parseDigits] at h
    split at h
    · rename_i hall
      intro x hx
      exact List.all_eq_true.mp hall x hx
    · simp at h

theorem parseField_all (w : Nat) (s : GoString) (n : Nat) (h : parseField w s = some n) :
    ∀ x ∈ s, isDigit x = true := by
  unfold parseField at h
  split at h
  · exact parseDigits_all s n h
  · simp at h

/-- A string `ParseInt` accepts holds digits and at most a leading sign. -/
theorem ParseInt_bytes (s : GoString) (n : Int) (h : ParseInt s = some n) :
    ∀ x ∈ s, isDigit x = true ∨ x = 43 ∨ x = 45 := by
  unfold ParseInt at h
  split at h
  · rename_i t
    cases hd : parseDigits t with
    | none => simp [hd] at h
    | some m =>
      intro x hx
      rcases List.mem_cons.mp hx with e | e
      · right; left; exact e
      · left; exact parseDigits_all t m hd x e
  · rename_i t
    cases hd : parseDigits t with
    | none => simp [hd] at h
    | some m =>
      intro x hx
      rcases List.mem_cons.mp hx with e | e
      · right; right; exact e
      · left; exact parseDigits_all t m hd x e
  · cases hd : parseDigits s with
    | none => simp [hd] at h
    | some m =>
      intro x hx
      left; exact parseDigits_all s m hd x hx

/-- A string `parseDuration` accepts holds digits, colons and one dot. -/
theorem parseDuration_bytes (l : GoString) (d : Duration) (h : parseDuration l = some d) :
    ∀ x ∈ l, isDigit x = true ∨ x = 58 ∨ x = 46 := by
  intro x hx
  have hdot : str "." = [46] := by decide
  have hcol : str ":" = [58] := by decide
  unfold parseDuration at h
  rw [hdot, hcol] at h
  rcases mem_Split_single 46 l x hx with e | ⟨p, hp, hxp⟩
  · right; right; exact e
  · split at h
    · rename_i hms frac hsplit
      rw [hsplit] at hp
      have key : (∀ y ∈ frac, isDigit y = true) ∧
          (∀ y ∈ hms, isDigit y = true ∨ y = 58) := by
        split at h
        · rename_i m s ms hs hf
          refine ⟨parseField_all 3 frac ms hf, ?_⟩
          intro y hy
          split at h
          · rename_i mm ss hm hss
            rcases mem_Split_single 58 hms y hy with e | ⟨q, hq, hyq⟩
            · right; exact e
            · left
              rw [hs] at hq
              simp only [List.mem_cons, List.mem_singleton, List.not_mem_nil, or_false] at hq
              rcases hq with e | e
              · subst e; exact parseField_all 2 _ mm hm y hyq
              · subst e; exact parseField_all 2 _ ss hss y hyq
          · simp at h
        · rename_i hh m s ms hs hf
          refine ⟨parseField_all 3 frac ms hf, ?_⟩
          intro y hy
          split at h
          · rename_i h0 mm ss hh0 hm hss
            rcases mem_Split_single 58 hms y hy with e | ⟨q, hq, hyq⟩
            · right; exact e
            · left
              rw [hs] at hq
              simp only [List.mem_cons, List.mem_singleton, List.not_mem_nil, or_false] at hq
              rcases hq with e | e | e
              · subst e; exact parseField_all 0 _ h0 hh0 y hyq
              · subst e; exact parseField_all 2 _ mm hm y hyq
              · subst e; exact parseField_all 2 _ ss hss y hyq
          · simp at h
        · simp at h
      simp only [List.mem_cons, List.mem_singleton, List.not_mem_nil, or_false] at hp
      rcases hp with e | e
      · subst e
        rcases key.2 x hxp with k | k
        · left; exact k
        · right; left; exact k
      · subst e; left; exact key.1 x hxp
    · simp at h

theorem isDigit_ne (x c : Nat) (h : isDigit x = true) (hc : c < 48 ∨ 57 < c) : x ≠ c := by
  simp [isDigit] at h
  omega

end WebVTT

namespace WebVTT

theorem wrapInt64_of_range (x : Int) (h1 : -2 ^ 63 ≤ x) (h2 : x < 2 ^ 63) : wrapInt64 x = x := by
  unfold wrapInt64
  rw [Int.emod_eq_of_lt (by omega) (by omega)]
  omega

theorem parts_local (right l : GoString) (rest : List GoString) (loc : Duration)
    (mpegts : Int) (L : Duration) (hl : parseDurationWebVTT l = some L) :
    parseTimestampMapParts right ((str "LOCAL:" ++ l) :: rest) loc mpegts =
      parseTimestampMapParts right rest L mpegts := by
  have h1 : str "LOCAL:" = [76, 79, 67, 65, 76, 58] := by decide
  have h2 : str ":" = [58] := by decide
  have h3 : ToLower (TrimSpace [76, 79, 67, 65, 76]) = str "local" := by decide
  rw [parseTimestampMapParts, h1, h2]
  simp [SplitN2, Index, HasPrefix, h3, hl]

theorem parts_mpegts (right n : GoString) (rest : List GoString) (loc : Duration)
    (mpegts : Int) (N : Int) (hn : ParseInt n = some N) :
    parseTimestampMapParts right ((str "MPEGTS:" ++ n) :: rest) loc mpegts =
      parseTimestampMapParts right rest loc N := by
  have h1 : str "MPEGTS:" = [77, 80, 69, 71, 84, 83, 58] := by decide
  have h2 : str ":" = [58] := by decide
  have h3 : ToLower (TrimSpace [77, 80, 69, 71, 84, 83]) = str "mpegts" := by decide
  have h4 : ¬ (str "mpegts" = str "local") := by decide
  rw [parseTimestampMapParts, h1, h2]
  simp [SplitN2, Index, HasPrefix, h3, h4, hn]

/-- The two sub-fields in either order, after the `=`: the values the loop ends
with. -/
theorem parseTimestampMapWebVTT_fields (pre a b : GoString) (r : Duration × Int)
    (hpre : 61 ∉ pre) (ha : 61 ∉ a ∧ 44 ∉ a) (hb : 61 ∉ b ∧ 44 ∉ b)
    (hparts : ∀ right, parseTimestampMapParts right [a, b] 0 0 = .ok r) :
    parseTimestampMapWebVTT (pre ++ str "=" ++ a ++ str "," ++ b) =
      .ok (wrapInt64 (Int.tdiv (wrapInt64 (r.2 * Second)) 90000 - r.1)) := by
  have h1 : str "=" = [61] := by decide
  have h2 : str "," = [44] := by decide
  unfold parseTimestampMapWebVTT
  rw [h1, h2]
  have e1 : pre ++ [61] ++ a ++ [44] ++ b = pre ++ 61 :: (a ++ 44 :: b) := by simp
  have hnot : 61 ∉ a ++ 44 :: b := by
    simp only [List.mem_append, List.mem_cons]
    rintro (h | h | h)
    · exact ha.1 h
    · omega
    · exact hb.1 h
  rw [e1, Split_single_append 61 pre _ hpre, Split_single_of_not_mem 61 _ hnot]
  simp only
  rw [Split_single_append 44 a b ha.2, Split_single_of_not_mem 44 b hb.2, hparts]

theorem local_field_bytes (l : GoString) (L : Duration) (hl : parseDurationWebVTT l = some L) :
    61 ∉ str "LOCAL:" ++ l ∧ 44 ∉ str "LOCAL:" ++ l := by
  have h1 : str "LOCAL:" = [76, 79, 67, 65, 76, 58] := by decide
  have hb := parseDuration_bytes l L hl
  rw [h1]
  constructor
  · intro h
    simp only [List.cons_append, List.nil_append, List.mem_cons] at h
    rcases h with h | h | h | h | h | h | h
    all_goals first | omega | skip
    rcases hb 61 h with k | k | k
    · exact isDigit_ne 61 61 k (by omega) rfl
    · omega
    · omega
  · intro h
    simp only [List.cons_append, List.nil_append, List.mem_cons] at h
    rcases h with h | h | h | h | h | h | h
    all_goals first | omega | skip
    rcases hb 44 h with k | k | k
    · exact isDigit_ne 44 44 k (by omega) rfl
    · omega
    · omega

theorem mpegts_field_bytes (n : GoString) (N : Int) (hn : ParseInt n = some N) :
    61 ∉ str "MPEGTS:" ++ n ∧ 44 ∉ str "MPEGTS:" ++ n := by
  have h1 : str "MPEGTS:" = [77, 80, 69, 71, 84, 83, 58] := by decide
  have hb := ParseInt_bytes n N hn
  rw [h1]
  constructor
  · intro h
    simp only [List.cons_append, List.nil_append, List.mem_cons] at h
    rcases h with h | h | h | h | h | h | h | h
    all_goals first | omega | skip
    rcases hb 61 h with k | k | k
    · exact isDigit_ne 61 61 k (by omega) rfl
    · omega
    · omega
  · intro h
    simp only [List.cons_append, List.nil_append, List.mem_cons] at h
    rcases h with h | h | h | h | h | h | h | h
    all_goals first | omega | skip
    rcases hb 44 h with k | k | k
    · exact isDigit_ne 44 44 k (by omega) rfl
    · omega
    · omega

/-- C3 (amended): for a correlation header whose LOCAL sub-field parses to `L`
and whose MPEGTS sub-field parses to `N`, in either order of the two sub-fields,
`parseTimestampMapWebVTT` returns without error `N * 10^9 / 90000 - L`
nanoseconds, the quotient truncated toward zero, provided the product
`N * 10^9` and the difference fit `int64`. -/
theorem parseTimestampMapWebVTT_offset (pre l n : GoString) (L : Duration) (N : Int)
    (hpre : 61 ∉ pre)
    (hl : parseDurationWebVTT l = some L)
    (hn : ParseInt n = some N)
    (hmul : -2 ^ 63 ≤ N * Second ∧ N * Second < 2 ^ 63)
    (hsub : -2 ^ 63 ≤ Int.tdiv (N * Second) 90000 - L ∧
      Int.tdiv (N * Second) 90000 - L < 2 ^ 63) :
    parseTimestampMapWebVTT (pre ++ str "=" ++ (str "LOCAL:" ++ l) ++ str "," ++ (str "MPEGTS:" ++ n)) =
        .ok (Int.tdiv (N * Second) 90000 - L) ∧
      parseTimestampMapWebVTT (pre ++ str "=" ++ (str "MPEGTS:" ++ n) ++ str "," ++ (str "LOCAL:" ++ l)) =
        .ok (Int.tdiv (N * Second) 90000 - L) := by
  have hL := local_field_bytes l L hl
  have hN := mpegts_field_bytes n N hn
  constructor
  · rw [parseTimestampMapWebVTT_fields pre _ _ (L, N) hpre hL hN]
    · simp only
      rw [wrapInt64_of_range _ hmul.1 hmul.2, wrapInt64_of_range _ hsub.1 hsub.2]
    · intro right
      rw [parts_local right l _ 0 0 L hl, parts_mpegts right n _ L 0 N hn]
      rfl
  · rw [parseTimestampMapWebVTT_fields pre _ _ (L, N) hpre hN hL]
    · simp only
      rw [wrapInt64_of_range _ hmul.1 hmul.2, wrapInt64_of_range _ hsub.1 hsub.2]
    · intro right
      rw [parts_mpegts right n _ 0 0 N hn, parts_local right l _ 0 N L hl]
      rfl

/-- C3, the two examples of the claim: `LOCAL:00:00:00.000,MPEGTS:900000` gives
exactly 10 seconds and `MPEGTS:180000` exactly 2 seconds. -/
theorem parseTimestampMapWebVTT_offset_witness :
    parseTimestampMapWebVTT (str "X-TIMESTAMP-MAP=LOCAL:00:00:00.000,MPEGTS:900000") =
        .ok (10 * Second) ∧
      parseTimestampMapWebVTT (str "X-TIMESTAMP-MAP=LOCAL:00:00:00.000,MPEGTS:180000") =
        .ok (2 * Second) :=
  ⟨(parseTimestampMapWebVTT_offset (str "X-TIMESTAMP-MAP") (str "00:00:00.000") (str "900000")
      0 900000 (by decide) (by decide) (by decide) (by decide) (by decide)).1,
   (parseTimestampMapWebVTT_offset (str "X-TIMESTAMP-MAP") (str "00:00:00.000") (str "180000")
      0 180000 (by decide) (by decide) (by decide) (by decide) (by decide)).1⟩

/-- C3, counterexample: the MPEGTS value `10000000000` parses, its product with
`10^9` overflows `int64`, and the offset returned is negative, not
`10000000000 / 90000` seconds. -/
theorem parseTimestampMapWebVTT_overflow :
    parseDurationWebVTT (str "00:00:00.000") = some 0 ∧
      ParseInt (str "10000000000") = some 10000000000 ∧
      parseTimestampMapWebVTT (str "X-TIMESTAMP-MAP=LOCAL:00:00:00.000,MPEGTS:10000000000") =
        .ok (-93852711930106) ∧
      parseTimestampMapWebVTT (str "X-TIMESTAMP-MAP=LOCAL:00:00:00.000,MPEGTS:10000000000") ≠
        .ok (Int.tdiv (10000000000 * Second) 90000 - 0) := by
  decide

end WebVTT

namespace WebVTT

theorem Split_single_two_of_mem (c : Nat) (s : GoString) (h : c ∈ s) :
    ∃ a b rest, Split s [c] = a :: b :: rest := by
  unfold Split
  induction s with
  | nil => simp at h
  | cons x t ih =>
    rw [splitFrom_single_cons]
    by_cases hx : x = c
    · rw [if_pos hx]
      cases hs : splitFrom [c] 0 t with
      | nil => exact absurd hs (splitFrom_single_ne_nil c t)
      | cons p ps => exact ⟨[], p, ps, rfl⟩
    · rw [if_neg hx]
      have ht : c ∈ t := by
        rcases List.mem_cons.mp h with e | e
        · exact absurd e.symm hx
        · exact e
      obtain ⟨a, b, rest, e⟩ := ih ht
      rw [e]
      exact ⟨x :: a, b, rest, rfl⟩

/-- The loop over the parts fails exactly when one of the parts is malformed. -/
theorem parseTimestampMapParts_error_iff (right : GoString) (parts : List GoString)
    (loc : Duration) (mpegts : Int) :
    (∃ e, parseTimestampMapParts right parts loc mpegts = .error e) ↔
      ∃ part ∈ parts, malformedPart part = true := by
  induction parts generalizing loc mpegts with
  | nil => simp [parseTimestampMapParts]
  | cons p rest ih =>
    rw [parseTimestampMapParts]
    simp only [List.mem_cons, exists_eq_or_imp]
    split
    · rename_i key val hs
      by_cases h1 : ToLower (TrimSpace key) = str "local"
      · simp only [h1, if_true]
        cases hd : parseDurationWebVTT val with
        | none =>
          have hm : malformedPart p = true := by
            unfold malformedPart; rw [hs]; simp [h1, hd]
          simp [hm]
        | some d =>
          have hm : malformedPart p = false := by
            unfold malformedPart; rw [hs]; simp [h1, hd]
          simp [hm, ih]
      · simp only [h1, if_false]
        by_cases h2 : ToLower (TrimSpace key) = str "mpegts"
        · have h3 : ¬ (str "mpegts" = str "local") := by decide
          simp only [h2, if_true]
          cases hn : ParseInt val with
          | none =>
            have hm : malformedPart p = true := by
              unfold malformedPart; rw [hs]; simp [h2, h3, hn]
            simp [hm]
          | some n =>
            have hm : malformedPart p = false := by
              unfold malformedPart; rw [hs]; simp [h2, h3, hn]
            simp [hm, ih]
        · have hm : malformedPart p = false := by
            unfold malformedPart; rw [hs]; simp [h1, h2]
          simp [h2, hm, ih]
    · rename_i hne
      have hm : malformedPart p = true := by
        unfold malformedPart
        split
        · rename_i key val hs
          exact absurd hs (hne key val)
        · rfl
      simp [hm]

/-- C8 (amended): `parseTimestampMapWebVTT` returns an error exactly when the line
has no `=`, or a comma-separated part to the right of it has no `:` or is a
LOCAL or MPEGTS sub-field whose value does not parse. A sub-field that is
simply absent is no error. -/
theorem parseTimestampMapWebVTT_error_iff (line : GoString) :
    (∃ e, parseTimestampMapWebVTT line = .error e) ↔
      (61 ∉ line ∨
        ∃ part ∈ Split (timestampMapRight line) (str ","), malformedPart part = true) := by
  have h1 : str "=" = [61] := by decide
  unfold parseTimestampMapWebVTT timestampMapRight
  rw [h1]
  by_cases hmem : 61 ∈ line
  · obtain ⟨a, b, rest, e⟩ := Split_single_two_of_mem 61 line hmem
    rw [e]
    simp only [hmem, not_true_eq_false, false_or]
    rw [← parseTimestampMapParts_error_iff b _ 0 0]
    cases hp : parseTimestampMapParts b (Split b (str ",")) 0 0 with
    | error e2 => simp
    | ok r => simp
  · rw [Split_single_of_not_mem 61 line hmem]
    simp [hmem]

/-- C8, counterexample: a header with no LOCAL sub-field and a header with no
MPEGTS sub-field are both accepted, the missing value taken as zero. -/
theorem parseTimestampMapWebVTT_missing_subfield :
    parseTimestampMapWebVTT (str "X-TIMESTAMP-MAP=MPEGTS:900000") = .ok (10 * Second) ∧
      parseTimestampMapWebVTT (str "X-TIMESTAMP-MAP=LOCAL:00:00:01.000") = .ok (-Second) := by
  decide

end WebVTT

namespace WebVTT

theorem natDigits_ne_nil (fuel n : Nat) : natDigits (fuel + 1) n ≠ [] := by
  unfold natDigits
  split <;> simp

theorem Itoa_ne_nil (i : Int) : Itoa i ≠ [] := by
  unfold Itoa
  split
  · simp
  · exact natDigits_ne_nil _ _

theorem itemsBytes_ne_nil (index : Nat) (items : List Item) (h : items ≠ []) :
    itemsBytes index items ≠ [] := by
  cases items with
  | nil => exact absurd rfl h
  | cons item rest =>
    have hi := Itoa_ne_nil ((index : Int) + 1)
    simp only [itemsBytes, itemBytes]
    intro h2
    simp only [List.append_assoc, List.append_eq_nil] at h2
    exact hi (by exact_mod_cast h2.2.1)

theorem styleBytes_ne_nil (styles : List (GoString × Style)) (h : styleLines styles ≠ []) :
    styleBytes styles ≠ [] := by
  unfold styleBytes
  have : 0 < (styleLines styles).length := List.length_pos.mpr h
  rw [if_pos this]
  have hs : str "STYLE\n" = [83, 84, 89, 76, 69, 10] := by decide
  rw [hs]
  simp

theorem regionsBytes_ne_nil (regions : List (GoString × Region)) (out : GoString)
    (h : regionsBytes regions = some out) (hne : regions ≠ []) : out ≠ [] := by
  unfold regionsBytes at h
  split at h
  · simp at h
  · have : 0 < regions.length := List.length_pos.mpr hne
    rw [if_pos this] at h
    simp only [Option.some.injEq] at h
    rw [← h]
    simp [bytesLineSeparator]

/-- C5 (amended): whenever the writer reaches its write (the region block is
built without a nil dereference), the output begins with the line `WEBVTT` when
the offset is zero, and with the line `WEBVTT` followed by the line
`X-TIMESTAMP-MAP=MPEGTS:<ticks>,LOCAL:00:00:00.000` otherwise, the MPEGTS field
first and `<ticks>` the integer `int(offset*90000)`; a blank line follows when
the document has a style line, a region or a cue. -/
theorem WriteToWebVTTWithSync_header (s : Subtitles) (offset : SyncOffset) (regions : GoString)
    (h : regionsBytes s.Regions = some regions) :
    ∃ body,
      WriteToWebVTTWithSync s offset =
        some ((if offset.isZero then str "WEBVTT\n"
               else str "WEBVTT\n" ++ str "X-TIMESTAMP-MAP=MPEGTS:" ++ Itoa offset.ticks ++
                 str ",LOCAL:00:00:00.000\n") ++ body) ∧
      ((styleLines s.Styles ≠ [] ∨ s.Regions ≠ [] ∨ s.Items ≠ []) → ∃ rest, body = 10 :: rest) := by
  have hh : headerBytes offset =
      (if offset.isZero then str "WEBVTT\n"
       else str "WEBVTT\n" ++ str "X-TIMESTAMP-MAP=MPEGTS:" ++ Itoa offset.ticks ++
         str ",LOCAL:00:00:00.000\n") ++ [10] := by
    unfold headerBytes
    have h1 : str "WEBVTT\n\n" = str "WEBVTT\n" ++ [10] := by decide
    have h2 : str ",LOCAL:00:00:00.000\n\n" = str ",LOCAL:00:00:00.000\n" ++ [10] := by decide
    have h3 : webvttTimestampMap ++ str "=MPEGTS:" = str "X-TIMESTAMP-MAP=MPEGTS:" := by decide
    split
    · exact h1
    · rw [h2]
      simp only [List.append_assoc]
      rw [← List.append_assoc webvttTimestampMap, h3]
  refine ⟨([10] ++ (styleBytes s.Styles ++ regions ++ itemsBytes 0 s.Items)).dropLast, ?_, ?_⟩
  · unfold WriteToWebVTTWithSync
    rw [h, hh]
    simp only [List.append_assoc]
    rw [← List.dropLast_append_of_ne_nil _ (by simp)]
  · intro hne
    have hrest : styleBytes s.Styles ++ regions ++ itemsBytes 0 s.Items ≠ [] := by
      intro e
      simp only [List.append_eq_nil] at e
      rcases hne with k | k | k
      · exact styleBytes_ne_nil _ k e.1.1
      · exact regionsBytes_ne_nil _ _ h k e.1.2
      · exact itemsBytes_ne_nil 0 _ k e.2
    refine ⟨(styleBytes s.Styles ++ regions ++ itemsBytes 0 s.Items).dropLast, ?_⟩
    rw [List.dropLast_append_of_ne_nil _ hrest]
    rfl

/-- C5, witness: a document with one cue, written with an offset of 10 seconds
(900000 ticks). -/
theorem WriteToWebVTTWithSync_header_witness :
    ∃ body,
      WriteToWebVTTWithSync { Items := [{ StartAt := Second, EndAt := 2 * Second }] }
          { isZero := false, ticks := 900000 } =
        some ((if (SyncOffset.mk false 900000).isZero then str "WEBVTT\n"
               else str "WEBVTT\n" ++ str "X-TIMESTAMP-MAP=MPEGTS:" ++
                 Itoa (SyncOffset.mk false 900000).ticks ++
                 str ",LOCAL:00:00:00.000\n") ++ body) ∧
      ((styleLines (Subtitles.Styles { Items := [{ StartAt := Second, EndAt := 2 * Second }] }) ≠ [] ∨
        Subtitles.Regions { Items := [{ StartAt := Second, EndAt := 2 * Second }] } ≠ [] ∨
        Subtitles.Items { Items := [{ StartAt := Second, EndAt := 2 * Second }] } ≠ []) →
        ∃ rest, body = 10 :: rest) :=
  WriteToWebVTTWithSync_header { Items := [{ StartAt := Second, EndAt := 2 * Second }] }
    { isZero := false, ticks := 900000 } [] (by decide)

/-- C5, counterexample: with a non-zero offset the correlation header has the
MPEGTS field first and the LOCAL field second, so the output does not begin with
`WEBVTT` and `X-TIMESTAMP-MAP=LOCAL:`; and the empty document written with offset
zero is the line `WEBVTT` with no blank line after it. -/
theorem WriteToWebVTTWithSync_header_order :
    WriteToWebVTTWithSync { Items := [{ StartAt := Second, EndAt := 2 * Second }] }
        { isZero := false, ticks := 900000 } =
      some (str ("WEBVTT\nX-TIMESTAMP-MAP=MPEGTS:900000,LOCAL:00:00:00.000\n\n" ++
        "1\n00:00:01.000 --> 00:00:02.000\n")) ∧
    (∀ out, WriteToWebVTTWithSync { Items := [{ StartAt := Second, EndAt := 2 * Second }] }
        { isZero := false, ticks := 900000 } = some out →
      HasPrefix out (str "WEBVTT\nX-TIMESTAMP-MAP=LOCAL:") = false) ∧
    WriteToWebVTTWithSync {} { isZero := true, ticks := 0 } = some (str "WEBVTT\n") := by
  refine ⟨by decide, ?_, by decide⟩
  intro out h
  have e : WriteToWebVTTWithSync { Items := [{ StartAt := Second, EndAt := 2 * Second }] }
      { isZero := false, ticks := 900000 } =
      some (str ("WEBVTT\nX-TIMESTAMP-MAP=MPEGTS:900000,LOCAL:00:00:00.000\n\n" ++
        "1\n00:00:01.000 --> 00:00:02.000\n")) := by decide
  rw [e] at h
  cases h
  decide

end WebVTT

namespace WebVTT

theorem renderSettings_append (a b : List (GoString × GoString)) :
    renderSettings (a ++ b) = renderSettings a ++ renderSettings b := by
  simp [renderSettings]

theorem renderSettings_nil : renderSettings [] = [] := rfl

/-- One text setting as the writer emits it is the rendering of the resolved
value, when that is not empty. -/
theorem settingBytes_eq (k key inline : GoString) (style : Option Style)
    (field : StyleAttributes → GoString) (hk : key = k ++ str ":") :
    settingBytes key inline ((fallbackStyle style).map field) =
      renderSettings ([(k, resolveSetting inline style field)].filter fun kv => kv.2 ≠ []) := by
  unfold settingBytes resolveSetting fallbackStyle
  by_cases hi : inline = []
  · cases style with
    | none => simp [hi, renderSettings]
    | some st =>
      cases hsa : st.InlineStyle with
      | none => simp [hi, hsa, renderSettings]
      | some sa =>
        by_cases hv : field sa = []
        · simp [hi, hsa, hv, renderSettings]
        · simp [hi, hsa, hv, renderSettings, hk, bytesSpace]
  · simp [hi, renderSettings, hk, bytesSpace]

theorem filter_three (p : GoString × GoString → Bool) (a b c : GoString × GoString) :
    [a, b, c].filter p = [a].filter p ++ [b].filter p ++ [c].filter p := by
  simp [List.filter_cons]
  split <;> split <;> split <;> simp

theorem filter_two (p : GoString × GoString → Bool) (a b : GoString × GoString) :
    [a, b].filter p = [a].filter p ++ [b].filter p := by
  simp [List.filter_cons]
  split <;> split <;> simp

/-- The settings the writer appends to a timing line, for a cue that has an
inline record: the spec's list, rendered. -/
theorem itemStyleBytes_some (item : Item) (sa : StyleAttributes)
    (h : item.InlineStyle = some sa) :
    itemStyleBytes item = renderSettings (cueSettings item sa) := by
  unfold itemStyleBytes cueSettings
  rw [h]
  simp only
  rw [filter_three, filter_two]
  simp only [renderSettings_append]
  rw [settingBytes_eq (str "align") _ _ _ _ (by decide),
    settingBytes_eq (str "line") _ _ _ _ (by decide),
    settingBytes_eq (str "position") _ _ _ _ (by decide),
    settingBytes_eq (str "size") _ _ _ _ (by decide),
    settingBytes_eq (str "vertical") _ _ _ _ (by decide)]
  cases item.Region with
  | none => simp [renderSettings]
  | some r =>
    have e : bytesSpace ++ str "region:" ++ r.ID = renderSettings [(str "region", r.ID)] := by
      have e2 : str "region:" = str "region" ++ str ":" := by decide
      simp [renderSettings, bytesSpace, e2]
    simp only [e, List.append_assoc]

/-- C9 (amended): what the writer emits for a cue is its comments, its sequence
number, and a timing line that, for a cue with an inline style record, carries
after the two times the settings of `cueSettings` in their fixed order (for each
of align, line, position, size and vertical the inline value when not empty,
otherwise the value of the referenced Style when not empty, otherwise nothing;
`region:<id>` whenever the cue references a Region), and that carries no setting
at all for a cue without an inline style record. -/
theorem itemBytes_settings (index : Nat) (item : Item) :
    itemBytes index item =
      commentsBytes item.Comments ++ Itoa (index + 1) ++ bytesLineSeparator ++
        formatDurationWebVTT item.StartAt ++ webvttTimeBoundariesSeparator ++
        formatDurationWebVTT item.EndAt ++
        (match item.InlineStyle with
         | some sa => renderSettings (cueSettings item sa)
         | none => []) ++
        bytesLineSeparator ++ (item.Lines.map Line.webVTTBytes).flatten ++ bytesLineSeparator := by
  unfold itemBytes
  cases h : item.InlineStyle with
  | none => simp [itemStyleBytes, h]
  | some sa => rw [itemStyleBytes_some item sa h]

/-- C9, counterexample: a cue that references a Region and a Style with an
alignment, but has no inline style record, is written with neither `region:r`
nor `align:center` on its timing line. -/
theorem itemBytes_no_inline_record :
    WriteToWebVTTWithSync
        { Items := [{ StartAt := Second, EndAt := 2 * Second, InlineStyle := none,
                      Region := some { ID := str "r", InlineStyle := some {} },
                      Style := some { ID := str "s",
                                      InlineStyle := some { WebVTTAlign := str "center" } } }],
          Regions := [(str "r", { ID := str "r", InlineStyle := some {} })] }
        { isZero := true, ticks := 0 } =
      some (str "WEBVTT\n\nRegion: id=r\n\n1\n00:00:01.000 --> 00:00:02.000\n") := by
  decide

end WebVTT

namespace WebVTT

/-! ### The order of `sort.Strings` -/

theorem stringLE_refl (a : GoString) : stringLE a a = true := by
  induction a with
  | nil => rfl
  | cons x t ih => simp [stringLE, ih]

theorem stringLE_total (a b : GoString) : stringLE a b = true ∨ stringLE b a = true := by
  induction a generalizing b with
  | nil => left; rfl
  | cons x s ih =>
    cases b with
    | nil => right; rfl
    | cons y t =>
      simp only [stringLE, Bool.or_eq_true, decide_eq_true_eq, Bool.and_eq_true, beq_iff_eq]
      rcases Nat.lt_trichotomy x y with h | h | h
      · left; left; exact h
      · rcases ih t with k | k
        · left; right; exact ⟨h, k⟩
        · right; right; exact ⟨h.symm, k⟩
      · right; left; exact h

theorem stringLE_trans (a b c : GoString) (h1 : stringLE a b = true) (h2 : stringLE b c = true) :
    stringLE a c = true := by
  induction a generalizing b c with
  | nil => rfl
  | cons x s ih =>
    cases b with
    | nil => simp [stringLE] at h1
    | cons y t =>
      cases c with
      | nil => simp [stringLE] at h2
      | cons z u =>
        simp only [stringLE, Bool.or_eq_true, decide_eq_true_eq, Bool.and_eq_true,
          beq_iff_eq] at h1 h2 ⊢
        rcases h1 with h1 | ⟨e1, h1⟩
        · rcases h2 with h2 | ⟨e2, _⟩
          · left; omega
          · left; omega
        · rcases h2 with h2 | ⟨e2, h2⟩
          · left; omega
          · right; exact ⟨e1.trans e2, ih t u h1 h2⟩

theorem stringLE_antisymm (a b : GoString) (h1 : stringLE a b = true) (h2 : stringLE b a = true) :
    a = b := by
  induction a generalizing b with
  | nil =>
    cases b with
    | nil => rfl
    | cons y t => simp [stringLE] at h2
  | cons x s ih =>
    cases b with
    | nil => simp [stringLE] at h1
    | cons y t =>
      simp only [stringLE, Bool.or_eq_true, decide_eq_true_eq, Bool.and_eq_true,
        beq_iff_eq] at h1 h2
      rcases h1 with h1 | ⟨e1, h1⟩
      · rcases h2 with h2 | ⟨e2, _⟩ <;> omega
      · rcases h2 with h2 | ⟨_, h2⟩
        · omega
        · rw [e1, ih t h1 h2]

instance stringLE_isTotal : IsTotal GoString (fun a b => stringLE a b = true) :=
  ⟨stringLE_total⟩

instance stringLE_isTrans : IsTrans GoString (fun a b => stringLE a b = true) :=
  ⟨stringLE_trans⟩

instance stringLE_isAntisymm : IsAntisymm GoString (fun a b => stringLE a b = true) :=
  ⟨stringLE_antisymm⟩

theorem sortStrings_sorted (k : List GoString) :
    (sortStrings k).Sorted (fun a b => stringLE a b = true) :=
  List.sorted_insertionSort _ k

theorem sortStrings_perm (k : List GoString) : (sortStrings k).Perm k :=
  List.perm_insertionSort _ k

/-- Sorting does not depend on the order the strings come in. -/
theorem sortStrings_of_perm (k k2 : List GoString) (h : k.Perm k2) :
    sortStrings k = sortStrings k2 :=
  List.eq_of_perm_of_sorted (((sortStrings_perm k).trans h).trans (sortStrings_perm k2).symm)
    (sortStrings_sorted k) (sortStrings_sorted k2)

/-! ### Maps with each key once -/

theorem mapGet_of_mem {β : Type} (m : List (GoString × β)) (k : GoString) (v : β)
    (hn : (m.map Prod.fst).Nodup) (h : (k, v) ∈ m) : mapGet m k = some v := by
  induction m with
  | nil => simp at h
  | cons e rest ih =>
    obtain ⟨k1, v1⟩ := e
    simp only [List.map_cons, List.nodup_cons, List.mem_map, Prod.exists, exists_and_right,
      exists_eq_right, not_exists] at hn
    simp only [mapGet]
    rcases List.mem_cons.mp h with e | e
    · cases e; simp
    · have hne : k1 ≠ k := by
        intro e2
        subst e2
        exact hn.1 v e
      rw [if_neg hne]
      exact ih hn.2 e

theorem mapGet_mem {β : Type} (m : List (GoString × β)) (k : GoString) (v : β)
    (h : mapGet m k = some v) : (k, v) ∈ m := by
  induction m with
  | nil => simp [mapGet] at h
  | cons e rest ih =>
    obtain ⟨k1, v1⟩ := e
    simp only [mapGet] at h
    split at h
    · rename_i e
      simp only [Option.some.injEq] at h
      simp [e, h]
    · exact List.mem_cons_of_mem _ (ih h)

/-- The value found under a key does not depend on the iteration order of the
map. -/
theorem mapGet_of_perm {β : Type} (m m2 : List (GoString × β)) (k : GoString)
    (hn : (m.map Prod.fst).Nodup) (hp : m.Perm m2) : mapGet m k = mapGet m2 k := by
  have hn2 : (m2.map Prod.fst).Nodup := (hp.map Prod.fst).nodup_iff.mp hn
  cases h : mapGet m k with
  | some v =>
    exact (mapGet_of_mem m2 k v hn2 (hp.subset (mapGet_mem m k v h))).symm
  | none =>
    cases h2 : mapGet m2 k with
    | none => rfl
    | some v =>
      have := mapGet_of_mem m k v hn (hp.symm.subset (mapGet_mem m2 k v h2))
      rw [h] at this
      cases this

/-! ### The region block -/

theorem regionLines_of_perm (regions regions2 : List (GoString × Region)) (ks : List GoString)
    (hn : (regions.map Prod.fst).Nodup) (hp : regions.Perm regions2) :
    regionLines regions ks = regionLines regions2 ks := by
  induction ks with
  | nil => rfl
  | cons k rest ih =>
    simp only [regionLines, regionLine]
    rw [ih, mapGet_of_perm regions regions2 k hn hp]

/-- The region block does not depend on the iteration order of the region
map. -/
theorem regionsBytes_of_perm (regions regions2 : List (GoString × Region))
    (hn : (regions.map Prod.fst).Nodup) (hp : regions.Perm regions2) :
    regionsBytes regions = regionsBytes regions2 := by
  unfold regionsBytes regionKeys
  rw [sortStrings_of_perm _ _ (hp.map fun kv => kv.2.ID), regionLines_of_perm _ _ _ hn hp,
    hp.length_eq]

theorem regionEntryLine_start (r : Region) (l : GoString) (h : regionEntryLine r = some l) :
    ∃ t, l = str "Region: id=" ++ r.ID ++ t := by
  unfold regionEntryLine at h
  split at h
  · simp at h
  · simp only [Option.some.injEq] at h
    rw [← h]
    simp only [List.append_assoc]
    exact ⟨_, rfl⟩

/-- The lines of the entries of the map found through their keys. -/
theorem regionLines_entries (regions entries : List (GoString × Region))
    (hn : (regions.map Prod.fst).Nodup) (hsub : ∀ e ∈ entries, e ∈ regions)
    (hid : ∀ e ∈ entries, e.2.ID = e.1)
    (hsa : ∀ e ∈ entries, e.2.InlineStyle ≠ none) :
    ∃ lines, regionLines regions (entries.map Prod.fst) = some lines ∧
      List.Forall₂ (fun e l => regionEntryLine e.2 = some l ∧
        ∃ t, l = str "Region: id=" ++ e.1 ++ t) entries lines := by
  induction entries with
  | nil => exact ⟨[], rfl, List.Forall₂.nil⟩
  | cons e rest ih =>
    obtain ⟨lines, hl, hf⟩ := ih (fun x hx => hsub x (List.mem_cons_of_mem _ hx))
      (fun x hx => hid x (List.mem_cons_of_mem _ hx))
      (fun x hx => hsa x (List.mem_cons_of_mem _ hx))
    have hget : mapGet regions e.1 = some e.2 :=
      mapGet_of_mem regions e.1 e.2 hn (hsub e (List.mem_cons_self _ _))
    have hne := hsa e (List.mem_cons_self _ _)
    cases hs : e.2.InlineStyle with
    | none => exact absurd hs hne
    | some sa =>
      have hline : ∃ l, regionEntryLine e.2 = some l := by
        unfold regionEntryLine
        rw [hs]
        exact ⟨_, rfl⟩
      obtain ⟨l, hl2⟩ := hline
      have hstart : ∃ t, l = str "Region: id=" ++ e.1 ++ t := by
        rw [← hid e (List.mem_cons_self _ _)]
        exact regionEntryLine_start e.2 l hl2
      refine ⟨l :: lines, ?_, List.Forall₂.cons ⟨hl2, hstart⟩ hf⟩
      simp only [List.map_cons, regionLines, regionLine, hget, hl2, hl]

/-- C10 (amended): for a Document whose region map holds every region under its
own identifier, each with a style record, the writer emits one Region line per entry
of the map, the entries taken in ascending byte-wise lexicographic order of
their identifiers, each line beginning with `Region: id=` and the identifier;
and the output is the same for every iteration order of the map. -/
theorem WriteToWebVTTWithSync_regions (s : Subtitles) (offset : SyncOffset)
    (hkeys : (s.Regions.map Prod.fst).Nodup)
    (hid : ∀ e ∈ s.Regions, e.2.ID = e.1)
    (hsa : ∀ e ∈ s.Regions, e.2.InlineStyle ≠ none) :
    (∃ entries lines,
      entries.Perm s.Regions ∧
      entries.Pairwise (fun a b => stringLE a.1 b.1 = true) ∧
      List.Forall₂ (fun e l => regionEntryLine e.2 = some l ∧
        ∃ t, l = str "Region: id=" ++ e.1 ++ t) entries lines ∧
      WriteToWebVTTWithSync s offset =
        some (headerBytes offset ++ styleBytes s.Styles ++
          (lines.flatten ++ (if 0 < s.Regions.length then bytesLineSeparator else [])) ++
          itemsBytes 0 s.Items).dropLast) ∧
    ∀ regions2, s.Regions.Perm regions2 →
      WriteToWebVTTWithSync { s with Regions := regions2 } offset =
        WriteToWebVTTWithSync s offset := by
  constructor
  · let entries := s.Regions.insertionSort fun a b => stringLE a.1 b.1 = true
    have hperm : entries.Perm s.Regions := List.perm_insertionSort _ _
    have hsorted : entries.Sorted (fun a b => stringLE a.1 b.1 = true) := by
      have i1 : IsTotal (GoString × Region) (fun a b => stringLE a.1 b.1 = true) :=
        ⟨fun a b => stringLE_total a.1 b.1⟩
      have i2 : IsTrans (GoString × Region) (fun a b => stringLE a.1 b.1 = true) :=
        ⟨fun a b c => stringLE_trans a.1 b.1 c.1⟩
      exact List.sorted_insertionSort _ _
    have hkeyseq : regionKeys s.Regions = entries.map Prod.fst := by
      unfold regionKeys
      have e1 : (s.Regions.map fun kv => kv.2.ID) = s.Regions.map Prod.fst :=
        List.map_congr_left fun kv hkv => hid kv hkv
      rw [e1]
      refine List.eq_of_perm_of_sorted ((sortStrings_perm _).trans (hperm.map Prod.fst).symm)
        (sortStrings_sorted _) ?_
      exact List.pairwise_map.mpr hsorted
    obtain ⟨lines, hl, hf⟩ := regionLines_entries s.Regions entries hkeys
      (fun e he => hperm.subset he) (fun e he => hid e (hperm.subset he))
      (fun e he => hsa e (hperm.subset he))
    refine ⟨entries, lines, hperm, hsorted, hf, ?_⟩
    unfold WriteToWebVTTWithSync regionsBytes
    rw [hkeyseq, hl]
  · intro regions2 hp
    unfold WriteToWebVTTWithSync
    simp only
    rw [regionsBytes_of_perm s.Regions regions2 hkeys hp]

end WebVTT

namespace WebVTT

/-! ### The scan loop, line by line -/

theorem scan_append (st : ReaderState) (pre post : List GoString) :
    scan st (pre ++ post) =
      match scan st pre with
      | .error e => .error e
      | .ok st2 => scan st2 post := by
  induction pre generalizing st with
  | nil => rfl
  | cons t rest ih =>
    simp only [List.cons_append, scan]
    cases step st t with
    | error e => rfl
    | ok st2 => exact ih st2

theorem stepRegion_items (st st2 : ReaderState) (line : GoString)
    (h : stepRegion st line = .ok st2) :
    st2.Items = st.Items ∧ st2.timeOffset = st.timeOffset ∧ st2.item = st.item := by
  unfold stepRegion at h
  split at h
  · cases h
  · cases h
    exact ⟨rfl, rfl, rfl⟩

theorem stepText_items (st st2 : ReaderState) (line : GoString)
    (h : stepText st line = .ok st2) :
    st2.Items.map Item.times = st.Items.map Item.times ∧ st2.timeOffset = st.timeOffset := by
  unfold stepText at h
  simp only at h
  split at h
  · cases h; exact ⟨rfl, rfl⟩
  · split at h
    · split at h
      · cases h
      · cases h; exact ⟨rfl, rfl⟩
    · split at h
      · split at h
        · cases h
          refine ⟨?_, rfl⟩
          simp only [ReaderState.Items, List.map_append]
          cases st.inDoc <;> simp [Item.times]
        · cases h; exact ⟨rfl, rfl⟩
      · cases h; exact ⟨rfl, rfl⟩

theorem stepTiming_items (st st2 : ReaderState) (line : GoString)
    (h : stepTiming st line = .ok st2) :
    ∃ t, writtenTimes line = some t ∧ st2.Items = st.Items ++ [st2.item] ∧
      st2.item.times = t ∧ st2.timeOffset = st.timeOffset ∧ st2.Regions = st.Regions := by
  unfold stepTiming at h
  unfold writtenTimes
  split at h
  · rename_i left0 left1 rest hs
    split at h
    · rename_i right0 fields hr
      split at h
      · cases h
      · rename_i startAt hstart
        split at h
        · cases h
        · rename_i endAt hend
          split at h
          · cases h
          · rename_i sa region hc
            cases h
            refine ⟨(startAt, endAt), ?_, ?_, rfl, rfl, rfl⟩
            · simp only [hs, hr, hstart, hend]
            · simp [ReaderState.Items]
    · cases h
  · cases h

/-- What one accepted line does to the times of the cues and to the pending
offset. -/
theorem stepLine_times (st st2 : ReaderState) (line : GoString)
    (h : stepLine st line = .ok st2) :
    st2.Items.map Item.times =
        st.Items.map Item.times ++
          (if isTimingLine line then (writtenTimes line).toList else []) ∧
      st2.timeOffset =
        (if isTimestampMapLine line then
          match parseTimestampMapWebVTT line with
          | .ok x => x
          | .error _ => st.timeOffset
        else st.timeOffset) := by
  unfold stepLine at h
  simp only [isTimingLine, isTimestampMapLine]
  by_cases h1 : HasPrefix line (str "NOTE ") = true
  · rw [if_pos h1] at h
    cases h
    simp [h1, ReaderState.Items]
  rw [if_neg h1] at h
  by_cases h2 : line.length = 0
  · rw [if_pos h2] at h
    have : st2.Items = st.Items ∧ st2.timeOffset = st.timeOffset := by
      split at h <;> cases h <;> exact ⟨rfl, rfl⟩
    simp [h1, h2, this.1, this.2]
  rw [if_neg h2] at h
  by_cases h3 : HasPrefix line (str "Region: ") = true
  · rw [if_pos h3] at h
    have := stepRegion_items _ _ _ h
    simp [h1, h2, h3, this.1, this.2.1]
  rw [if_neg h3] at h
  by_cases h4 : HasPrefix line (str "STYLE") = true
  · rw [if_pos h4] at h
    cases h
    simp [h1, h2, h3, h4, ReaderState.Items]
  rw [if_neg h4] at h
  by_cases h5 : Contains line webvttTimeBoundariesSeparator = true
  · rw [if_pos h5] at h
    obtain ⟨t, ht, hitems, htimes, hoff, _⟩ := stepTiming_items _ _ _ h
    simp [h1, h2, h3, h4, h5, ht, hitems, htimes, hoff]
  rw [if_neg h5] at h
  by_cases h6 : HasPrefix line webvttTimestampMap = true
  · rw [if_pos h6] at h
    split at h
    · cases h
    · split at h
      · cases h
      · rename_i d hd
        cases h
        simp [h1, h2, h3, h4, h5, h6, hd, ReaderState.Items]
  rw [if_neg h6] at h
  have := stepText_items _ _ _ h
  simp [h1, h2, h3, h4, h5, h6, this.1, this.2]

theorem step_times (st st2 : ReaderState) (text : GoString) (h : step st text = .ok st2) :
    st2.Items.map Item.times = st.Items.map Item.times ++ cueTimes [text] ∧
      st2.timeOffset =
        (if isTimestampMapLine (TrimSpace text) then
          match parseTimestampMapWebVTT (TrimSpace text) with
          | .ok x => x
          | .error _ => st.timeOffset
        else st.timeOffset) := by
  unfold step at h
  obtain ⟨a, b⟩ := stepLine_times _ _ _ h
  refine ⟨?_, b⟩
  rw [a]
  cases hb : isTimingLine (TrimSpace text) <;> cases hw : writtenTimes (TrimSpace text) <;>
    simp [cueTimes, hb, hw, ReaderState.Items]

theorem cueTimes_cons (text : GoString) (rest : List GoString) :
    cueTimes (text :: rest) = cueTimes [text] ++ cueTimes rest := by
  simp only [cueTimes, List.filterMap_cons, List.filterMap_nil]
  split <;> simp

/-- The times of the cues and the pending offset after the scan loop. -/
theorem scan_times (lines : List GoString) (st st2 : ReaderState)
    (h : scan st lines = .ok st2) :
    st2.Items.map Item.times = st.Items.map Item.times ++ cueTimes lines ∧
      st2.timeOffset =
        lines.foldl
          (fun d text =>
            if isTimestampMapLine (TrimSpace text) then
              match parseTimestampMapWebVTT (TrimSpace text) with
              | .ok x => x
              | .error _ => d
            else d)
          st.timeOffset := by
  induction lines generalizing st with
  | nil =>
    cases h
    simp [cueTimes]
  | cons text rest ih =>
    simp only [scan] at h
    cases hs : step st text with
    | error e => rw [hs] at h; cases h
    | ok st1 =>
      rw [hs] at h
      obtain ⟨a, b⟩ := step_times st st1 text hs
      obtain ⟨c, d⟩ := ih st1 h
      refine ⟨?_, ?_⟩
      · rw [c, a, List.append_assoc, ← cueTimes_cons]
      · rw [d, b, List.foldl_cons]

/-- C4: for every input `ReadFromWebVTT` accepts, with `d` the offset of its
correlation header (of the last one when there are several, zero when there is
none), the start and end times of the cues of the returned Document are, in
order, the times written in the timing lines plus `d` when `d` is positive, and
the written times unchanged when `d` is zero or negative. -/
theorem ReadFromWebVTT_times (i : GoString) (doc : Subtitles)
    (h : ReadFromWebVTT i = .ok doc) :
    doc.Items.map Item.times =
      (cueTimes (skipHeader (scanLines i))).map fun t =>
        if 0 < correlationOffset (skipHeader (scanLines i)) then
          (t.1 + correlationOffset (skipHeader (scanLines i)),
           t.2 + correlationOffset (skipHeader (scanLines i)))
        else t := by
  unfold ReadFromWebVTT readLines at h
  split at h
  · cases h
  · rename_i st hscan
    cases h
    obtain ⟨a, b⟩ := scan_times _ _ _ hscan
    have hoff : st.timeOffset = correlationOffset (skipHeader (scanLines i)) := b
    have hitems : st.Items.map Item.times = cueTimes (skipHeader (scanLines i)) := by
      rw [a]; simp [ReaderState.Items]
    unfold finish
    rw [← hoff]
    split
    · simp only [Subtitles.Add, ReaderState.document, List.map_map]
      rw [← hitems, List.map_map]
      rfl
    · simp only [ReaderState.document]
      rw [hitems]
      simp

end WebVTT

namespace WebVTT

/-! ### The region map during the scan -/

theorem mapGet_mapSet {β : Type} (m : List (GoString × β)) (k x : GoString) (v : β) :
    mapGet (mapSet m k v) x = if k = x then some v else mapGet m x := by
  induction m with
  | nil => simp [mapSet, mapGet]
  | cons e rest ih =>
    obtain ⟨k1, v1⟩ := e
    simp only [mapSet]
    by_cases h : k1 = k
    · rw [if_pos h]
      simp only [mapGet]
      by_cases h2 : k1 = x
      · simp [h2, ← h]
      · have : ¬ k = x := by rw [← h]; exact h2
        simp [h2, this]
    · rw [if_neg h]
      simp only [mapGet, ih]
      by_cases h2 : k1 = x
      · have : ¬ k = x := by rw [← h2]; exact fun e => h e.symm
        simp [h2, this]
      · simp [h2]

theorem parseRegionParts_id (lineNum : Nat) (parts : List GoString) (id id2 : GoString)
    (sa sa2 : StyleAttributes) (h : parseRegionParts lineNum parts id sa = .ok (id2, sa2)) :
    id2 = regionIdOf parts id := by
  induction parts generalizing id sa with
  | nil =>
    simp only [parseRegionParts] at h
    cases h
    rfl
  | cons part rest ih =>
    simp only [parseRegionParts] at h
    simp only [regionIdOf]
    split at h
    · rename_i key val tail hs
      by_cases h1 : key = str "id"
      · rw [if_pos h1] at h
        rw [if_pos h1]
        exact ih _ _ h
      · rw [if_neg h1] at h
        rw [if_neg h1]
        split at h
        · split at h
          · exact ih _ _ h
          · cases h
        · split at h
          · exact ih _ _ h
          · split at h
            · exact ih _ _ h
            · split at h
              · exact ih _ _ h
              · split at h
                · exact ih _ _ h
                · exact ih _ _ h
    · cases h

theorem stepText_regions (st st2 : ReaderState) (line : GoString)
    (h : stepText st line = .ok st2) : st2.Regions = st.Regions := by
  unfold stepText at h
  simp only at h
  split at h
  · cases h; rfl
  · split at h
    · split at h
      · cases h
      · cases h; rfl
    · split at h
      · split at h <;> cases h <;> rfl
      · cases h; rfl

/-- An accepted line leaves the region map as it is, unless it is a Region
declaration, which registers its region under its identifier. -/
theorem stepLine_regions (st st2 : ReaderState) (line : GoString) (x : GoString)
    (h : stepLine st line = .ok st2) (hx : mapGet st.Regions x = none)
    (hdecl : isRegionLine line = true →
      regionIdOf (Split (TrimPrefix line (str "Region: ")) (str " ")) [] ≠ x) :
    mapGet st2.Regions x = none := by
  unfold stepLine at h
  by_cases h1 : HasPrefix line (str "NOTE ") = true
  · rw [if_pos h1] at h
    cases h
    exact hx
  rw [if_neg h1] at h
  by_cases h2 : line.length = 0
  · rw [if_pos h2] at h
    split at h <;> cases h <;> exact hx
  rw [if_neg h2] at h
  by_cases h3 : HasPrefix line (str "Region: ") = true
  · rw [if_pos h3] at h
    unfold stepRegion at h
    split at h
    · cases h
    · rename_i id sa hp
      cases h
      simp only
      rw [mapGet_mapSet]
      have hid := parseRegionParts_id _ _ _ _ _ _ hp
      have hne := hdecl (by simp [isRegionLine, h1, h2, h3])
      rw [← hid] at hne
      rw [if_neg hne]
      exact hx
  rw [if_neg h3] at h
  by_cases h4 : HasPrefix line (str "STYLE") = true
  · rw [if_pos h4] at h
    cases h
    exact hx
  rw [if_neg h4] at h
  by_cases h5 : Contains line webvttTimeBoundariesSeparator = true
  · rw [if_pos h5] at h
    obtain ⟨_, _, _, _, _, hr⟩ := stepTiming_items _ _ _ h
    rw [hr]
    exact hx
  rw [if_neg h5] at h
  by_cases h6 : HasPrefix line webvttTimestampMap = true
  · rw [if_pos h6] at h
    split at h
    · cases h
    · split at h
      · cases h
      · cases h
        exact hx
  rw [if_neg h6] at h
  rw [stepText_regions _ _ _ h]
  exact hx

/-- A region identifier that no line of the input declares is not in the region
map after the scan. -/
theorem scan_regions (lines : List GoString) (st st2 : ReaderState) (x : GoString)
    (h : scan st lines = .ok st2) (hx : mapGet st.Regions x = none)
    (hdecl : x ∉ declaredRegions lines) : mapGet st2.Regions x = none := by
  induction lines generalizing st with
  | nil => cases h; exact hx
  | cons text rest ih =>
    simp only [scan] at h
    cases hs : step st text with
    | error e => rw [hs] at h; cases h
    | ok st1 =>
      rw [hs] at h
      have hrest : x ∉ declaredRegions rest := by
        intro hm
        apply hdecl
        simp only [declaredRegions, List.filterMap_cons] at hm ⊢
        split
        · exact hm
        · exact List.mem_cons_of_mem _ hm
      refine ih st1 h ?_ hrest
      unfold step at hs
      refine stepLine_regions _ _ _ x hs hx ?_
      intro hreg e
      apply hdecl
      simp only [declaredRegions, List.filterMap_cons, hreg, if_true, e]
      exact List.mem_cons_self _ _

/-! ### The settings of a timing line -/

/-- A region setting whose identifier is not in the region map makes the loop
over the settings fail. -/
theorem parseCueSettings_unknown (lineNum : Nat) (regions : List (GoString × Region))
    (fields : List GoString) (sa : StyleAttributes) (r : Option Region)
    (field x : GoString) (rest : List GoString) (hf : field ∈ fields)
    (hs : Split field (str ":") = str "region" :: x :: rest)
    (hx : mapGet regions x = none) :
    ∃ e, parseCueSettings lineNum regions fields sa r = .error e := by
  have hne : field ≠ [] := by
    intro e
    have h0 : Split [] (str ":") = [[]] := by decide
    rw [e, h0] at hs
    simp at hs
  have e1 : ¬ (str "region" = str "align") := by decide
  have e2 : ¬ (str "region" = str "line") := by decide
  have e3 : ¬ (str "region" = str "position") := by decide
  induction fields generalizing sa r with
  | nil => simp at hf
  | cons f tail ih =>
    rw [parseCueSettings]
    rcases List.mem_cons.mp hf with e | e
    · subst e
      rw [if_neg hne, hs]
      simp only [e1, e2, e3, if_false, if_true, hx]
      exact ⟨_, rfl⟩
    · split
      · exact ih _ _ e
      · split
        · split
          · exact ih _ _ e
          · split
            · exact ih _ _ e
            · split
              · exact ih _ _ e
              · split
                · split
                  · exact ⟨_, rfl⟩
                  · exact ih _ _ e
                · split
                  · exact ih _ _ e
                  · split
                    · exact ih _ _ e
                    · exact ih _ _ e
        · exact ⟨_, rfl⟩

/-- The first region setting with an unknown identifier, the settings before it
accepted, gives the unknown-region error. -/
theorem parseCueSettings_unknown_first (lineNum : Nat) (regions : List (GoString × Region))
    (before after : List GoString) (sa sa2 : StyleAttributes) (r r2 : Option Region)
    (field x : GoString) (rest : List GoString)
    (hb : parseCueSettings lineNum regions before sa r = .ok (sa2, r2))
    (hs : Split field (str ":") = str "region" :: x :: rest)
    (hx : mapGet regions x = none) :
    parseCueSettings lineNum regions (before ++ field :: after) sa r =
      .error (.unknownRegion lineNum x) := by
  have hne : field ≠ [] := by
    intro e
    have h0 : Split [] (str ":") = [[]] := by decide
    rw [e, h0] at hs
    simp at hs
  have e1 : ¬ (str "region" = str "align") := by decide
  have e2 : ¬ (str "region" = str "line") := by decide
  have e3 : ¬ (str "region" = str "position") := by decide
  induction before generalizing sa r with
  | nil =>
    simp only [List.nil_append]
    rw [parseCueSettings, if_neg hne, hs]
    simp only [e1, e2, e3, if_false, if_true, hx]
  | cons f tail ih =>
    simp only [List.cons_append]
    rw [parseCueSettings] at hb ⊢
    split
    · rename_i hf
      rw [if_pos hf] at hb
      exact ih _ _ hb
    · rename_i hf
      rw [if_neg hf] at hb
      split
      · rename_i key val tl hsp
        rw [hsp] at hb
        simp only at hb
        split
        · rename_i hk; rw [if_pos hk] at hb; exact ih _ _ hb
        · rename_i hk1
          rw [if_neg hk1] at hb
          split
          · rename_i hk; rw [if_pos hk] at hb; exact ih _ _ hb
          · rename_i hk2
            rw [if_neg hk2] at hb
            split
            · rename_i hk; rw [if_pos hk] at hb; exact ih _ _ hb
            · rename_i hk3
              rw [if_neg hk3] at hb
              split
              · rename_i hk
                rw [if_pos hk] at hb
                split
                · rename_i hg; rw [hg] at hb; cases hb
                · rename_i reg hg; rw [hg] at hb; exact ih _ _ hb
              · rename_i hk4
                rw [if_neg hk4] at hb
                split
                · rename_i hk; rw [if_pos hk] at hb; exact ih _ _ hb
                · rename_i hk5
                  rw [if_neg hk5] at hb
                  split
                  · rename_i hk; rw [if_pos hk] at hb; exact ih _ _ hb
                  · rename_i hk6; rw [if_neg hk6] at hb; exact ih _ _ hb
      · rename_i hsp
        split at hb
        · rename_i key val tl hsp2
          exact absurd hsp2 (hsp key val tl)
        · cases hb

end WebVTT

namespace WebVTT

/-- One setting of a timing line, when the loop over the settings succeeds: the
loop goes on with the rest, the region changed only by a region setting, which
sets it to the region found under its identifier. -/
theorem parseCueSettings_cons (lineNum : Nat) (regions : List (GoString × Region))
    (f : GoString) (tail : List GoString) (sa : StyleAttributes) (r : Option Region)
    (res : StyleAttributes × Option Region)
    (h : parseCueSettings lineNum regions (f :: tail) sa r = .ok res) :
    ∃ sa1 r1, parseCueSettings lineNum regions tail sa1 r1 = .ok res ∧
      (isRegionField f = false → r1 = r) ∧
      (∀ x rest, Split f (str ":") = str "region" :: x :: rest →
        r1 = mapGet regions x ∧ mapGet regions x ≠ none) := by
  have e1 : ¬ (str "region" = str "align") := by decide
  have e2 : ¬ (str "region" = str "line") := by decide
  have e3 : ¬ (str "region" = str "position") := by decide
  have e4 : ¬ (str "size" = str "region") := by decide
  have e5 : ¬ (str "vertical" = str "region") := by decide
  have e6 : ¬ (str "align" = str "region") := by decide
  have e7 : ¬ (str "line" = str "region") := by decide
  have e8 : ¬ (str "position" = str "region") := by decide
  have h0 : Split [] (str ":") = [[]] := by decide
  rw [parseCueSettings] at h
  split at h
  · rename_i hf
    refine ⟨sa, r, h, fun _ => rfl, ?_⟩
    intro x rest hs
    rw [hf, h0] at hs
    simp at hs
  · split at h
    · rename_i key val tl hsp
      unfold isRegionField
      rw [hsp]
      simp only [beq_eq_false_iff_ne, ne_eq, List.cons.injEq, and_imp]
      split at h
      · rename_i hk
        refine ⟨_, _, h, fun _ => rfl, ?_⟩
        intro x rest hkr
        rw [hk] at hkr
        exact absurd hkr e6
      · split at h
        · rename_i hk
          refine ⟨_, _, h, fun _ => rfl, ?_⟩
          intro x rest hkr
          rw [hk] at hkr
          exact absurd hkr e7
        · split at h
          · rename_i hk
            refine ⟨_, _, h, fun _ => rfl, ?_⟩
            intro x rest hkr
            rw [hk] at hkr
            exact absurd hkr e8
          · split at h
            · rename_i hk
              split at h
              · cases h
              · rename_i reg hg
                refine ⟨_, _, h, fun hne => absurd hk hne, ?_⟩
                intro x rest _ hv _
                rw [← hv, hg]
                simp
            · split at h
              · rename_i hk
                refine ⟨_, _, h, fun _ => rfl, ?_⟩
                intro x rest hkr
                rw [hk] at hkr
                exact absurd hkr e4
              · split at h
                · rename_i hk
                  refine ⟨_, _, h, fun _ => rfl, ?_⟩
                  intro x rest hkr
                  rw [hk] at hkr
                  exact absurd hkr e5
                · rename_i hk _ _
                  refine ⟨_, _, h, fun _ => rfl, ?_⟩
                  intro x rest hkr
                  exact absurd hkr hk
    · cases h

/-- Settings that are no region reference leave the region of the cue as it
is. -/
theorem parseCueSettings_no_region (lineNum : Nat) (regions : List (GoString × Region))
    (fields : List GoString) (sa : StyleAttributes) (r : Option Region)
    (res : StyleAttributes × Option Region)
    (hno : ∀ f ∈ fields, isRegionField f = false)
    (h : parseCueSettings lineNum regions fields sa r = .ok res) : res.2 = r := by
  induction fields generalizing sa r with
  | nil =>
    simp only [parseCueSettings] at h
    cases h
    rfl
  | cons f tail ih =>
    obtain ⟨sa1, r1, h1, hr, _⟩ := parseCueSettings_cons _ _ _ _ _ _ _ h
    rw [ih sa1 r1 (fun g hg => hno g (List.mem_cons_of_mem _ hg)) h1]
    exact hr (hno f (List.mem_cons_self _ _))

/-- The region of the cue is the region found under the identifier of the last
region setting of the timing line. -/
theorem parseCueSettings_last_region (lineNum : Nat) (regions : List (GoString × Region))
    (before after : List GoString) (field x : GoString) (rest : List GoString)
    (sa : StyleAttributes) (r : Option Region) (res : StyleAttributes × Option Region)
    (hs : Split field (str ":") = str "region" :: x :: rest)
    (hno : ∀ f ∈ after, isRegionField f = false)
    (h : parseCueSettings lineNum regions (before ++ field :: after) sa r = .ok res) :
    res.2 = mapGet regions x ∧ mapGet regions x ≠ none := by
  induction before generalizing sa r with
  | nil =>
    obtain ⟨sa1, r1, h1, _, hr⟩ := parseCueSettings_cons _ _ _ _ _ _ _ h
    obtain ⟨a, b⟩ := hr x rest hs
    rw [parseCueSettings_no_region _ _ _ _ _ _ hno h1]
    exact ⟨a, b⟩
  | cons f tail ih =>
    obtain ⟨sa1, r1, h1, _, _⟩ := parseCueSettings_cons _ _ _ _ _ _ _ h
    exact ih sa1 r1 h1

theorem stepLine_timing (st : ReaderState) (line : GoString) (h : isTimingLine line = true) :
    stepLine st line = stepTiming st line := by
  unfold isTimingLine at h
  simp only [Bool.and_eq_true, Bool.not_eq_true', bne_iff_ne, ne_eq] at h
  obtain ⟨⟨⟨⟨h1, h2⟩, h3⟩, h4⟩, h5⟩ := h
  unfold stepLine
  simp [h1, h2, h3, h4, h5]

/-- C6: (1) when a cue timing line of the input carries a setting `region:X` and
no earlier line declares a Region with identifier `X`, `ReadFromWebVTT` returns
an error; (2) that error is the unknown-region error for `X` when the scan
reaches the setting, that is when the two times of the line parse and the
settings before it are accepted; (3) when the timing line is accepted, the new
cue is appended to the cues and its Region is the region registered under `X` at
that point, `X` the identifier of the last region setting of the line. -/
theorem ReadFromWebVTT_region :
    (∀ (i : GoString) (pre post : List GoString) (text field x : GoString) (rest : List GoString),
      skipHeader (scanLines i) = pre ++ text :: post →
      isTimingLine (TrimSpace text) = true →
      field ∈ timingFields (TrimSpace text) →
      Split field (str ":") = str "region" :: x :: rest →
      x ∉ declaredRegions pre →
      ∃ e, ReadFromWebVTT i = .error e) ∧
    (∀ (st : ReaderState) (line field x : GoString) (before after rest : List GoString)
      (t : Duration × Duration) (res : StyleAttributes × Option Region),
      isTimingLine line = true →
      writtenTimes line = some t →
      timingFields line = before ++ field :: after →
      parseCueSettings st.lineNum st.Regions before {} none = .ok res →
      Split field (str ":") = str "region" :: x :: rest →
      mapGet st.Regions x = none →
      stepLine st line = .error (.unknownRegion st.lineNum x)) ∧
    (∀ (st st2 : ReaderState) (line field x : GoString) (before after rest : List GoString),
      isTimingLine line = true →
      stepLine st line = .ok st2 →
      timingFields line = before ++ field :: after →
      Split field (str ":") = str "region" :: x :: rest →
      (∀ f ∈ after, isRegionField f = false) →
      st2.Items = st.Items ++ [st2.item] ∧ st2.item.Region = mapGet st.Regions x ∧
        mapGet st.Regions x ≠ none) := by
  refine ⟨?_, ?_, ?_⟩
  · intro i pre post text field x rest hlines htiming hfield hs hdecl
    unfold ReadFromWebVTT readLines
    rw [hlines, scan_append]
    cases hpre : scan _ pre with
    | error e => exact ⟨e, rfl⟩
    | ok st =>
      simp only [scan]
      have hx : mapGet st.Regions x = none :=
        scan_regions pre _ st x hpre rfl hdecl
      have hstep : ∃ e, step st text = .error e := by
        unfold step
        rw [stepLine_timing _ _ htiming]
        unfold stepTiming
        unfold timingFields at hfield
        split
        · rename_i left0 left1 tl hsp
          rw [hsp] at hfield
          simp only at hfield
          split
          · rename_i right0 fields hr
            rw [hr] at hfield
            simp only [List.drop_succ_cons, List.drop_zero] at hfield
            split
            · exact ⟨_, rfl⟩
            · split
              · exact ⟨_, rfl⟩
              · obtain ⟨e, he⟩ := parseCueSettings_unknown (st.lineNum + 1) st.Regions fields
                  {} none field x rest hfield hs hx
                simp only at he ⊢
                rw [he]
                exact ⟨_, rfl⟩
          · exact ⟨_, rfl⟩
        · exact ⟨_, rfl⟩
      obtain ⟨e, he⟩ := hstep
      rw [he]
      exact ⟨e, rfl⟩
  · intro st line field x before after rest t res htiming htimes hfields hbefore hs hx
    rw [stepLine_timing _ _ htiming]
    unfold stepTiming
    unfold writtenTimes at htimes
    unfold timingFields at hfields
    split
    · rename_i left0 left1 tl hsp
      rw [hsp] at htimes hfields
      simp only at htimes hfields
      split
      · rename_i right0 fields hr
        rw [hr] at htimes hfields
        simp only [List.drop_succ_cons, List.drop_zero] at htimes hfields
        cases h1 : parseDurationWebVTT left0 with
        | none => rw [h1] at htimes; simp at htimes
        | some a =>
          cases h2 : parseDurationWebVTT right0 with
          | none => rw [h1, h2] at htimes; simp at htimes
          | some b =>
            simp only
            rw [hfields, parseCueSettings_unknown_first _ _ _ _ _ _ _ _ _ _ _ hbefore hs hx]
      · rename_i hr
        rw [hr] at hfields
        simp at hfields
    · rename_i hsp
      split at hfields
      · rename_i a b c hsp2
        exact absurd hsp2 (hsp a b c)
      · simp at hfields
  · intro st st2 line field x before after rest htiming hstep hfields hs hno
    rw [stepLine_timing _ _ htiming] at hstep
    obtain ⟨t, _, hitems, _, _, _⟩ := stepTiming_items _ _ _ hstep
    refine ⟨hitems, ?_⟩
    unfold stepTiming at hstep
    unfold timingFields at hfields
    split at hstep
    · rename_i left0 left1 tl hsp
      rw [hsp] at hfields
      simp only at hfields
      split at hstep
      · rename_i right0 fields hr
        rw [hr] at hfields
        simp only [List.drop_succ_cons, List.drop_zero] at hfields
        split at hstep
        · cases hstep
        · split at hstep
          · cases hstep
          · split at hstep
            · cases hstep
            · rename_i sa region hc
              cases hstep
              simp only
              rw [hfields] at hc
              exact parseCueSettings_last_region _ _ _ _ _ _ _ _ _ (sa, region) hs hno hc
      · cases hstep
    · cases hstep

end WebVTT

namespace WebVTT

/-- C4, witness: the cue written `00:00:01.000 --> 00:00:04.000` after the header
`LOCAL:00:00:00.000,MPEGTS:900000` is returned with the times 11 s and 14 s. -/
theorem ReadFromWebVTT_times_witness :
    ReadFromWebVTT exampleCorrelated = .ok (documentOf exampleCorrelated) ∧
      (documentOf exampleCorrelated).Items.map Item.times = [(11 * Second, 14 * Second)] :=
  ⟨by decide,
   (ReadFromWebVTT_times exampleCorrelated (documentOf exampleCorrelated) (by decide)).trans
     (by decide)⟩

/-- C6, witness: a timing line with `region:doesnotexist` and no Region
declared. -/
theorem ReadFromWebVTT_region_witness : ∃ e, ReadFromWebVTT exampleUnknownRegion = .error e :=
  ReadFromWebVTT_region.1 exampleUnknownRegion [[]] [str "Hi"]
    (str "00:00:01.000 --> 00:00:02.000 region:doesnotexist") (str "region:doesnotexist")
    (str "doesnotexist") [] (by decide) (by decide) (by decide) (by decide) (by decide)

/-- C7, the failing input: the correlation header on the line after the timing
line of the second cue is accepted although the first cue already has a text
line, and both cues are shifted by 10 seconds; right after the text line of a
cue the same header is refused. -/
theorem ReadFromWebVTT_late_header :
    ReadFromWebVTT exampleLateHeader = .ok (documentOf exampleLateHeader) ∧
      (documentOf exampleLateHeader).Items.map Item.times =
        [(11 * Second, 12 * Second), (13 * Second, 14 * Second)] ∧
      cueTexts (documentOf exampleLateHeader) = [[[str "Hello"]], []] ∧
      ReadFromWebVTT exampleHeaderAfterText = .error .timestampMapAfterItems := by
  decide

/-- C1, the failing input: the cue text `NOTE<00:00:01.500>x` is read as the two
items `NOTE` and `x`; written, they are joined by a space, and the line
`NOTE <00:00:01.500>x` is read back as a comment: the cue has lost its text. -/
theorem roundtrip_note_text :
    ReadFromWebVTT exampleNoteText = .ok (documentOf exampleNoteText) ∧
      WriteToWebVTT (documentOf exampleNoteText) =
        some (str "WEBVTT\n\n1\n00:00:01.000 --> 00:00:02.000\nNOTE <00:00:01.500>x\n") ∧
      ReadFromWebVTT (writtenOf (documentOf exampleNoteText)) =
        .ok (documentOf (writtenOf (documentOf exampleNoteText))) ∧
      cueTexts (documentOf exampleNoteText) = [[[str "NOTE", str "x"]]] ∧
      cueTexts (documentOf (writtenOf (documentOf exampleNoteText))) = [[]] := by
  decide

/-- C10, witness: two regions inserted as `b`, `a` are written as `a`, `b`, also
when the map is iterated in the other order. -/
theorem WriteToWebVTTWithSync_regions_witness :
    WriteToWebVTTWithSync exampleRegions { isZero := true, ticks := 0 } =
        some (str "WEBVTT\n\nRegion: id=a width=40%\nRegion: id=b\n") ∧
      WriteToWebVTTWithSync { exampleRegions with Regions := exampleRegions.Regions.reverse }
          { isZero := true, ticks := 0 } =
        WriteToWebVTTWithSync exampleRegions { isZero := true, ticks := 0 } :=
  ⟨by decide,
   (WriteToWebVTTWithSync_regions exampleRegions { isZero := true, ticks := 0 }
      (by decide) (by decide) (by decide)).2 _ (List.reverse_perm _).symm⟩

end WebVTT

namespace WebVTT

/-- C11, the failing input: a document whose one region has no style record makes
the writer dereference a nil pointer; the call panics although the sink accepts
everything. -/
theorem WriteToWebVTTWithSyncTo_bare_region :
    WriteToWebVTTWithSync exampleBareRegion { isZero := true, ticks := 0 } = none ∧
      WriteToWebVTTWithSyncTo acceptingSink exampleBareRegion { isZero := true, ticks := 0 } =
        .panicked := by
  decide

/-- C12, the failing input: the same two styles, iterated in the two possible
orders of the map, give two different outputs. -/
theorem WriteToWebVTT_style_order :
    WriteToWebVTT exampleStyles = some (str "WEBVTT\n\nSTYLE\nx\ny\n") ∧
      WriteToWebVTT { exampleStyles with Styles := exampleStyles.Styles.reverse } =
        some (str "WEBVTT\n\nSTYLE\ny\nx\n") ∧
      exampleStyles.Styles.reverse.Perm exampleStyles.Styles ∧
      WriteToWebVTT { exampleStyles with Styles := exampleStyles.Styles.reverse } ≠
        WriteToWebVTT exampleStyles := by
  refine ⟨by decide, by decide, List.reverse_perm _, by decide⟩

/-- C13: the end-to-end input is read without error as exactly one cue with start
1 s, end 4 s and inline align `center`, holding exactly one Line with voice label
`Bob` and exactly two LineItems, `Hello` with no style record and `world` whose
tag stack is the single tag `b`. -/
theorem ReadFromWebVTT_end_to_end :
    ReadFromWebVTT exampleEndToEnd =
      .ok { Items := [{ StartAt := 1 * Second, EndAt := 4 * Second,
                        InlineStyle := some { WebVTTAlign := str "center" },
                        Lines := [{ VoiceName := str "Bob",
                                    Items := [{ InlineStyle := none, Text := str "Hello" },
                                              { InlineStyle := some
                                                  { WebVTTTags := [{ Name := str "b", Classes := [],
                                                                     Annotation := [] }] },
                                                Text := str "world" }] }] }] } := by
  decide

/-- C14 (amended): the document read from the end-to-end input is written as the
header, a blank line, the sequence number `1`, the timing line and the text line
`<v Bob>Hello <b>world</b>`, with one line feed at the end. -/
theorem WriteToWebVTT_end_to_end :
    WriteToWebVTT (documentOf exampleEndToEnd) =
      some (str ("WEBVTT\n\n1\n00:00:01.000 --> 00:00:04.000 align:center\n" ++
        "<v Bob>Hello <b>world</b>\n")) := by
  decide

/-- C14, counterexample: what is written for the document read from the
end-to-end input is not the input, also when all spaces are left out of the
comparison. -/
theorem WriteToWebVTT_end_to_end_differs :
    ReadFromWebVTT exampleEndToEnd = .ok (documentOf exampleEndToEnd) ∧
      WriteToWebVTT (documentOf exampleEndToEnd) ≠ some exampleEndToEnd ∧
      (writtenOf (documentOf exampleEndToEnd)).filter (· != 32) ≠
        exampleEndToEnd.filter (· != 32) := by
  decide

/-- C17, the failing input: in `<i><v Bob>Hi</v> there</i>` the closing voice tag
pops the italic tag, so the run `there` is recorded with no tag stack although
the italic tag is still open. -/
theorem parseTextWebVTT_voice_close :
    parseTextWebVTT (str "<i><v Bob>Hi</v> there</i>") =
      { VoiceName := str "Bob",
        Items := [{ InlineStyle := some { WebVTTTags := [{ Name := str "i", Classes := [],
                                                           Annotation := [] }] },
                    Text := str "Hi" },
                  { InlineStyle := none, Text := str "there" }] } := by
  decide

/-- C20, the failing input: the entity `&nbsp;` is unescaped to the byte `0xA0`
followed by the semicolon, which is left behind. -/
theorem unescapeWebVTT_nbsp :
    unescapeWebVTT (str "a&nbsp;b") = [97, 0xA0, 59, 98] ∧
      unescapeWebVTT (str "&amp;&lt;&gt;") = str "&<>" := by
  decide

end WebVTT

namespace WebVTT

theorem slice_zero_length (line : GoString) : slice line 0 line.length = line := by
  simp [slice]

theorem textTokenSegments_cons (sa : Option StyleAttributes) (line : GoString)
    (m : Nat × Nat) (rest : List (Nat × Nat)) :
    textTokenSegments sa line (m :: rest) =
      (if TrimSpace (slice line m.2 (segmentEnd line rest)) = [] then
        textTokenSegments sa line rest
      else
        { InlineStyle := sa
          StartAt := (parseDurationWebVTT (slice line (m.1 + 1) (m.2 - 1))).getD 0
          Text := unescapeWebVTT (TrimSpace (slice line m.2 (segmentEnd line rest))) } ::
          textTokenSegments sa line rest) := by
  cases rest <;> rfl

end WebVTT

namespace WebVTT

theorem stepLine_blank (st : ReaderState) :
    stepLine st [] = .ok (if styleBlockOpen st then st else { st with blockName := [] }) := by
  unfold stepLine
  have h1 : HasPrefix [] (str "NOTE ") = false := by decide
  simp only [h1, List.length_nil, if_true, Bool.false_eq_true, if_false]
  split <;> rfl

theorem stepLine_ordinary (st : ReaderState) (line : GoString)
    (h : isOrdinaryLine line = true) : stepLine st line = stepText st line := by
  unfold isOrdinaryLine at h
  simp only [Bool.and_eq_true, Bool.not_eq_true', bne_iff_ne, ne_eq] at h
  obtain ⟨⟨⟨⟨⟨h1, h2⟩, h3⟩, h4⟩, h5⟩, h6⟩ := h
  unfold stepLine
  simp [h1, h2, h3, h4, h5, h6]

theorem styleBlockOpen_iff (st : ReaderState) :
    styleBlockOpen st = true ↔
      st.blockName = webvttBlockNameStyle ∧
        ∃ sa last, st.webVTTStyles = some sa ∧ sa.WebVTTStyles.getLast? = some last ∧
          HasSuffix last [125] = false := by
  unfold styleBlockOpen
  simp only [Bool.and_eq_true, beq_iff_eq]
  constructor
  · rintro ⟨hb, h⟩
    refine ⟨hb, ?_⟩
    cases hs : st.webVTTStyles with
    | none => rw [hs] at h; simp at h
    | some sa =>
      rw [hs] at h
      simp only at h
      cases hl : sa.WebVTTStyles.getLast? with
      | none => rw [hl] at h; simp at h
      | some last =>
        rw [hl] at h
        simp only [Bool.not_eq_true'] at h
        exact ⟨sa, last, rfl, hl, h⟩
  · rintro ⟨hb, sa, last, hs, hl, hsuf⟩
    refine ⟨hb, ?_⟩
    rw [hs]
    simp only
    rw [hl]
    simp [hsuf]

/-- C19: in the line state machine of the reader a blank line resets the current
block to none, except when the current block is a style sheet that has at least
one accumulated declaration line and whose last accumulated line does not end
with a closing brace (byte 125): then the state is unchanged, the block stays a
style sheet, and an ordinary non-blank line that follows is appended to the
declarations of the style sheet. -/
theorem blank_line_block :
    (∀ (st : ReaderState) (text : GoString), TrimSpace text = [] →
      step st text =
        .ok (if styleBlockOpen st then { st with lineNum := st.lineNum + 1 }
             else { st with lineNum := st.lineNum + 1, blockName := [] })) ∧
    (∀ st : ReaderState, styleBlockOpen st = true ↔
      st.blockName = webvttBlockNameStyle ∧
        ∃ sa last, st.webVTTStyles = some sa ∧ sa.WebVTTStyles.getLast? = some last ∧
          HasSuffix last [125] = false) ∧
    (∀ (st : ReaderState) (sa : StyleAttributes) (last blank text : GoString),
      TrimSpace blank = [] →
      st.blockName = webvttBlockNameStyle →
      st.webVTTStyles = some sa →
      sa.WebVTTStyles.getLast? = some last →
      HasSuffix last [125] = false →
      isOrdinaryLine (TrimSpace text) = true →
      scan st [blank, text] =
        .ok { st with
          lineNum := st.lineNum + 2
          webVTTStyles := some { sa with WebVTTStyles := sa.WebVTTStyles ++ [TrimSpace text] } }) := by
  have hcs : ¬ (webvttBlockNameStyle = webvttBlockNameComment) := by decide
  refine ⟨?_, styleBlockOpen_iff, ?_⟩
  · intro st text hblank
    unfold step
    rw [hblank, stepLine_blank]
    have e : styleBlockOpen { st with lineNum := st.lineNum + 1 } = styleBlockOpen st := rfl
    rw [e]
  · intro st sa last blank text hblank hb hs hl hsuf hord
    have hopen : styleBlockOpen st = true :=
      (styleBlockOpen_iff st).mpr ⟨hb, sa, last, hs, hl, hsuf⟩
    simp only [scan]
    unfold step
    rw [hblank, stepLine_blank]
    have e : styleBlockOpen { st with lineNum := st.lineNum + 1 } = styleBlockOpen st := rfl
    rw [e, if_pos hopen]
    simp only
    rw [stepLine_ordinary _ _ hord]
    unfold stepText
    simp only [hb, hcs, if_false, if_true, hs]

/-- C19 at the state after `STYLE` and `::cue`: the hypotheses hold there, and the
blank line followed by `color: red` leaves a style block with both lines. -/
theorem blank_line_block_witness :
    TrimSpace ([] : GoString) = [] ∧
      exampleOpenStyle.blockName = webvttBlockNameStyle ∧
      isOrdinaryLine (TrimSpace (str "color: red")) = true ∧
      scan exampleOpenStyle [[], str "color: red"] =
        .ok { exampleOpenStyle with
          lineNum := exampleOpenStyle.lineNum + 2
          webVTTStyles := some { WebVTTStyles := [str "::cue"] ++ [TrimSpace (str "color: red")] } } :=
  ⟨by decide, by decide, by decide,
    blank_line_block.2.2 exampleOpenStyle { WebVTTStyles := [str "::cue"] } (str "::cue") []
      (str "color: red") (by decide) (by decide) rfl (by decide) (by decide) (by decide)⟩

/-- The same on whole inputs: after `STYLE` and the line `::cue` the blank line
leaves the style block open and the next line is one more declaration; after a
line that ends with a closing brace the blank line closes the block. -/
theorem ReadFromWebVTT_style_blank_line :
    (documentOf (str "WEBVTT\nSTYLE\n::cue\n\ncolor: red\n")).Styles =
        [(webvttDefaultStyleID,
          { ID := webvttDefaultStyleID,
            InlineStyle := some { WebVTTStyles := [str "::cue", str "color: red"] } })] ∧
      (documentOf (str "WEBVTT\nSTYLE\n::cue \x7b\x7d \n\ncolor: red\n")).Styles =
        [(webvttDefaultStyleID,
          { ID := webvttDefaultStyleID,
            InlineStyle := some { WebVTTStyles := [[58, 58, 99, 117, 101, 32, 123, 125]] } })] := by
  decide

end WebVTT

namespace WebVTT

/-! ### The region references of the cues during the scan -/

theorem mem_mapSet {β : Type} (m : List (GoString × β)) (key : GoString) (v : β)
    (k : GoString) (w : β) (h : (k, w) ∈ mapSet m key v) : (k, w) = (key, v) ∨ (k, w) ∈ m := by
  induction m with
  | nil =>
    simp only [mapSet, List.mem_singleton] at h
    exact Or.inl h
  | cons e rest ih =>
    obtain ⟨k1, v1⟩ := e
    simp only [mapSet] at h
    by_cases hk : k1 = key
    · rw [if_pos hk] at h
      rcases List.mem_cons.mp h with h1 | h1
      · left
        rw [h1, hk]
      · exact Or.inr (List.mem_cons_of_mem _ h1)
    · rw [if_neg hk] at h
      rcases List.mem_cons.mp h with h1 | h1
      · right
        rw [h1]
        exact List.mem_cons_self _ _
      · rcases ih h1 with h2 | h2
        · exact Or.inl h2
        · exact Or.inr (List.mem_cons_of_mem _ h2)

/-- The region the loop over the settings ends with is the one it started with or
one found in the region map. -/
theorem parseCueSettings_region (lineNum : Nat) (regions : List (GoString × Region))
    (fields : List GoString) (sa : StyleAttributes) (r : Option Region)
    (res : StyleAttributes × Option Region)
    (h : parseCueSettings lineNum regions fields sa r = .ok res) :
    res.2 = r ∨ ∃ x reg, mapGet regions x = some reg ∧ res.2 = some reg := by
  induction fields generalizing sa r with
  | nil =>
    simp only [parseCueSettings] at h
    cases h
    exact Or.inl rfl
  | cons f tail ih =>
    obtain ⟨sa1, r1, h1, hr, hx⟩ := parseCueSettings_cons _ _ _ _ _ _ _ h
    rcases ih sa1 r1 h1 with h2 | h2
    · cases hf : isRegionField f with
      | false => exact Or.inl (h2.trans (hr hf))
      | true =>
        unfold isRegionField at hf
        split at hf
        · rename_i key val rest hs
          have hkey : key = str "region" := by simpa using hf
          rw [hkey] at hs
          obtain ⟨a, b⟩ := hx val rest hs
          cases hm : mapGet regions val with
          | none => exact absurd hm b
          | some reg =>
            right
            exact ⟨val, reg, hm, by rw [h2, a, hm]⟩
        · cases hf
    · exact Or.inr h2

theorem stepTiming_region (st st2 : ReaderState) (line : GoString)
    (h : stepTiming st line = .ok st2) :
    st2.item.Region = none ∨ ∃ x reg, mapGet st.Regions x = some reg ∧ st2.item.Region = some reg := by
  unfold stepTiming at h
  split at h
  · split at h
    · split at h
      · cases h
      · split at h
        · cases h
        · split at h
          · cases h
          · rename_i sa region hc
            cases h
            exact parseCueSettings_region _ _ _ _ _ _ hc
    · cases h
  · cases h

theorem stepText_refs (st st2 : ReaderState) (line : GoString)
    (h : stepText st line = .ok st2) :
    st2.Items.map Item.Region = st.Items.map Item.Region := by
  unfold stepText at h
  simp only at h
  split at h
  · cases h; rfl
  · split at h
    · split at h
      · cases h
      · cases h; rfl
    · split at h
      · split at h
        · cases h
          simp only [ReaderState.Items, List.map_append]
          cases st.inDoc <;> simp
        · cases h; rfl
      · cases h; rfl

/-- What one accepted line does to the region map and to the region references of
the cues: a Region declaration registers a region under its own identifier and
leaves the cues alone; any other line leaves the map alone and adds at most
references to regions found in the map. -/
theorem stepLine_refs (st st2 : ReaderState) (line : GoString)
    (h : stepLine st line = .ok st2) :
    (isRegionLine line = true ∧ st2.Items.map Item.Region = st.Items.map Item.Region ∧
      ∃ reg : Region,
        reg.ID = regionIdOf (Split (TrimPrefix line (str "Region: ")) (str " ")) [] ∧
          st2.Regions = mapSet st.Regions reg.ID reg) ∨
    (isRegionLine line = false ∧ st2.Regions = st.Regions ∧
      ∃ added, st2.Items.map Item.Region = st.Items.map Item.Region ++ added ∧
        ∀ r, some r ∈ added → ∃ x, mapGet st.Regions x = some r) := by
  unfold stepLine at h
  by_cases h1 : HasPrefix line (str "NOTE ") = true
  · rw [if_pos h1] at h
    cases h
    exact Or.inr ⟨by simp [isRegionLine, h1], rfl, [], by simp [ReaderState.Items], by simp⟩
  rw [if_neg h1] at h
  by_cases h2 : line.length = 0
  · rw [if_pos h2] at h
    have : st2.Items = st.Items ∧ st2.Regions = st.Regions := by
      split at h <;> cases h <;> exact ⟨rfl, rfl⟩
    exact Or.inr ⟨by simp [isRegionLine, h2], this.2, [], by simp [this.1], by simp⟩
  rw [if_neg h2] at h
  by_cases h3 : HasPrefix line (str "Region: ") = true
  · rw [if_pos h3] at h
    left
    refine ⟨by simp [isRegionLine, h1, h2, h3], ?_, ?_⟩
    · rw [(stepRegion_items _ _ _ h).1]
    · unfold stepRegion at h
      split at h
      · cases h
      · rename_i id sa hp
        cases h
        exact ⟨{ ID := id, InlineStyle := some (propagateWebVTTAttributes sa) },
          parseRegionParts_id _ _ _ _ _ _ hp, rfl⟩
  rw [if_neg h3] at h
  right
  refine ⟨by simp [isRegionLine, h3], ?_⟩
  by_cases h4 : HasPrefix line (str "STYLE") = true
  · rw [if_pos h4] at h
    cases h
    exact ⟨rfl, [], by simp [ReaderState.Items], by simp⟩
  rw [if_neg h4] at h
  by_cases h5 : Contains line webvttTimeBoundariesSeparator = true
  · rw [if_pos h5] at h
    obtain ⟨_, _, hitems, _, _, hr⟩ := stepTiming_items _ _ _ h
    refine ⟨hr, [st2.item.Region], by rw [hitems]; simp, ?_⟩
    intro r hmem
    rcases stepTiming_region _ _ _ h with hn | ⟨x, reg, hm, hreg⟩
    · rw [hn] at hmem
      simp at hmem
    · rw [hreg] at hmem
      simp only [List.mem_singleton, Option.some.injEq] at hmem
      exact ⟨x, by rw [hmem]; exact hm⟩
  rw [if_neg h5] at h
  by_cases h6 : HasPrefix line webvttTimestampMap = true
  · rw [if_pos h6] at h
    split at h
    · cases h
    · split at h
      · cases h
      · cases h
        exact ⟨rfl, [], by simp [ReaderState.Items], by simp⟩
  rw [if_neg h6] at h
  exact ⟨stepText_regions _ _ _ h, [], by simp [stepText_refs _ _ _ h], by simp⟩

/-- The scan keeps every region under a key equal to its identifier, and every
region reference of a cue under a key of the map. -/
theorem scan_refs (lines : List GoString) (st st2 : ReaderState)
    (h : scan st lines = .ok st2)
    (hk : ∀ k r, (k, r) ∈ st.Regions → r.ID = k)
    (hr : ∀ r, some r ∈ st.Items.map Item.Region → ∃ r2, mapGet st.Regions r.ID = some r2) :
    (∀ k r, (k, r) ∈ st2.Regions → r.ID = k) ∧
      ∀ r, some r ∈ st2.Items.map Item.Region → ∃ r2, mapGet st2.Regions r.ID = some r2 := by
  induction lines generalizing st with
  | nil => cases h; exact ⟨hk, hr⟩
  | cons text rest ih =>
    simp only [scan] at h
    cases hs : step st text with
    | error e => rw [hs] at h; cases h
    | ok st1 =>
      rw [hs] at h
      unfold step at hs
      have hI : ({ st with lineNum := st.lineNum + 1 } : ReaderState).Items = st.Items := rfl
      rcases stepLine_refs _ _ _ hs with ⟨_, hitems, reg, _, hregs⟩ | ⟨_, hregs, added, hitems, hadd⟩
      · rw [hI] at hitems
        simp only at hregs
        refine ih st1 h ?_ ?_
        · intro k r hmem
          rw [hregs] at hmem
          rcases mem_mapSet _ _ _ _ _ hmem with e | e
          · cases e
            rfl
          · exact hk k r e
        · intro r hmem
          rw [hitems] at hmem
          obtain ⟨r2, hr2⟩ := hr r hmem
          rw [hregs, mapGet_mapSet]
          by_cases e : reg.ID = r.ID
          · exact ⟨reg, by rw [if_pos e]⟩
          · exact ⟨r2, by rw [if_neg e]; exact hr2⟩
      · rw [hI] at hitems
        simp only at hregs hadd
        refine ih st1 h ?_ ?_
        · rw [hregs]
          exact hk
        · intro r hmem
          rw [hitems] at hmem
          rw [hregs]
          rcases List.mem_append.mp hmem with e | e
          · exact hr r e
          · obtain ⟨x, hx⟩ := hadd r e
            have := hk x r (mapGet_mem _ _ _ hx)
            exact ⟨r, by rw [this]; exact hx⟩

/-- When no identifier is declared twice and none of the declared ones is in the
map yet, the scan keeps every region reference of a cue equal to the entry of
the map under its identifier. -/
theorem scan_refs_same (lines : List GoString) (st st2 : ReaderState)
    (h : scan st lines = .ok st2)
    (hn : (declaredRegions lines).Nodup)
    (hfresh : ∀ x ∈ declaredRegions lines, mapGet st.Regions x = none)
    (hk : ∀ k r, (k, r) ∈ st.Regions → r.ID = k)
    (hr : ∀ r, some r ∈ st.Items.map Item.Region → mapGet st.Regions r.ID = some r) :
    ∀ r, some r ∈ st2.Items.map Item.Region → mapGet st2.Regions r.ID = some r := by
  induction lines generalizing st with
  | nil => cases h; exact hr
  | cons text rest ih =>
    simp only [scan] at h
    cases hs : step st text with
    | error e => rw [hs] at h; cases h
    | ok st1 =>
      rw [hs] at h
      unfold step at hs
      have hI : ({ st with lineNum := st.lineNum + 1 } : ReaderState).Items = st.Items := rfl
      rcases stepLine_refs _ _ _ hs with ⟨hreg, hitems, reg, hid, hregs⟩ | ⟨hreg, hregs, added, hitems, hadd⟩
      · rw [hI] at hitems
        simp only at hregs
        have hd : declaredRegions (text :: rest) = reg.ID :: declaredRegions rest := by
          simp only [declaredRegions, List.filterMap_cons, hreg, if_true, hid]
        rw [hd] at hn hfresh
        have hnew : mapGet st.Regions reg.ID = none := hfresh _ (List.mem_cons_self _ _)
        refine ih st1 h (List.nodup_cons.mp hn).2 ?_ ?_ ?_
        · intro x hx
          rw [hregs, mapGet_mapSet]
          have : ¬ reg.ID = x := fun e => (List.nodup_cons.mp hn).1 (e ▸ hx)
          rw [if_neg this]
          exact hfresh x (List.mem_cons_of_mem _ hx)
        · intro k r hmem
          rw [hregs] at hmem
          rcases mem_mapSet _ _ _ _ _ hmem with e | e
          · cases e
            rfl
          · exact hk k r e
        · intro r hmem
          rw [hitems] at hmem
          have hr2 := hr r hmem
          rw [hregs, mapGet_mapSet]
          have : ¬ reg.ID = r.ID := by
            intro e
            rw [← e, hnew] at hr2
            cases hr2
          rw [if_neg this]
          exact hr2
      · rw [hI] at hitems
        simp only at hregs hadd
        have hd : declaredRegions (text :: rest) = declaredRegions rest := by
          simp only [declaredRegions, List.filterMap_cons, hreg]
          rfl
        rw [hd] at hn hfresh
        refine ih st1 h hn ?_ ?_ ?_
        · rw [hregs]
          exact hfresh
        · rw [hregs]
          exact hk
        · intro r hmem
          rw [hitems] at hmem
          rw [hregs]
          rcases List.mem_append.mp hmem with e | e
          · exact hr r e
          · obtain ⟨x, hx⟩ := hadd r e
            have := hk x r (mapGet_mem _ _ _ hx)
            rw [this]
            exact hx

theorem finish_refs (st : ReaderState) :
    (finish st).Regions = st.Regions ∧
      (finish st).Items.map Item.Region = st.Items.map Item.Region := by
  unfold finish
  split
  · refine ⟨rfl, ?_⟩
    simp only [Subtitles.Add, ReaderState.document, List.map_map]
    rfl
  · exact ⟨rfl, rfl⟩

/-- C16, amended: for every input accepted by `ReadFromWebVTT`, in the returned
document (1) every region is registered under a key equal to its own
identifier, (2) the identifier of every cue's Region reference is a key of the
region mapping, and (3) when no region identifier is declared twice in the lines
after the header, the mapping holds that same region under the referenced
identifier. -/
theorem ReadFromWebVTT_region_refs (i : GoString) (doc : Subtitles)
    (h : ReadFromWebVTT i = .ok doc) :
    (∀ k r, (k, r) ∈ doc.Regions → r.ID = k) ∧
    (∀ it ∈ doc.Items, ∀ r, it.Region = some r → ∃ r2, mapGet doc.Regions r.ID = some r2) ∧
    ((declaredRegions (skipHeader (scanLines i))).Nodup →
      ∀ it ∈ doc.Items, ∀ r, it.Region = some r → mapGet doc.Regions r.ID = some r) := by
  unfold ReadFromWebVTT readLines at h
  cases hs : scan { lineNum := (scanLines i).length - (skipHeader (scanLines i)).length }
      (skipHeader (scanLines i)) with
  | error e => rw [hs] at h; cases h
  | ok st =>
    rw [hs] at h
    cases h
    obtain ⟨hregs, hitems⟩ := finish_refs st
    have h0 := scan_refs _ _ _ hs (by intro k r hm; cases hm) (by intro r hm; cases hm)
    refine ⟨?_, ?_, ?_⟩
    · rw [hregs]
      exact h0.1
    · intro it hit r hr
      rw [hregs]
      refine h0.2 r ?_
      rw [← hitems]
      exact List.mem_map.mpr ⟨it, hit, hr⟩
    · intro hn it hit r hr
      rw [hregs]
      refine scan_refs_same _ _ _ hs hn (fun _ _ => rfl) (by intro k r hm; cases hm)
        (by intro r hm; cases hm) r ?_
      rw [← hitems]
      exact List.mem_map.mpr ⟨it, hit, hr⟩

/-- C16 on an input with one region and one cue that refers to it: the input is
accepted, no identifier is declared twice, and the three parts hold of the
document. -/
theorem ReadFromWebVTT_region_refs_witness :
    ReadFromWebVTT exampleRegionRef = .ok (documentOf exampleRegionRef) ∧
      (declaredRegions (skipHeader (scanLines exampleRegionRef))).Nodup ∧
      ((documentOf exampleRegionRef).Items.map Item.Region).length = 1 ∧
      ((∀ k r, (k, r) ∈ (documentOf exampleRegionRef).Regions → r.ID = k) ∧
        (∀ it ∈ (documentOf exampleRegionRef).Items, ∀ r, it.Region = some r →
          ∃ r2, mapGet (documentOf exampleRegionRef).Regions r.ID = some r2) ∧
        ((declaredRegions (skipHeader (scanLines exampleRegionRef))).Nodup →
          ∀ it ∈ (documentOf exampleRegionRef).Items, ∀ r, it.Region = some r →
            mapGet (documentOf exampleRegionRef).Regions r.ID = some r)) :=
  ⟨by decide, by decide, by decide,
    ReadFromWebVTT_region_refs exampleRegionRef (documentOf exampleRegionRef) (by decide)⟩

/-- C16 as stated fails on an input that declares the region `r` again after a
cue referred to it: the input is accepted, the cue keeps the region of the first
declaration (3 lines), the mapping holds the region of the second one (5 lines)
under `r`. -/
theorem ReadFromWebVTT_region_redeclared :
    ReadFromWebVTT exampleRedeclared = .ok (documentOf exampleRedeclared) ∧
      (documentOf exampleRedeclared).Items.map
          (fun it => it.Region.map fun r => (r.ID, r.InlineStyle.map fun sa => sa.WebVTTLines)) =
        [some (str "r", some 3)] ∧
      (mapGet (documentOf exampleRedeclared).Regions (str "r")).map
          (fun r => (r.ID, r.InlineStyle.map fun sa => sa.WebVTTLines)) =
        some (str "r", some 5) ∧
      ∃ it ∈ (documentOf exampleRedeclared).Items, ∃ r, it.Region = some r ∧
        mapGet (documentOf exampleRedeclared).Regions r.ID ≠ some r :=
  ⟨by decide, by decide, by decide,
    ((documentOf exampleRedeclared).Items)[0]?.getD ({} : Item), by decide,
    (((documentOf exampleRedeclared).Items)[0]?.getD ({} : Item)).Region.getD ({} : Region),
    by decide, by decide⟩

end WebVTT

namespace WebVTT

/-! ### Plain bytes -/

theorem isPlainByte_range (c : Nat) (h : isPlainByte c = true) :
    33 ≤ c ∧ c ≤ 126 ∧ c ≠ 46 ∧ c ≠ 47 ∧ c ≠ 60 ∧ c ≠ 61 ∧ c ≠ 62 := by
  simp only [isPlainByte, Bool.and_eq_true, decide_eq_true_eq, bne_iff_ne, ne_eq] at h
  omega

theorem isLetter_range (c : Nat) (h : isLetter c = true) :
    (97 ≤ c ∧ c ≤ 122) ∨ (65 ≤ c ∧ c ≤ 90) := by
  simp only [isLetter, Bool.or_eq_true, Bool.and_eq_true, decide_eq_true_eq] at h
  exact h

theorem isPlainByte_of_isLetter (c : Nat) (h : isLetter c = true) : isPlainByte c = true := by
  have := isLetter_range c h
  simp only [isPlainByte, Bool.and_eq_true, decide_eq_true_eq, bne_iff_ne, ne_eq]
  omega

theorem isTagSpace_of_range (c : Nat) (h : 33 ≤ c) : isTagSpace c = false := by
  simp only [isTagSpace, Bool.or_eq_false_iff, beq_eq_false_iff_ne, ne_eq]
  omega

theorem reSpace_of_range (c : Nat) (h : 33 ≤ c) : reSpace c = false := by
  simp only [reSpace, Bool.or_eq_false_iff, beq_eq_false_iff_ne, ne_eq]
  omega

/-! ### The tokenizer on a tag made of plain bytes -/

theorem readTagName_close (w rest : GoString) (h : ∀ c ∈ w, 33 ≤ c ∧ c ≠ 47 ∧ c ≠ 62) :
    readTagName (w ++ 62 :: rest) = some (62 :: rest) := by
  induction w with
  | nil => simp [readTagName, isTagSpace]
  | cons c t ih =>
    obtain ⟨h1, h2, h3⟩ := h c (List.mem_cons_self _ _)
    simp only [List.cons_append, readTagName, isTagSpace_of_range c h1]
    simp only [Bool.false_eq_true, if_false, Bool.or_eq_true, beq_iff_eq, h2, h3, or_self]
    exact ih fun x hx => h x (List.mem_cons_of_mem _ hx)

theorem readTagName_space (w rest : GoString) (h : ∀ c ∈ w, 33 ≤ c ∧ c ≠ 47 ∧ c ≠ 62) :
    readTagName (w ++ 32 :: rest) = some rest := by
  induction w with
  | nil => simp [readTagName, isTagSpace]
  | cons c t ih =>
    obtain ⟨h1, h2, h3⟩ := h c (List.mem_cons_self _ _)
    simp only [List.cons_append, readTagName, isTagSpace_of_range c h1]
    simp only [Bool.false_eq_true, if_false, Bool.or_eq_true, beq_iff_eq, h2, h3, or_self]
    exact ih fun x hx => h x (List.mem_cons_of_mem _ hx)

theorem readTagAttrKey_close (a rest : GoString)
    (h : ∀ c ∈ a, 33 ≤ c ∧ c ≠ 47 ∧ c ≠ 61 ∧ c ≠ 62) :
    readTagAttrKey (a ++ 62 :: rest) = some (62 :: rest) := by
  induction a with
  | nil => simp [readTagAttrKey, isTagSpace]
  | cons c t ih =>
    obtain ⟨h1, h2, h3, h4⟩ := h c (List.mem_cons_self _ _)
    simp only [List.cons_append, readTagAttrKey, isTagSpace_of_range c h1]
    simp only [Bool.false_or, beq_iff_eq, h2, if_false, Bool.or_eq_true, h3, h4, or_self]
    exact ih fun x hx => h x (List.mem_cons_of_mem _ hx)

theorem readTagAttrs_close (n : Nat) (rest : GoString) :
    readTagAttrs (n + 1) (62 :: rest) = some rest := by
  simp [readTagAttrs]

/-- The tokenizer reads a tag without annotation up to its closing `>`. -/
theorem readTag_close (w rest : GoString) (h : ∀ c ∈ w, 33 ≤ c ∧ c ≠ 47 ∧ c ≠ 62) :
    readTag (w ++ 62 :: rest) = some rest := by
  unfold readTag
  rw [readTagName_close w rest h]
  simp only [skipWhiteSpace, isTagSpace]
  simp [readTagAttrs]

theorem dropWhile_head (p : Nat → Bool) (l : GoString) (c : Nat) (t : GoString)
    (h : l.dropWhile p = c :: t) : p c = false := by
  induction l with
  | nil => simp at h
  | cons d l2 ih =>
    rw [List.dropWhile_cons] at h
    split at h
    · exact ih h
    · rename_i hd
      rw [(List.cons.inj h).1] at hd
      simpa using hd

theorem dropWhile_length_le (p : Nat → Bool) (l : GoString) :
    (l.dropWhile p).length ≤ l.length := by
  induction l with
  | nil => simp
  | cons d l2 ih =>
    rw [List.dropWhile_cons]
    split
    · simp only [List.length_cons]
      omega
    · exact Nat.le_refl _

theorem dropWhile_mem (p : Nat → Bool) (l : GoString) : ∀ x ∈ l.dropWhile p, x ∈ l := by
  induction l with
  | nil => intro x hx; simp at hx
  | cons d l2 ih =>
    intro x hx
    rw [List.dropWhile_cons] at hx
    split at hx
    · exact List.mem_cons_of_mem _ (ih x hx)
    · exact hx

theorem skipWhiteSpace_close (a rest : GoString) :
    skipWhiteSpace (a ++ 62 :: rest) = some (a.dropWhile isTagSpace ++ 62 :: rest) := by
  induction a with
  | nil => simp [skipWhiteSpace, isTagSpace]
  | cons c t ih =>
    rw [List.cons_append, skipWhiteSpace, List.dropWhile_cons]
    by_cases hc : isTagSpace c = true
    · rw [if_pos hc, if_pos hc, ih]
    · rw [if_neg hc, if_neg hc]
      rfl

theorem readTagAttrKey_word (a rest : GoString) (h : ∀ x ∈ a, x ≠ 47 ∧ x ≠ 62) :
    ∃ a2, readTagAttrKey (a ++ 62 :: rest) = some (a2 ++ 62 :: rest) ∧
      a2.length ≤ a.length ∧ (∀ x ∈ a2, x ∈ a) ∧
      ∀ c t, a = c :: t → isTagSpace c = false → c ≠ 61 → a2.length ≤ t.length := by
  induction a with
  | nil =>
    exact ⟨[], by simp [readTagAttrKey, isTagSpace], Nat.le_refl _, fun x hx => hx,
      fun c t e => by cases e⟩
  | cons c t ih =>
    obtain ⟨h1, h2⟩ := h c (List.mem_cons_self _ _)
    rw [List.cons_append, readTagAttrKey]
    by_cases hc : isTagSpace c = true
    · refine ⟨t, by simp [hc], by simp, fun x hx => List.mem_cons_of_mem _ hx, ?_⟩
      intro c2 t2 e hs
      rw [(List.cons.inj e).1] at hc
      rw [hc] at hs
      cases hs
    · by_cases h61 : c = 61
      · refine ⟨c :: t, by rw [h61]; simp [isTagSpace], Nat.le_refl _, fun x hx => hx, ?_⟩
        intro c2 t2 e _ hne
        exact absurd ((List.cons.inj e).1 ▸ h61) hne
      · obtain ⟨a2, e, hl, hm, _⟩ := ih fun x hx => h x (List.mem_cons_of_mem _ hx)
        refine ⟨a2, ?_, by simp only [List.length_cons]; omega,
          fun x hx => List.mem_cons_of_mem _ (hm x hx), ?_⟩
        · simp only [hc, Bool.false_or, beq_iff_eq, h1, if_false, Bool.or_eq_true, h61, h2,
            or_self]
          exact e
        · intro c2 t2 e2 _ _
          rw [← (List.cons.inj e2).2]
          exact hl

theorem readUnquoted_word (a rest : GoString) (h : ∀ x ∈ a, x ≠ 62) :
    ∃ a2, readUnquoted (a ++ 62 :: rest) = some (a2 ++ 62 :: rest) ∧
      a2.length ≤ a.length ∧ ∀ x ∈ a2, x ∈ a := by
  induction a with
  | nil => exact ⟨[], by simp [readUnquoted, isTagSpace], Nat.le_refl _, fun x hx => hx⟩
  | cons c t ih =>
    have h2 := h c (List.mem_cons_self _ _)
    rw [List.cons_append, readUnquoted]
    by_cases hc : isTagSpace c = true
    · exact ⟨t, by simp [hc], by simp, fun x hx => List.mem_cons_of_mem _ hx⟩
    · obtain ⟨a2, e, hl, hm⟩ := ih fun x hx => h x (List.mem_cons_of_mem _ hx)
      refine ⟨a2, ?_, by simp only [List.length_cons]; omega,
        fun x hx => List.mem_cons_of_mem _ (hm x hx)⟩
      simp only [hc, Bool.false_eq_true, if_false, beq_iff_eq, h2]
      exact e

theorem readTagAttrVal_word (a rest : GoString) (h : ∀ x ∈ a, x ≠ 62)
    (hq : 61 ∈ a → ∀ x ∈ a, x ≠ 34 ∧ x ≠ 39) :
    ∃ a3, readTagAttrVal (a ++ 62 :: rest) = some (a3 ++ 62 :: rest) ∧
      a3.length ≤ a.length ∧ (∀ x ∈ a3, x ∈ a) ∧
      ∀ t, a = 61 :: t → a3.length ≤ t.length := by
  unfold readTagAttrVal
  rw [skipWhiteSpace_close]
  have hl1 := dropWhile_length_le isTagSpace a
  have hm1 := dropWhile_mem isTagSpace a
  cases hd : a.dropWhile isTagSpace with
  | nil =>
    exact ⟨[], by simp, by simp, (fun x hx => by cases hx), fun t _ => Nat.zero_le _⟩
  | cons x l =>
    rw [hd] at hl1 hm1
    by_cases hx : x = 61
    · subst hx
      have hl2 := dropWhile_length_le isTagSpace l
      have hm2 := dropWhile_mem isTagSpace l
      have hquote := hq (hm1 61 (List.mem_cons_self _ _))
      have hstart : ∀ t, a = 61 :: t → l = t := by
        intro t e
        rw [e, List.dropWhile_cons, if_neg (by decide)] at hd
        exact (List.cons.inj hd).2.symm
      simp only [List.cons_append, ne_eq, not_true_eq_false, if_false, skipWhiteSpace_close]
      cases hd2 : l.dropWhile isTagSpace with
      | nil =>
        exact ⟨[], by simp, by simp, (fun x hx => by cases hx), fun t _ => Nat.zero_le _⟩
      | cons q t2 =>
        rw [hd2] at hl2 hm2
        have hqm : q ∈ a := hm1 q (List.mem_cons_of_mem _ (hm2 q (List.mem_cons_self _ _)))
        have hq1 := h q hqm
        have hq2 := hquote q hqm
        obtain ⟨a2, e, hl, hm⟩ := readUnquoted_word t2 rest fun y hy =>
          h y (hm1 y (List.mem_cons_of_mem _ (hm2 y (List.mem_cons_of_mem _ hy))))
        simp only [List.length_cons] at hl1 hl2
        refine ⟨a2, ?_, by omega, ?_, ?_⟩
        · simp only [List.cons_append, beq_iff_eq, hq1, if_false, Bool.or_eq_true, hq2.2,
            hq2.1, or_self]
          exact e
        · intro y hy
          exact hm1 y (List.mem_cons_of_mem _ (hm2 y (List.mem_cons_of_mem _ (hm y hy))))
        · intro t e2
          rw [← hstart t e2]
          omega
    · refine ⟨x :: l, by simp [hx], hl1, hm1, ?_⟩
      intro t e
      rw [e, List.dropWhile_cons, if_neg (by decide)] at hd
      exact absurd (List.cons.inj hd).1.symm hx

/-- The attribute loop of the tokenizer on an annotation without `/` and `>`,
and without quotation marks when it has a `=`: it ends at the closing `>`. -/
theorem readTagAttrs_words (n : Nat) :
    ∀ (a rest : GoString) (fuel : Nat), a.length ≤ n → a.length < fuel →
      (∀ x ∈ a, x ≠ 47 ∧ x ≠ 62) →
      (61 ∈ a → ∀ x ∈ a, x ≠ 34 ∧ x ≠ 39) →
      (∀ c t, a = c :: t → isTagSpace c = false) →
      readTagAttrs fuel (a ++ 62 :: rest) = some rest := by
  induction n with
  | zero =>
    intro a rest fuel hn hf _ _ _
    have : a = [] := List.length_eq_zero.mp (Nat.le_zero.mp hn)
    subst this
    obtain ⟨k, rfl⟩ : ∃ k, fuel = k + 1 := ⟨fuel - 1, by simp at hf; omega⟩
    exact readTagAttrs_close k rest
  | succ m ih =>
    intro a rest fuel hn hf hb hq hs
    obtain ⟨k, rfl⟩ : ∃ k, fuel = k + 1 := ⟨fuel - 1, by omega⟩
    cases a with
    | nil => exact readTagAttrs_close k rest
    | cons c t =>
      obtain ⟨h1, h3⟩ := hb c (List.mem_cons_self _ _)
      have hcs := hs c t rfl
      obtain ⟨a2, e, hl, hm, hstrict⟩ := readTagAttrKey_word (c :: t) rest hb
      obtain ⟨a3, e3, hl3, hm3, hstrict3⟩ := readTagAttrVal_word a2 rest
        (fun x hx => (hb x (hm x hx)).2)
        (fun h61 x hx => hq (hm 61 h61) x (hm x hx))
      have hshort : a3.length ≤ t.length := by
        by_cases h61 : c = 61
        · have ha2 : a2 = 61 :: t := by
            rw [h61, List.cons_append, readTagAttrKey] at e
            simp only [isTagSpace, beq_iff_eq, Nat.reduceEqDiff, Bool.or_self, Bool.false_eq_true,
              if_false, Bool.true_or, if_true, Option.some.injEq] at e
            have e2 : (61 :: t) ++ 62 :: rest = a2 ++ 62 :: rest := by simpa using e
            exact (List.append_cancel_right e2).symm
          exact hstrict3 t ha2
        · have := hstrict c t rfl hcs h61
          omega
      have hskip : skipWhiteSpace (a3 ++ 62 :: rest) =
          some (a3.dropWhile isTagSpace ++ 62 :: rest) := skipWhiteSpace_close a3 rest
      have hlen := dropWhile_length_le isTagSpace a3
      simp only [List.length_cons] at hn hf
      rw [List.cons_append, readTagAttrs]
      simp only [beq_iff_eq, h3, if_false]
      rw [← List.cons_append, e]
      simp only [e3, hskip]
      apply ih
      · omega
      · omega
      · intro x hx
        exact hb x (hm x (hm3 x (dropWhile_mem _ a3 x hx)))
      · intro h61 x hx
        exact hq (hm 61 (hm3 61 (dropWhile_mem _ a3 61 h61))) x
          (hm x (hm3 x (dropWhile_mem _ a3 x hx)))
      · intro c2 t2 e2
        exact dropWhile_head _ a3 c2 t2 e2

/-- The tokenizer reads a tag with an annotation of one or more words up to its
closing `>`. -/
theorem readTag_label (w a rest : GoString) (h : ∀ c ∈ w, 33 ≤ c ∧ c ≠ 47 ∧ c ≠ 62)
    (hne : a ≠ []) (ha : ∀ c ∈ a, c ≠ 47 ∧ c ≠ 62)
    (hq : 61 ∈ a → ∀ c ∈ a, c ≠ 34 ∧ c ≠ 39)
    (hs : ∀ c t, a = c :: t → isTagSpace c = false) :
    readTag (w ++ 32 :: (a ++ 62 :: rest)) = some rest := by
  unfold readTag
  rw [readTagName_space w _ h]
  cases a with
  | nil => exact absurd rfl hne
  | cons c t =>
    have hc := hs c t rfl
    have hsk : skipWhiteSpace (c :: t ++ 62 :: rest) = some (c :: t ++ 62 :: rest) := by
      rw [List.cons_append, skipWhiteSpace, if_neg (by simp [hc])]
    simp only [hsk]
    exact readTagAttrs_words (c :: t).length (c :: t) rest _ (Nat.le_refl _)
      (by simp only [List.length_append, List.length_cons]; omega) ha hq hs

end WebVTT

namespace WebVTT

/-! ### One token of the tokenizer -/

theorem take_append_sub (x rest : GoString) :
    (x ++ rest).take ((x ++ rest).length - rest.length) = x := by
  rw [List.length_append, Nat.add_sub_cancel]
  exact List.take_left _ _

theorem textLength_of_markupStart (s : GoString) (h : markupStart s = true) :
    textLength s = 0 := by
  cases s with
  | nil => rfl
  | cons c t => simp [textLength, h]

/-- Plain text is read as text up to its end, whatever follows it. -/
theorem textLength_append (p r : GoString) (h : plainText p = true) :
    textLength (p ++ r) = p.length + textLength r := by
  induction p with
  | nil => simp
  | cons c t ih =>
    cases t with
    | nil =>
      simp only [plainText, bne_iff_ne, ne_eq] at h
      have hm : markupStart (c :: r) = false := by
        cases r with
        | nil => simp [markupStart]
        | cons d r2 =>
          unfold markupStart
          split
          · rename_i heq
            exact absurd (List.cons.inj heq).1 h
          · rfl
      show textLength (c :: r) = 1 + textLength r
      simp only [textLength, hm, Bool.false_eq_true, if_false]
      omega
    | cons d t2 =>
      simp only [plainText, Bool.and_eq_true, Bool.not_eq_true'] at h
      have hm : markupStart (c :: d :: (t2 ++ r)) = false := by
        have := h.1
        unfold markupStart at this ⊢
        split
        · rename_i c2 rest2 heq
          simp only [List.cons.injEq] at heq
          obtain ⟨e1, e2, _⟩ := heq
          subst e1 e2
          simpa using this
        · rfl
      have := ih h.2
      simp only [List.cons_append] at this ⊢
      simp only [textLength, hm, Bool.false_eq_true, if_false, List.length_cons]
      simp only [textLength] at this
      rw [this]
      simp only [List.length_cons]
      omega

/-- A non-empty plain text followed by a tag or by the end of the input is one
text token. -/
theorem tokenizerNext_text (p r : GoString) (hne : p ≠ []) (h : plainText p = true)
    (hr : r = [] ∨ markupStart r = true) :
    tokenizerNext [] (p ++ r) = some (⟨.TextToken, p⟩, r, []) := by
  have hlen : textLength (p ++ r) = p.length := by
    rw [textLength_append p r h]
    rcases hr with e | e
    · rw [e]; rfl
    · rw [textLength_of_markupStart r e]; rfl
  have hpos : 0 < p.length := List.length_pos.mpr hne
  have hs : ¬ (p ++ r = []) := by
    intro e
    exact hne (List.append_eq_nil.mp e).1
  unfold tokenizerNext
  simp only [hs, if_false, if_true, Nat.lt_irrefl, hlen, hpos, List.take_left, List.drop_left]

/-- A start tag that the tokenizer reads up to its `>`: one start tag token. -/
theorem nextMarkup_start (c : Nat) (body rest : GoString) (hc : isLetter c = true)
    (hread : readTag (body ++ 62 :: rest) = some rest)
    (hlast : ∀ x ∈ c :: body, x ≠ 47)
    (hraw : ToLower (tokenTagName (c :: (body ++ 62 :: rest))) ∉ rawTextTags) :
    nextMarkup (60 :: c :: (body ++ 62 :: rest)) =
      some (⟨.StartTagToken, 60 :: c :: (body ++ [62])⟩, rest, []) := by
  have hraw2 : (60 :: c :: (body ++ 62 :: rest)).take
      ((60 :: c :: (body ++ 62 :: rest)).length - rest.length) = 60 :: c :: (body ++ [62]) := by
    have := take_append_sub (60 :: c :: (body ++ [62])) rest
    simpa using this
  have hhead : ((60 :: c :: (body ++ [62])).reverse.drop 1).head? ≠ some 47 := by
    have e : (60 :: c :: (body ++ [62])).reverse = 62 :: ((c :: body).reverse ++ [60]) := by
      simp
    rw [e]
    simp only [List.drop_succ_cons, List.drop_zero]
    cases hrev : (c :: body).reverse with
    | nil => simp at hrev
    | cons y ys =>
      have hy : y ∈ c :: body := by
        have : y ∈ (c :: body).reverse := by rw [hrev]; exact List.mem_cons_self _ _
        exact List.mem_reverse.mp this
      simp only [List.cons_append, List.head?_cons, ne_eq, Option.some.injEq]
      exact hlast y hy
  unfold nextMarkup
  simp only [hc, if_true, hread, hraw2, hhead, if_false, hraw]

/-- An end tag that the tokenizer reads up to its `>`: one end tag token. -/
theorem nextMarkup_end (c : Nat) (body rest : GoString) (hc : isLetter c = true)
    (hread : readTag (body ++ 62 :: rest) = some rest) :
    nextMarkup (60 :: 47 :: c :: (body ++ 62 :: rest)) =
      some (⟨.EndTagToken, 60 :: 47 :: c :: (body ++ [62])⟩, rest, []) := by
  have hraw2 : (60 :: 47 :: c :: (body ++ 62 :: rest)).take
      ((60 :: 47 :: c :: (body ++ 62 :: rest)).length - rest.length) =
        60 :: 47 :: c :: (body ++ [62]) := by
    have := take_append_sub (60 :: 47 :: c :: (body ++ [62])) rest
    simpa using this
  have h62 : ¬ c = 62 := by
    have := isLetter_range c hc
    omega
  have hl47 : isLetter 47 = false := by decide
  unfold nextMarkup
  simp only [hl47, Bool.false_eq_true, if_false, beq_self_eq_true, if_true, beq_iff_eq, h62, hc,
    hread, hraw2]

theorem tokenizerNext_markup (s : GoString) (h : markupStart s = true) :
    tokenizerNext [] s = nextMarkup s := by
  have hs : ¬ (s = []) := by
    intro e
    rw [e] at h
    cases h
  unfold tokenizerNext
  simp only [hs, if_false, if_true, Nat.lt_irrefl, textLength_of_markupStart s h]

theorem markupStart_start (c : Nat) (t : GoString) (hc : isLetter c = true) :
    markupStart (60 :: c :: t) = true := by
  simp [markupStart, hc]

theorem markupStart_end (t : GoString) : markupStart (60 :: 47 :: t) = true := by
  simp [markupStart]

theorem tokenize_nil (n : Nat) : tokenize n [] [] = [] := by
  cases n with
  | zero => rfl
  | succ k => simp [tokenize, tokenizerNext]

end WebVTT

namespace WebVTT

/-! ### The tag pattern on a tag made of plain bytes -/

theorem firstDown_first {α : Type} (f : Nat → Option α) (n : Nat) (r : α)
    (h : f n = some r) : firstDown f n = some r := by
  cases n with
  | zero => exact h
  | succ k => simp [firstDown, h]

theorem firstDown_skip {α : Type} (f : Nat → Option α) (n : Nat) (h : f (n + 1) = none) :
    firstDown f (n + 1) = firstDown f n := by
  simp [firstDown, h]

theorem spanLen_all (p : Nat → Bool) (w : GoString) (hw : ∀ x ∈ w, p x = true) :
    spanLen p w = w.length := by
  induction w with
  | nil => rfl
  | cons c t ih =>
    simp only [spanLen, hw c (List.mem_cons_self _ _), if_true, List.length_cons]
    rw [ih fun x hx => hw x (List.mem_cons_of_mem _ hx)]

theorem spanLen_stop (p : Nat → Bool) (w : GoString) (c : Nat) (rest : GoString)
    (hw : ∀ x ∈ w, p x = true) (hc : p c = false) : spanLen p (w ++ c :: rest) = w.length := by
  induction w with
  | nil => simp [spanLen, hc]
  | cons d t ih =>
    rw [List.cons_append, spanLen, if_pos (hw d (List.mem_cons_self _ _)),
      ih fun x hx => hw x (List.mem_cons_of_mem _ hx)]
    rfl

theorem labelPart_nil : labelPart [] = [] := rfl

theorem labelPart_cons (c : Nat) (t : GoString) : labelPart (c :: t) = 32 :: c :: t := rfl

theorem tagTail_close : tagTail [62] = true := by decide

theorem tagTail_nil : tagTail [] = false := by decide

/-- Group 4 and the end of the pattern on an annotation followed by `>`. -/
theorem tagLabel_close (a : GoString) (ha : ∀ x ∈ a, x ≠ 47) :
    tagLabel (a ++ [62]) = some a := by
  unfold tagLabel
  have hspan : spanLen (fun c => c != 47) (a ++ [62]) = a.length + 1 := by
    rw [spanLen_all]
    · simp
    · intro x hx
      rcases List.mem_append.mp hx with h | h
      · simpa using ha x h
      · simp only [List.mem_singleton] at h
        rw [h]
        rfl
  have hd1 : (a ++ [62]).drop (a.length + 1) = [] := by
    apply List.drop_of_length_le
    simp
  have hd0 : (a ++ [62]).drop a.length = [62] := List.drop_left _ _
  have ht0 : (a ++ [62]).take a.length = a := List.take_left _ _
  rw [hspan, firstDown_skip]
  · apply firstDown_first
    simp only [hd0, tagTail_close, if_true, ht0]
  · simp only [hd1, tagTail_nil, Bool.false_eq_true, if_false]

theorem tagSpaceLabel_close (a : GoString) (ha : ∀ x ∈ a, x ≠ 47)
    (hs : ∀ c t, a = c :: t → reSpace c = false) :
    tagSpaceLabel (labelPart a ++ [62]) = some a := by
  cases a with
  | nil => decide
  | cons c t =>
    rw [labelPart_cons]
    unfold tagSpaceLabel
    have hspan : spanLen reSpace (32 :: c :: t ++ [62]) = 1 := by
      have := spanLen_stop reSpace [32] c (t ++ [62]) (by simp [reSpace]) (hs c t rfl)
      simpa using this
    rw [hspan]
    apply firstDown_first
    exact tagLabel_close (c :: t) ha

theorem tagClasses_label (k : Nat) (a last : GoString) (ha : ∀ x ∈ a, x ≠ 47)
    (hs : ∀ c t, a = c :: t → reSpace c = false) :
    tagClasses (k + 1) (labelPart a ++ [62]) last = some (last, a) := by
  have hl := tagSpaceLabel_close a ha hs
  cases a with
  | nil =>
    rw [labelPart_nil] at hl ⊢
    rw [tagClasses]
    · simp only [List.nil_append] at hl ⊢
      simp only [hl, Option.map_some']
    · intro t h
      simp at h
  | cons c t =>
    rw [labelPart_cons] at hl ⊢
    rw [tagClasses]
    · simp only [List.cons_append] at hl ⊢
      simp only [hl, Option.map_some']
    · intro t2 h
      simp at h

theorem tagClasses_nil (k : Nat) (last : GoString) : tagClasses (k + 1) [] last = none := by
  rw [tagClasses]
  · rfl
  · intro t h
    cases h

/-- Groups 3 and 4 on the classes of a tag followed by its annotation and `>`. -/
theorem tagClasses_class (k : Nat) (j a : GoString) (hj : ∀ x ∈ j, 33 ≤ x ∧ x ≠ 47)
    (ha : ∀ x ∈ a, x ≠ 47) (hs : ∀ c t, a = c :: t → reSpace c = false) :
    tagClasses (k + 2) (46 :: (j ++ (labelPart a ++ [62]))) [] = some (46 :: j, a) := by
  have hq : ∀ x ∈ j, (fun c => !reSpace c && c != 47) x = true := by
    intro x hx
    obtain ⟨h1, h2⟩ := hj x hx
    simp [reSpace_of_range x h1, h2]
  have hl := tagClasses_label k a (46 :: j) ha hs
  rw [tagClasses]
  cases a with
  | nil =>
    rw [labelPart_nil] at hl ⊢
    simp only [List.nil_append] at hl ⊢
    have hspan : spanLen (fun c => !reSpace c && c != 47) (j ++ [62]) = j.length + 1 := by
      rw [spanLen_all]
      · simp
      · intro x hx
        rcases List.mem_append.mp hx with h | h
        · exact hq x h
        · simp only [List.mem_singleton] at h
          rw [h]
          rfl
    have hd1 : (j ++ [62]).drop (j.length + 1) = [] := by
      apply List.drop_of_length_le
      simp
    have hd0 : (j ++ [62]).drop j.length = [62] := List.drop_left _ _
    have ht0 : (j ++ [62]).take j.length = j := List.take_left _ _
    simp only [hspan]
    rw [firstDown_skip]
    · rw [firstDown_first _ _ (46 :: j, [])]
      simp only [hd0, ht0]
      exact hl
    · simp only [hd1]
      exact tagClasses_nil k _
  | cons c t =>
    rw [labelPart_cons] at hl ⊢
    have hspan : spanLen (fun c => !reSpace c && c != 47) (j ++ 32 :: (c :: t ++ [62])) =
        j.length := spanLen_stop _ j 32 _ hq (by simp [reSpace])
    have hd0 : (j ++ 32 :: (c :: t ++ [62])).drop j.length = 32 :: (c :: t ++ [62]) :=
      List.drop_left _ _
    have ht0 : (j ++ 32 :: (c :: t ++ [62])).take j.length = j := List.take_left _ _
    simp only [List.cons_append] at hl hspan hd0 ht0 ⊢
    simp only [hspan]
    rw [firstDown_first _ _ (46 :: j, c :: t)]
    simp only [hd0, ht0]
    exact hl

end WebVTT

namespace WebVTT

theorem tagNameClasses_plain (name a : GoString) (hne : name ≠ [])
    (hn : ∀ x ∈ name, 33 ≤ x ∧ x ≠ 46) (ha : ∀ x ∈ a, x ≠ 47)
    (hs : ∀ c t, a = c :: t → reSpace c = false) :
    tagNameClasses (name ++ (labelPart a ++ [62])) = some (name, [], a) := by
  have hp : ∀ x ∈ name, (fun c => c != 46 && !reSpace c) x = true := by
    intro x hx
    obtain ⟨h1, h2⟩ := hn x hx
    simp [reSpace_of_range x h1, h2]
  have hlen : name.length ≠ 0 := fun e => hne (List.length_eq_zero.mp e)
  have hd0 : (name ++ (labelPart a ++ [62])).drop name.length = labelPart a ++ [62] :=
    List.drop_left _ _
  have ht0 : (name ++ (labelPart a ++ [62])).take name.length = name := List.take_left _ _
  have hf : (if name.length = 0 then none
      else (tagClasses ((name ++ (labelPart a ++ [62])).length + 1)
        ((name ++ (labelPart a ++ [62])).drop name.length) []).map
          fun r => ((name ++ (labelPart a ++ [62])).take name.length, r.1, r.2)) =
      some (name, [], a) := by
    rw [if_neg hlen, hd0, ht0, tagClasses_label _ a [] ha hs]
    rfl
  unfold tagNameClasses
  cases a with
  | nil =>
    rw [labelPart_nil] at hf hd0 ht0 ⊢
    simp only [List.nil_append] at hf hd0 ht0 ⊢
    have hspan : spanLen (fun c => c != 46 && !reSpace c) (name ++ [62]) = name.length + 1 := by
      rw [spanLen_all]
      · simp
      · intro x hx
        rcases List.mem_append.mp hx with h | h
        · exact hp x h
        · simp only [List.mem_singleton] at h
          rw [h]
          rfl
    have hd1 : (name ++ [62]).drop (name.length + 1) = [] := by
      apply List.drop_of_length_le
      simp
    rw [hspan, firstDown_skip]
    · exact firstDown_first _ _ _ hf
    · simp only [hd1, tagClasses_nil, Option.map_none', Nat.add_one_ne_zero, if_false]
  | cons c t =>
    rw [labelPart_cons] at hf hd0 ht0 ⊢
    have hspan : spanLen (fun c => c != 46 && !reSpace c) (name ++ (32 :: c :: t ++ [62])) =
        name.length := by
      have := spanLen_stop (fun c => c != 46 && !reSpace c) name 32 (c :: t ++ [62]) hp
        (by simp [reSpace])
      simpa using this
    rw [hspan]
    exact firstDown_first _ _ _ hf

theorem tagNameClasses_class (name j a : GoString) (hne : name ≠ [])
    (hn : ∀ x ∈ name, 33 ≤ x ∧ x ≠ 46) (hj : ∀ x ∈ j, 33 ≤ x ∧ x ≠ 47)
    (ha : ∀ x ∈ a, x ≠ 47) (hs : ∀ c t, a = c :: t → reSpace c = false) :
    tagNameClasses (name ++ (46 :: (j ++ (labelPart a ++ [62])))) = some (name, 46 :: j, a) := by
  have hp : ∀ x ∈ name, (fun c => c != 46 && !reSpace c) x = true := by
    intro x hx
    obtain ⟨h1, h2⟩ := hn x hx
    simp [reSpace_of_range x h1, h2]
  have hlen : name.length ≠ 0 := fun e => hne (List.length_eq_zero.mp e)
  have hd0 : (name ++ (46 :: (j ++ (labelPart a ++ [62])))).drop name.length =
      46 :: (j ++ (labelPart a ++ [62])) := List.drop_left _ _
  have ht0 : (name ++ (46 :: (j ++ (labelPart a ++ [62])))).take name.length = name :=
    List.take_left _ _
  have hspan : spanLen (fun c => c != 46 && !reSpace c)
      (name ++ (46 :: (j ++ (labelPart a ++ [62])))) = name.length :=
    spanLen_stop _ name 46 _ hp (by simp)
  obtain ⟨k, hk⟩ : ∃ k, (name ++ (46 :: (j ++ (labelPart a ++ [62])))).length + 1 = k + 2 :=
    ⟨(name ++ (46 :: (j ++ (labelPart a ++ [62])))).length - 1, by
      simp only [List.length_append, List.length_cons]
      omega⟩
  unfold tagNameClasses
  rw [hspan]
  apply firstDown_first
  rw [if_neg hlen, hd0, ht0, hk, tagClasses_class k j a hj ha hs]
  rfl

theorem tagAfterOpen_letter (c : Nat) (t : GoString) (hc : 33 ≤ c ∧ c ≠ 47) :
    tagAfterOpen (c :: t) = tagNameClasses (c :: t) := by
  have h1 : spanLen (fun x => x == 47) (c :: t) = 0 := by
    simp [spanLen, hc.2]
  have h2 : spanLen reSpace (c :: t) = 0 := by
    simp [spanLen, reSpace_of_range c hc.1]
  unfold tagAfterOpen
  rw [h1]
  simp only [firstDown, List.drop_zero, h2, Nat.add_zero]

theorem webVTTRegexpTag_open (s : GoString) (r : GoString × GoString × GoString)
    (h : tagAfterOpen s = some r) : webVTTRegexpTag (60 :: s) = some r := by
  simp [webVTTRegexpTag, h]

end WebVTT

namespace WebVTT

/-! ### Trimming, joining and splitting plain bytes -/

theorem isSpaceRune_head (c : Nat) (rest : GoString) (h : 33 ≤ c ∧ c ≤ 126) :
    isSpaceRune (c :: rest) = false := by
  rcases rest with _ | ⟨d, _ | ⟨e, _ | ⟨f, g⟩⟩⟩ <;> simp [isSpaceRune] <;> omega

theorem isSpaceRune_last (init : GoString) (c : Nat) (h : 33 ≤ c ∧ c ≤ 126) :
    isSpaceRune (init ++ [c]) = false := by
  rcases init with _ | ⟨d, _ | ⟨e, _ | ⟨f, g⟩⟩⟩ <;> simp [isSpaceRune] <;> omega

theorem spaceWidth_nil : spaceWidth [] = 0 := by decide

theorem spaceWidthRev_nil : spaceWidthRev [] = 0 := by decide

theorem spaceWidth_head (c : Nat) (t : GoString) (h : 33 ≤ c ∧ c ≤ 126) :
    spaceWidth (c :: t) = 0 := by
  unfold spaceWidth
  simp only [List.take_succ_cons, isSpaceRune_head c _ h, Bool.false_eq_true, if_false]

theorem spaceWidthRev_head (c : Nat) (t : GoString) (h : 33 ≤ c ∧ c ≤ 126) :
    spaceWidthRev (c :: t) = 0 := by
  unfold spaceWidthRev
  simp only [List.take_succ_cons, List.reverse_cons, isSpaceRune_last _ c h, Bool.false_eq_true,
    if_false]

theorem trimLeftN_of_width (n : Nat) (s : GoString) (h : spaceWidth s = 0) :
    trimLeftN n s = s := by
  cases n with
  | zero => rfl
  | succ k => simp [trimLeftN, h]

theorem trimRightN_of_width (n : Nat) (r : GoString) (h : spaceWidthRev r = 0) :
    trimRightN n r = r := by
  cases n with
  | zero => rfl
  | succ k => simp [trimRightN, h]

/-- `TrimSpace` leaves a string alone whose first and last bytes are printable
ASCII bytes other than the space. -/
theorem TrimSpace_of_ends (s : GoString)
    (hh : ∀ c t, s = c :: t → 33 ≤ c ∧ c ≤ 126)
    (hl : ∀ d r, s.reverse = d :: r → 33 ≤ d ∧ d ≤ 126) : TrimSpace s = s := by
  have h1 : spaceWidth s = 0 := by
    cases s with
    | nil => exact spaceWidth_nil
    | cons c t => exact spaceWidth_head c t (hh c t rfl)
  have h2 : spaceWidthRev s.reverse = 0 := by
    cases hr : s.reverse with
    | nil => exact spaceWidthRev_nil
    | cons d r => exact spaceWidthRev_head d r (hl d r hr)
  unfold TrimSpace
  simp only [trimLeftN_of_width _ s h1, trimRightN_of_width _ _ h2, List.reverse_reverse]

theorem TrimSpace_plain (a : GoString) (h : ∀ x ∈ a, 33 ≤ x ∧ x ≤ 126) : TrimSpace a = a := by
  apply TrimSpace_of_ends
  · intro c t e
    exact h c (by rw [e]; exact List.mem_cons_self _ _)
  · intro d r e
    refine h d (List.mem_reverse.mp ?_)
    rw [e]
    exact List.mem_cons_self _ _

theorem trimLeftN_length_le (n : Nat) (s : GoString) : (trimLeftN n s).length ≤ s.length := by
  induction n generalizing s with
  | zero => exact Nat.le_refl _
  | succ k ih =>
    rw [trimLeftN]
    split
    · exact Nat.le_refl _
    · exact Nat.le_trans (ih _) (by simp)

theorem trimRightN_length_le (n : Nat) (r : GoString) :
    (trimRightN n r).length ≤ r.length := by
  induction n generalizing r with
  | zero => exact Nat.le_refl _
  | succ k ih =>
    rw [trimRightN]
    split
    · exact Nat.le_refl _
    · exact Nat.le_trans (ih _) (by simp)

/-- A string that `TrimSpace` leaves alone does not begin with white space. -/
theorem TrimSpace_head (c : Nat) (t : GoString) (h : TrimSpace (c :: t) = c :: t) :
    isTagSpace c = false := by
  cases hc : isTagSpace c with
  | false => rfl
  | true =>
    have hw : spaceWidth (c :: t) = 1 := by
      have : isSpaceRune [c] = true := by
        simp only [isTagSpace, Bool.or_eq_true, beq_iff_eq] at hc
        simp only [isSpaceRune, Bool.or_eq_true, beq_iff_eq]
        omega
      simp [spaceWidth, this]
    have h1 : (trimLeftN (c :: t).length (c :: t)).length ≤ t.length := by
      rw [List.length_cons, trimLeftN, if_neg (by rw [hw]; decide), hw]
      exact trimLeftN_length_le _ _
    have h2 := congrArg List.length h
    unfold TrimSpace at h2
    simp only [List.length_reverse, List.length_cons] at h2
    have h3 := trimRightN_length_le (trimLeftN (c :: t).length (c :: t)).length
      (trimLeftN (c :: t).length (c :: t)).reverse
    rw [List.length_reverse] at h3
    simp only [List.length_cons] at h1 h3
    omega

theorem reSpace_eq (c : Nat) : reSpace c = isTagSpace c := by
  unfold reSpace isTagSpace
  cases (c == 9) <;> cases (c == 10) <;> cases (c == 12) <;> cases (c == 13) <;>
    cases (c == 32) <;> rfl

theorem Join_cons_cons (a b : GoString) (rest : List GoString) (sep : GoString) :
    Join (a :: b :: rest) sep = a ++ sep ++ Join (b :: rest) sep := rfl

theorem Join_bytes (p : Nat → Prop) (l : List GoString) (sep : GoString)
    (hl : ∀ cls ∈ l, ∀ x ∈ cls, p x) (hs : ∀ x ∈ sep, p x) : ∀ x ∈ Join l sep, p x := by
  induction l with
  | nil => intro x hx; cases hx
  | cons a rest ih =>
    cases rest with
    | nil =>
      intro x hx
      exact hl a (List.mem_cons_self _ _) x hx
    | cons b rest2 =>
      intro x hx
      rw [Join_cons_cons] at hx
      rcases List.mem_append.mp hx with h | h
      · rcases List.mem_append.mp h with h2 | h2
        · exact hl a (List.mem_cons_self _ _) x h2
        · exact hs x h2
      · exact ih (fun cls hc => hl cls (List.mem_cons_of_mem _ hc)) x h

theorem Join_head (c : Nat) (t : GoString) (rest : List GoString) (sep : GoString) :
    ∃ t2, Join ((c :: t) :: rest) sep = c :: t2 := by
  cases rest with
  | nil => exact ⟨t, rfl⟩
  | cons b rest2 => exact ⟨t ++ sep ++ Join (b :: rest2) sep, by rw [Join_cons_cons]; rfl⟩

theorem Join_reverse_head (l : List GoString) (sep : GoString) (hne : l ≠ [])
    (hl : ∀ cls ∈ l, cls ≠ [] ∧ ∀ x ∈ cls, x ≠ 46) :
    ∃ d r, (Join l sep).reverse = d :: r ∧ d ≠ 46 := by
  induction l with
  | nil => exact absurd rfl hne
  | cons a rest ih =>
    cases rest with
    | nil =>
      obtain ⟨ha, hx⟩ := hl a (List.mem_cons_self _ _)
      cases hr : a.reverse with
      | nil => exact absurd (List.reverse_eq_nil_iff.mp hr) ha
      | cons d r =>
        refine ⟨d, r, hr, hx d (List.mem_reverse.mp ?_)⟩
        rw [hr]
        exact List.mem_cons_self _ _
    | cons b rest2 =>
      obtain ⟨d, r, hr, hd⟩ := ih (by simp) fun cls hc => hl cls (List.mem_cons_of_mem _ hc)
      refine ⟨d, r ++ (sep.reverse ++ a.reverse), ?_, hd⟩
      rw [Join_cons_cons]
      simp only [List.reverse_append, hr, List.cons_append, List.append_assoc]

theorem Split_Join (l : List GoString) (hne : l ≠ []) (hl : ∀ cls ∈ l, 46 ∉ cls) :
    Split (Join l [46]) [46] = l := by
  induction l with
  | nil => exact absurd rfl hne
  | cons a rest ih =>
    cases rest with
    | nil => exact Split_single_of_not_mem 46 a (hl a (List.mem_cons_self _ _))
    | cons b rest2 =>
      rw [Join_cons_cons]
      have := Split_single_append 46 a (Join (b :: rest2) [46]) (hl a (List.mem_cons_self _ _))
      simp only [List.append_assoc, List.singleton_append]
      rw [this, ih (by simp) fun cls hc => hl cls (List.mem_cons_of_mem _ hc)]

theorem trimDots_class (j : GoString) (c : Nat) (t : GoString) (d : Nat) (r : GoString)
    (hj : j = c :: t) (hc : c ≠ 46) (hr : j.reverse = d :: r) (hd : d ≠ 46) :
    trimDots (46 :: j) = j := by
  unfold trimDots
  have hcb : (c == 46) = false := beq_eq_false_iff_ne.mpr hc
  have hdb : (d == 46) = false := beq_eq_false_iff_ne.mpr hd
  have h1 : (46 :: j).dropWhile (fun x => x == 46) = j := by
    rw [hj]
    simp only [List.dropWhile, beq_self_eq_true, hcb]
  rw [h1, hr]
  have h2 : (d :: r).dropWhile (fun x => x == 46) = d :: r := by
    simp only [List.dropWhile, hdb]
  rw [h2, ← hr, List.reverse_reverse]

/-- The classes the reader takes from the class part of a rendered tag are the
classes of the tag. -/
theorem classes_of_classPart (l : List GoString)
    (hl : ∀ cls ∈ l, cls ≠ [] ∧ ∀ x ∈ cls, x ≠ 46) :
    (if classPart l ≠ [] then Split (trimDots (classPart l)) (str ".") else []) = l := by
  have hdot : str "." = [46] := by decide
  cases l with
  | nil => rfl
  | cons a rest =>
    have hcp : classPart (a :: rest) = 46 :: Join (a :: rest) [46] := by
      simp [classPart, hdot]
    rw [hcp, if_pos (by simp), hdot]
    obtain ⟨ha, hax⟩ := hl a (List.mem_cons_self _ _)
    cases a with
    | nil => exact absurd rfl ha
    | cons c t =>
      obtain ⟨t2, ht2⟩ := Join_head c t rest [46]
      obtain ⟨d, r, hr, hd⟩ := Join_reverse_head ((c :: t) :: rest) [46] (by simp) hl
      rw [trimDots_class _ c t2 d r ht2 (hax c (List.mem_cons_self _ _)) hr hd]
      exact Split_Join _ (by simp) fun cls hc hm => (hl cls hc).2 46 hm rfl

end WebVTT

namespace WebVTT

/-! ### A well-formed tag, rendered and read again -/

theorem isTagByte_range (c : Nat) (h : isTagByte c = true) :
    33 ≤ c ∧ c ≠ 46 ∧ c ≠ 47 ∧ c ≠ 62 := by
  simp only [isTagByte, Bool.and_eq_true, decide_eq_true_eq, bne_iff_ne, ne_eq] at h
  omega

theorem wellFormedTag_spec (t : WebVTTTag) (h : wellFormedTag t = true) :
    ∃ c nm, t.Name = c :: nm ∧ isLetter c = true ∧ (∀ x ∈ nm, isTagByte x = true) ∧
      t.Name ≠ str "v" ∧ (t.Classes = [] → ToLower t.Name ∉ rawTextTags) ∧
      (∀ cls ∈ t.Classes, cls ≠ [] ∧ ∀ x ∈ cls, isTagByte x = true) ∧
      (∀ x ∈ WebVTTTag.Annotation t, x ≠ 47 ∧ x ≠ 62) ∧
      (61 ∈ WebVTTTag.Annotation t → ∀ x ∈ WebVTTTag.Annotation t, x ≠ 34 ∧ x ≠ 39) ∧
      TrimSpace (WebVTTTag.Annotation t) = WebVTTTag.Annotation t := by
  unfold wellFormedTag at h
  simp only [Bool.and_eq_true, bne_iff_ne, ne_eq, Bool.not_eq_true', List.all_eq_true,
    beq_iff_eq, Bool.or_eq_true] at h
  obtain ⟨⟨⟨⟨⟨⟨h1, h2⟩, h3⟩, h4⟩, h5⟩, h7⟩, h6⟩ := h
  cases hn : t.Name with
  | nil => rw [hn] at h1; cases h1
  | cons c nm =>
    rw [hn] at h1
    simp only [Bool.and_eq_true, List.all_eq_true] at h1
    refine ⟨c, nm, rfl, h1.1, h1.2, ?_, ?_, ?_, h5, ?_, h6⟩
    · rw [← hn]; exact h2
    · rw [← hn]
      intro hcl hm
      have : rawTextTags.contains (ToLower t.Name) = true := by simpa using hm
      rcases h3 with h3 | h3
      · exact h3 hcl
      · rw [this] at h3
        cases h3
    · intro cls hc
      have := h4 cls hc
      simp only [Bool.and_eq_true, bne_iff_ne, ne_eq, List.all_eq_true] at this
      exact this
    · intro h61 x hx
      rcases h7 with h7 | h7
      · have : (WebVTTTag.Annotation t).contains 61 = true := by simpa using h61
        rw [this] at h7
        cases h7
      · exact h7 x hx

theorem annotation_head (a : GoString) (h : TrimSpace a = a) :
    ∀ c t, a = c :: t → isTagSpace c = false := by
  intro c t e
  rw [e] at h
  exact TrimSpace_head c t h

/-- A plain tag is a well-formed tag. -/
theorem wellFormedTag_of_plainTag (t : WebVTTTag) (h : plainTag t = true) :
    wellFormedTag t = true := by
  unfold plainTag at h
  simp only [Bool.and_eq_true, bne_iff_ne, ne_eq, Bool.not_eq_true', List.all_eq_true] at h
  obtain ⟨⟨⟨⟨h1, h2⟩, h3⟩, h4⟩, h5⟩ := h
  have hb : ∀ x, isPlainByte x = true → isTagByte x = true := by
    intro x hx
    have := isPlainByte_range x hx
    simp only [isTagByte, Bool.and_eq_true, decide_eq_true_eq, bne_iff_ne, ne_eq]
    omega
  unfold wellFormedTag
  simp only [Bool.and_eq_true, bne_iff_ne, ne_eq, Bool.not_eq_true', List.all_eq_true,
    beq_iff_eq, Bool.or_eq_true]
  refine ⟨⟨⟨⟨⟨⟨?_, h2⟩, Or.inr h3⟩, ?_⟩, ?_⟩, ?_⟩, ?_⟩
  · cases hn : t.Name with
    | nil => rw [hn] at h1; cases h1
    | cons c nm =>
      rw [hn] at h1
      simp only [Bool.and_eq_true, List.all_eq_true] at h1 ⊢
      exact ⟨h1.1, fun x hx => hb x (h1.2 x hx)⟩
  · intro cls hc
    have := h4 cls hc
    simp only [Bool.and_eq_true, bne_iff_ne, ne_eq, List.all_eq_true] at this ⊢
    exact ⟨this.1, fun x hx => hb x (this.2 x hx)⟩
  · intro x hx
    have := isPlainByte_range x (h5 x hx)
    omega
  · left
    cases hcon : (WebVTTTag.Annotation t).contains 61 with
    | false => rfl
    | true =>
      have h61 : 61 ∈ WebVTTTag.Annotation t := by simpa using hcon
      have := isPlainByte_range 61 (h5 61 h61)
      omega
  · exact TrimSpace_plain _ fun x hx => by
      have := isPlainByte_range x (h5 x hx)
      omega

theorem startTag_eq (t : WebVTTTag) (c : Nat) (nm : GoString) (hn : t.Name = c :: nm) :
    t.startTag =
      60 :: c :: (nm ++ (classPart t.Classes ++ (labelPart (WebVTTTag.Annotation t) ++ [62]))) := by
  have h1 : str "<" = [60] := by decide
  have h2 : str ">" = [62] := by decide
  unfold WebVTTTag.startTag classPart labelPart
  rw [hn, if_neg (by simp), h1, h2]
  simp only [List.singleton_append, List.cons_append, List.append_assoc, List.nil_append]

theorem endTag_eq (t : WebVTTTag) (c : Nat) (nm : GoString) (hn : t.Name = c :: nm) :
    t.endTag = 60 :: 47 :: c :: (nm ++ [62]) := by
  have h1 : str "</" = [60, 47] := by decide
  have h2 : str ">" = [62] := by decide
  unfold WebVTTTag.endTag
  rw [hn, if_neg (by simp), h1, h2]
  rfl

theorem classPart_nil : classPart [] = [] := rfl

theorem classPart_cons (a : GoString) (rest : List GoString) :
    classPart (a :: rest) = 46 :: Join (a :: rest) [46] := by
  have hdot : str "." = [46] := by decide
  simp [classPart, hdot]

theorem classPart_bytes (l : List GoString)
    (hl : ∀ cls ∈ l, cls ≠ [] ∧ ∀ x ∈ cls, isTagByte x = true) :
    ∀ x ∈ classPart l, 33 ≤ x ∧ x ≠ 47 ∧ x ≠ 62 := by
  cases l with
  | nil => intro x hx; cases hx
  | cons a rest =>
    rw [classPart_cons]
    intro x hx
    rcases List.mem_cons.mp hx with h | h
    · rw [h]; omega
    · refine Join_bytes (fun x => 33 ≤ x ∧ x ≠ 47 ∧ x ≠ 62) _ _ ?_ ?_ x h
      · intro cls hc y hy
        have := isTagByte_range y ((hl cls hc).2 y hy)
        omega
      · intro y hy
        simp only [List.mem_singleton] at hy
        rw [hy]; omega

theorem tokenTagName_stop (w : GoString) (c : Nat) (rest : GoString)
    (hw : ∀ x ∈ w, 33 ≤ x ∧ x ≠ 47 ∧ x ≠ 62)
    (hc : (isTagSpace c || c == 47 || c == 62) = true) :
    tokenTagName (w ++ c :: rest) = w := by
  induction w with
  | nil => simp [tokenTagName, hc]
  | cons d t ih =>
    obtain ⟨h1, h2, h3⟩ := hw d (List.mem_cons_self _ _)
    rw [List.cons_append, tokenTagName]
    simp only [isTagSpace_of_range d h1, Bool.false_or, Bool.or_eq_true, beq_iff_eq, h2, h3,
      or_self, if_false]
    rw [ih fun x hx => hw x (List.mem_cons_of_mem _ hx)]

theorem rawTextTags_no_dot : ∀ y ∈ rawTextTags, 46 ∉ y := by decide

theorem ToLower_dot (x : GoString) (h : 46 ∈ x) : 46 ∈ ToLower x := by
  unfold ToLower
  exact List.mem_map.mpr ⟨46, h, by decide⟩

/-- The rendered start tag of a well-formed tag, whatever follows it, is one start tag
token and leaves the tokenizer outside raw text. -/
theorem tokenizerNext_startTag (t : WebVTTTag) (h : wellFormedTag t = true) (rest : GoString) :
    tokenizerNext [] (t.startTag ++ rest) = some (⟨.StartTagToken, t.startTag⟩, rest, []) := by
  obtain ⟨c, nm, hn, hc, hnm, _, hraw, hcls, hann, hquote, htrim⟩ := wellFormedTag_spec t h
  have hw : ∀ x ∈ nm ++ classPart t.Classes, 33 ≤ x ∧ x ≠ 47 ∧ x ≠ 62 := by
    intro x hx
    rcases List.mem_append.mp hx with e | e
    · have := isTagByte_range x (hnm x e)
      omega
    · exact classPart_bytes _ hcls x e
  have hc47 : c ≠ 47 := by
    have := isLetter_range c hc
    omega
  have hname : ∀ (stop : Nat) (tail : GoString),
      (isTagSpace stop || stop == 47 || stop == 62) = true →
      ToLower (tokenTagName (c :: ((nm ++ classPart t.Classes) ++ stop :: tail))) ∉
        rawTextTags := by
    intro stop tail hstop
    have hcw : ∀ x ∈ c :: (nm ++ classPart t.Classes), 33 ≤ x ∧ x ≠ 47 ∧ x ≠ 62 := by
      intro x hx
      rcases List.mem_cons.mp hx with e | e
      · have := isLetter_range c hc
        rw [e]; omega
      · exact hw x e
    have := tokenTagName_stop (c :: (nm ++ classPart t.Classes)) stop tail hcw hstop
    rw [List.cons_append] at this
    rw [this]
    cases hl : t.Classes with
    | nil =>
      rw [classPart_nil, List.append_nil, ← hn]
      exact hraw hl
    | cons a l2 =>
      intro hm
      refine rawTextTags_no_dot _ hm (ToLower_dot _ ?_)
      rw [classPart_cons]
      simp
  rw [startTag_eq t c nm hn]
  cases ha : WebVTTTag.Annotation t with
  | nil =>
    rw [labelPart_nil]
    have e : 60 :: c :: (nm ++ (classPart t.Classes ++ ([] ++ [62]))) ++ rest =
        60 :: c :: ((nm ++ classPart t.Classes) ++ 62 :: rest) := by simp
    have e2 : 60 :: c :: (nm ++ (classPart t.Classes ++ ([] ++ [62]))) =
        60 :: c :: ((nm ++ classPart t.Classes) ++ [62]) := by simp
    rw [e, e2, tokenizerNext_markup _ (markupStart_start c _ hc)]
    refine nextMarkup_start c _ rest hc (readTag_close _ rest hw) ?_
      (hname 62 rest (by decide))
    intro x hx
    rcases List.mem_cons.mp hx with e3 | e3
    · rw [e3]; exact hc47
    · exact (hw x e3).2.1
  | cons a0 a1 =>
    rw [labelPart_cons]
    have hab : ∀ x ∈ a0 :: a1, x ≠ 47 ∧ x ≠ 62 := by
      intro x hx
      exact hann x (by rw [ha]; exact hx)
    have hqu : 61 ∈ a0 :: a1 → ∀ x ∈ a0 :: a1, x ≠ 34 ∧ x ≠ 39 := by
      rw [ha] at hquote
      exact hquote
    have hsp : ∀ c t, a0 :: a1 = c :: t → isTagSpace c = false := by
      rw [ha] at htrim
      exact annotation_head _ htrim
    have e : 60 :: c :: (nm ++ (classPart t.Classes ++ (32 :: a0 :: a1 ++ [62]))) ++ rest =
        60 :: c :: (((nm ++ classPart t.Classes) ++ 32 :: (a0 :: a1)) ++ 62 :: rest) := by simp
    have e2 : 60 :: c :: (nm ++ (classPart t.Classes ++ (32 :: a0 :: a1 ++ [62]))) =
        60 :: c :: (((nm ++ classPart t.Classes) ++ 32 :: (a0 :: a1)) ++ [62]) := by simp
    rw [e, e2, tokenizerNext_markup _ (markupStart_start c _ hc)]
    refine nextMarkup_start c _ rest hc ?_ ?_ ?_
    · have := readTag_label (nm ++ classPart t.Classes) (a0 :: a1) rest hw (by simp) hab hqu
        hsp
      simpa using this
    · intro x hx
      rcases List.mem_cons.mp hx with e3 | e3
      · rw [e3]; exact hc47
      · rcases List.mem_append.mp e3 with e4 | e4
        · exact (hw x e4).2.1
        · rcases List.mem_cons.mp e4 with e5 | e5
          · rw [e5]; decide
          · exact (hab x e5).1
    · have := hname 32 (a0 :: a1 ++ 62 :: rest) (by decide)
      simpa using this

/-- The rendered end tag of a well-formed tag, whatever follows it, is one end tag
token. -/
theorem tokenizerNext_endTag (t : WebVTTTag) (h : wellFormedTag t = true) (rest : GoString) :
    tokenizerNext [] (t.endTag ++ rest) = some (⟨.EndTagToken, t.endTag⟩, rest, []) := by
  obtain ⟨c, nm, hn, hc, hnm, _, _, _, _, _, _⟩ := wellFormedTag_spec t h
  have hw : ∀ x ∈ nm, 33 ≤ x ∧ x ≠ 47 ∧ x ≠ 62 := by
    intro x hx
    have := isTagByte_range x (hnm x hx)
    omega
  rw [endTag_eq t c nm hn]
  have e : 60 :: 47 :: c :: (nm ++ [62]) ++ rest = 60 :: 47 :: c :: (nm ++ 62 :: rest) := by
    simp
  rw [e, tokenizerNext_markup _ (markupStart_end _)]
  exact nextMarkup_end c nm rest hc (readTag_close nm rest hw)

/-- The tag pattern finds in the rendered start tag of a well-formed tag its name, its
class part and its annotation. -/
theorem webVTTRegexpTag_startTag (t : WebVTTTag) (h : wellFormedTag t = true) :
    webVTTRegexpTag t.startTag =
      some (t.Name, classPart t.Classes, WebVTTTag.Annotation t) := by
  obtain ⟨c, nm, hn, hc, hnm, _, _, hcls, hann, _, htrim⟩ := wellFormedTag_spec t h
  have hcr := isLetter_range c hc
  have hname : ∀ x ∈ c :: nm, 33 ≤ x ∧ x ≠ 46 := by
    intro x hx
    rcases List.mem_cons.mp hx with e | e
    · rw [e]; omega
    · have := isTagByte_range x (hnm x e)
      omega
  have ha : ∀ x ∈ WebVTTTag.Annotation t, x ≠ 47 := fun x hx => (hann x hx).1
  have hs : ∀ c2 t2, WebVTTTag.Annotation t = c2 :: t2 → reSpace c2 = false := by
    intro c2 t2 e
    rw [reSpace_eq]
    exact annotation_head _ htrim c2 t2 e
  rw [startTag_eq t c nm hn]
  apply webVTTRegexpTag_open
  rw [tagAfterOpen_letter c _ ⟨by omega, by omega⟩, hn]
  cases hl : t.Classes with
  | nil =>
    rw [classPart_nil]
    have := tagNameClasses_plain (c :: nm) (WebVTTTag.Annotation t) (by simp) hname ha hs
    simpa using this
  | cons a l2 =>
    rw [classPart_cons]
    have hj : ∀ x ∈ Join (a :: l2) [46], 33 ≤ x ∧ x ≠ 47 := by
      refine Join_bytes (fun x => 33 ≤ x ∧ x ≠ 47) _ _ ?_ ?_
      · intro cls hc2 y hy
        have := isTagByte_range y ((hcls cls (by rw [hl]; exact hc2)).2 y hy)
        omega
      · intro y hy
        simp only [List.mem_singleton] at hy
        rw [hy]; omega
    have := tagNameClasses_class (c :: nm) (Join (a :: l2) [46]) (WebVTTTag.Annotation t)
      (by simp) hname hj ha hs
    simpa using this

/-- The token loop pushes the tag of a rendered well-formed start tag as it was. -/
theorem parseTextTokens_startTag (t : WebVTTTag) (h : wellFormedTag t = true) (rest : List Token)
    (stack : List WebVTTTag) (o : Line) :
    parseTextTokens (⟨.StartTagToken, t.startTag⟩ :: rest) stack o =
      parseTextTokens rest (stack ++ [t]) o := by
  obtain ⟨c, nm, hn, hc, hnm, hv, _, hcls, hann, _, htrim⟩ := wellFormedTag_spec t h
  have hclasses := classes_of_classPart t.Classes fun cls hc2 =>
    ⟨(hcls cls hc2).1, fun x hx => (isTagByte_range x ((hcls cls hc2).2 x hx)).2.1⟩
  rw [parseTextTokens]
  simp only [webVTTRegexpTag_startTag t h, hv, if_false, hclasses, htrim]

end WebVTT

namespace WebVTT

/-! ### The tokens of a rendered run -/

theorem tokenize_step (n : Nat) (s rest : GoString) (tok : Token)
    (h : tokenizerNext [] s = some (tok, rest, [])) :
    tokenize (n + 1) [] s = tok :: tokenize n [] rest := by
  simp only [tokenize, h]

theorem tokenize_starts (tags : List WebVTTTag) (hp : ∀ t ∈ tags, wellFormedTag t = true)
    (n : Nat) (r : GoString) :
    tokenize (n + tags.length) [] ((tags.map WebVTTTag.startTag).flatten ++ r) =
      tags.map (fun t => (⟨.StartTagToken, t.startTag⟩ : Token)) ++ tokenize n [] r := by
  induction tags with
  | nil => rfl
  | cons t ts ih =>
    simp only [List.map_cons, List.flatten_cons, List.length_cons, List.append_assoc,
      List.cons_append]
    rw [← Nat.add_assoc,
      tokenize_step _ _ _ _ (tokenizerNext_startTag t (hp t (List.mem_cons_self _ _)) _),
      ih fun x hx => hp x (List.mem_cons_of_mem _ hx)]

theorem tokenize_ends (tags : List WebVTTTag) (hp : ∀ t ∈ tags, wellFormedTag t = true)
    (n : Nat) (r : GoString) :
    tokenize (n + tags.length) [] ((tags.map WebVTTTag.endTag).flatten ++ r) =
      tags.map (fun t => (⟨.EndTagToken, t.endTag⟩ : Token)) ++ tokenize n [] r := by
  induction tags with
  | nil => rfl
  | cons t ts ih =>
    simp only [List.map_cons, List.flatten_cons, List.length_cons, List.append_assoc,
      List.cons_append]
    rw [← Nat.add_assoc,
      tokenize_step _ _ _ _ (tokenizerNext_endTag t (hp t (List.mem_cons_self _ _)) _),
      ih fun x hx => hp x (List.mem_cons_of_mem _ hx)]

theorem tokenize_text (n : Nat) (p r : GoString) (h : plainText p = true)
    (hr : r = [] ∨ markupStart r = true) :
    tokenize (n + 1) [] (p ++ r) =
      (if p = [] then [] else [(⟨.TextToken, p⟩ : Token)]) ++
        tokenize (if p = [] then n + 1 else n) [] r := by
  by_cases hp : p = []
  · simp only [hp, List.nil_append, if_true]
  · simp only [hp, if_false, List.singleton_append]
    exact tokenize_step _ _ _ _ (tokenizerNext_text p r hp h hr)

theorem markupStart_starts (t : WebVTTTag) (ts : List WebVTTTag) (h : wellFormedTag t = true)
    (r : GoString) :
    markupStart (((t :: ts).map WebVTTTag.startTag).flatten ++ r) = true := by
  obtain ⟨c, nm, hn, hc, _⟩ := wellFormedTag_spec t h
  simp only [List.map_cons, List.flatten_cons, startTag_eq t c nm hn, List.cons_append]
  exact markupStart_start c _ hc

theorem markupStart_ends (t : WebVTTTag) (ts : List WebVTTTag) (h : wellFormedTag t = true)
    (r : GoString) :
    markupStart (((t :: ts).map WebVTTTag.endTag).flatten ++ r) = true := by
  obtain ⟨c, nm, hn, hc, _⟩ := wellFormedTag_spec t h
  simp only [List.map_cons, List.flatten_cons, endTag_eq t c nm hn, List.cons_append]
  exact markupStart_end _

theorem startTag_length (t : WebVTTTag) (h : wellFormedTag t = true) : 2 ≤ t.startTag.length := by
  obtain ⟨c, nm, hn, _⟩ := wellFormedTag_spec t h
  rw [startTag_eq t c nm hn]
  simp

theorem endTag_length (t : WebVTTTag) (h : wellFormedTag t = true) : 2 ≤ t.endTag.length := by
  obtain ⟨c, nm, hn, _⟩ := wellFormedTag_spec t h
  rw [endTag_eq t c nm hn]
  simp

theorem flatten_length_ge (f : WebVTTTag → GoString) (l : List WebVTTTag)
    (h : ∀ t ∈ l, 2 ≤ (f t).length) : 2 * l.length ≤ ((l.map f).flatten).length := by
  induction l with
  | nil => simp
  | cons t ts ih =>
    have h1 := h t (List.mem_cons_self _ _)
    have h2 := ih fun x hx => h x (List.mem_cons_of_mem _ hx)
    simp only [List.map_cons, List.flatten_cons, List.length_append, List.length_cons]
    omega

/-! ### The token loop on the tokens of a rendered run -/

theorem parseTextTokens_starts (tags : List WebVTTTag) (hp : ∀ t ∈ tags, wellFormedTag t = true)
    (rest : List Token) (stack : List WebVTTTag) (o : Line) :
    parseTextTokens (tags.map (fun t => (⟨.StartTagToken, t.startTag⟩ : Token)) ++ rest) stack o =
      parseTextTokens rest (stack ++ tags) o := by
  induction tags generalizing stack with
  | nil => simp
  | cons t ts ih =>
    simp only [List.map_cons, List.cons_append]
    rw [parseTextTokens_startTag t (hp t (List.mem_cons_self _ _)),
      ih (fun x hx => hp x (List.mem_cons_of_mem _ hx))]
    simp

theorem parseTextTokens_ends (tags : List WebVTTTag) (stack : List WebVTTTag) (o : Line) :
    parseTextTokens (tags.map (fun t => (⟨.EndTagToken, t.endTag⟩ : Token))) stack o = o := by
  induction tags generalizing stack with
  | nil => rfl
  | cons t ts ih =>
    simp only [List.map_cons]
    rw [parseTextTokens]
    exact ih _

theorem parseTextTokens_text (p : GoString) (rest : List Token) (stack : List WebVTTTag)
    (o : Line) :
    parseTextTokens ((⟨.TextToken, p⟩ : Token) :: rest) stack o =
      parseTextTokens rest stack
        { o with
          Items := (o.Items ++ parseTextWebVTTTextToken
            (if stack ≠ [] then some (propagateWebVTTAttributes { WebVTTTags := stack }) else none)
            p) } := by
  rw [parseTextTokens]

theorem parseTextWebVTTTextToken_nil (sa : Option StyleAttributes) :
    parseTextWebVTTTextToken sa [] = [] := by
  have h : TrimSpace [] = [] := by decide
  simp [parseTextWebVTTTextToken, findInlineTimestamps, h]

/-- The line read from a rendered run with a non-empty stack of well-formed tags: the
items of the text before the tags, read with no style record, then the items of
the text inside the tags, read with the stack of the run. -/
theorem parseTextWebVTT_render (pre esc : GoString) (tags : List WebVTTTag)
    (hp : ∀ t ∈ tags, wellFormedTag t = true) (hne : tags ≠ [])
    (hpre : plainText pre = true) (hesc : plainText esc = true) :
    parseTextWebVTT
        (pre ++ ((tags.map WebVTTTag.startTag).flatten ++
          (esc ++ (tags.reverse.map WebVTTTag.endTag).flatten))) =
      { VoiceName := []
        Items := parseTextWebVTTTextToken none pre ++
          parseTextWebVTTTextToken (some (propagateWebVTTAttributes { WebVTTTags := tags })) esc } := by
  have hrev : ∀ t ∈ tags.reverse, wellFormedTag t = true := fun t ht => hp t (List.mem_reverse.mp ht)
  have hms : ∀ r, markupStart ((tags.map WebVTTTag.startTag).flatten ++ r) = true := by
    intro r
    cases tags with
    | nil => exact absurd rfl hne
    | cons t ts => exact markupStart_starts t ts (hp t (List.mem_cons_self _ _)) r
  have hme : (tags.reverse.map WebVTTTag.endTag).flatten = [] ∨
      markupStart (tags.reverse.map WebVTTTag.endTag).flatten = true := by
    right
    cases hr : tags.reverse with
    | nil => exact absurd (List.reverse_eq_nil_iff.mp hr) hne
    | cons t ts =>
      have := markupStart_ends t ts (hrev t (by rw [hr]; exact List.mem_cons_self _ _)) []
      simpa using this
  have hl1 := flatten_length_ge WebVTTTag.startTag tags fun t ht => startTag_length t (hp t ht)
  have hl2 := flatten_length_ge WebVTTTag.endTag tags.reverse
    fun t ht => endTag_length t (hrev t ht)
  rw [List.length_reverse] at hl2
  have hk : 1 ≤ tags.length := List.length_pos.mpr hne
  have htoks : ∀ n, tags.length + tags.length + 2 ≤ n →
      tokenize n [] (pre ++ ((tags.map WebVTTTag.startTag).flatten ++
          (esc ++ (tags.reverse.map WebVTTTag.endTag).flatten))) =
        (if pre = [] then [] else [(⟨.TextToken, pre⟩ : Token)]) ++
          (tags.map (fun t => (⟨.StartTagToken, t.startTag⟩ : Token)) ++
            ((if esc = [] then [] else [(⟨.TextToken, esc⟩ : Token)]) ++
              tags.reverse.map (fun t => (⟨.EndTagToken, t.endTag⟩ : Token)))) := by
    intro n hn
    obtain ⟨m, rfl⟩ : ∃ m, n = m + 1 := ⟨n - 1, by omega⟩
    rw [tokenize_text m pre _ hpre (Or.inr (hms _))]
    congr 1
    obtain ⟨m2, hm2⟩ : ∃ m2, (if pre = [] then m + 1 else m) = m2 + 1 + tags.length := by
      by_cases h : pre = []
      · exact ⟨m - tags.length, by rw [if_pos h]; omega⟩
      · exact ⟨m - 1 - tags.length, by rw [if_neg h]; omega⟩
    have hm2b : tags.length ≤ m2 := by
      by_cases h : pre = []
      · rw [if_pos h] at hm2; omega
      · rw [if_neg h] at hm2; omega
    rw [hm2, tokenize_starts tags hp, tokenize_text m2 esc _ hesc hme]
    congr 2
    obtain ⟨m3, hm3⟩ : ∃ m3, (if esc = [] then m2 + 1 else m2) = m3 + tags.reverse.length := by
      rw [List.length_reverse]
      by_cases h : esc = []
      · exact ⟨m2 + 1 - tags.length, by rw [if_pos h]; omega⟩
      · exact ⟨m2 - tags.length, by rw [if_neg h]; omega⟩
    have := tokenize_ends tags.reverse hrev m3 []
    rw [List.append_nil] at this
    rw [hm3, this, tokenize_nil, List.append_nil]
  unfold parseTextWebVTT
  rw [htoks]
  · have hstack : (if ([] : List WebVTTTag) ≠ [] then
        some (propagateWebVTTAttributes { WebVTTTags := [] }) else none) = none := by simp
    by_cases h1 : pre = []
    · by_cases h2 : esc = []
      · simp only [h1, h2, if_true, List.nil_append, parseTextWebVTTTextToken_nil]
        rw [parseTextTokens_starts tags hp, parseTextTokens_ends]
      · simp only [h1, h2, if_true, if_false, List.nil_append, parseTextWebVTTTextToken_nil,
          List.singleton_append]
        rw [parseTextTokens_starts tags hp, parseTextTokens_text, parseTextTokens_ends]
        simp [hne]
    · by_cases h2 : esc = []
      · simp only [h1, h2, if_true, if_false, List.nil_append, parseTextWebVTTTextToken_nil,
          List.singleton_append, List.append_nil]
        rw [parseTextTokens_text, parseTextTokens_starts tags hp, parseTextTokens_ends, hstack]
        rfl
      · simp only [h1, h2, if_false, List.singleton_append]
        rw [parseTextTokens_text, parseTextTokens_starts tags hp, parseTextTokens_text,
          parseTextTokens_ends, hstack]
        simp [hne]
  · simp only [List.length_append]
    omega

end WebVTT

namespace WebVTT

/-! ### Text without a tag -/

theorem plainText_of_no_lt (s : GoString) (h : 60 ∉ s) : plainText s = true := by
  induction s with
  | nil => rfl
  | cons c t ih =>
    have hc : ¬ c = 60 := fun e => h (by rw [e]; exact List.mem_cons_self _ _)
    have ht : 60 ∉ t := fun e => h (List.mem_cons_of_mem _ e)
    cases t with
    | nil => simp [plainText, hc]
    | cons d t2 =>
      have hm : markupStart [c, d] = false := by
        unfold markupStart
        split
        · rename_i heq
          exact absurd (List.cons.inj heq).1 hc
        · rfl
      simp only [plainText, hm, Bool.not_false, Bool.true_and]
      exact ih ht

theorem plainText_append (p q : GoString) (hp : plainText p = true) (hq : plainText q = true) :
    plainText (p ++ q) = true := by
  induction p with
  | nil => exact hq
  | cons c t ih =>
    cases t with
    | nil =>
      simp only [plainText, bne_iff_ne, ne_eq] at hp
      cases q with
      | nil => simp [plainText, hp]
      | cons d q2 =>
        have hm : markupStart [c, d] = false := by
          unfold markupStart
          split
          · rename_i heq
            exact absurd (List.cons.inj heq).1 hp
          · rfl
        show plainText (c :: d :: q2) = true
        simp only [plainText, hm, Bool.not_false, Bool.true_and]
        exact hq
    | cons d t2 =>
      simp only [plainText, Bool.and_eq_true] at hp
      show plainText (c :: d :: (t2 ++ q)) = true
      simp only [plainText, Bool.and_eq_true]
      exact ⟨hp.1, ih hp.2⟩

theorem webVTTEscaper_no_lt (b : Nat) : 60 ∉ webVTTEscaper b := by
  rw [webVTTEscaper_eq]
  split
  · decide
  · split
    · decide
    · split
      · decide
      · split
        · decide
        · rename_i h _ _
          simp only [List.mem_singleton]
          exact fun e => h e.symm

theorem escapeWebVTT_no_lt (s : GoString) : 60 ∉ escapeWebVTT s := by
  unfold escapeWebVTT
  intro h
  obtain ⟨l, hl, hx⟩ := List.mem_flatten.mp h
  obtain ⟨b, _, hb⟩ := List.mem_map.mp hl
  rw [← hb] at hx
  exact webVTTEscaper_no_lt b hx

/-- A line that is plain text is read as the items of one text token with no
style record. -/
theorem parseTextWebVTT_plain (p : GoString) (h : plainText p = true) :
    parseTextWebVTT p = { VoiceName := [], Items := parseTextWebVTTTextToken none p } := by
  by_cases hp : p = []
  · rw [hp, parseTextWebVTTTextToken_nil]
    decide
  · have hl : 1 ≤ p.length := List.length_pos.mpr hp
    obtain ⟨m, hm⟩ : ∃ m, p.length + 1 = m + 1 := ⟨p.length, rfl⟩
    have := tokenize_text m p [] h (Or.inl rfl)
    rw [List.append_nil, if_neg hp, if_neg hp, tokenize_nil] at this
    unfold parseTextWebVTT
    rw [hm, this, List.singleton_append, parseTextTokens_text]
    simp [parseTextTokens]

/-! ### The items of a text token -/

theorem textTokenSegments_style (sa : Option StyleAttributes) (line : GoString)
    (ms : List (Nat × Nat)) : ∀ x ∈ textTokenSegments sa line ms, x.InlineStyle = sa := by
  induction ms with
  | nil => intro x hx; cases hx
  | cons m rest ih =>
    intro x hx
    rw [textTokenSegments_cons] at hx
    split at hx
    · exact ih x hx
    · rcases List.mem_cons.mp hx with e | e
      · rw [e]
      · exact ih x e

theorem parseTextWebVTTTextToken_style (sa : Option StyleAttributes) (line : GoString) :
    ∀ x ∈ parseTextWebVTTTextToken sa line, x.InlineStyle = sa := by
  intro x hx
  unfold parseTextWebVTTTextToken at hx
  split at hx
  · simp only at hx
    split at hx
    · simp only [List.mem_singleton] at hx
      rw [hx]
    · cases hx
  · simp only at hx
    rcases List.mem_append.mp hx with e | e
    · split at e
      · simp only [List.mem_singleton] at e
        rw [e]
      · cases e
    · exact textTokenSegments_style sa line _ x e

theorem propagateWebVTTAttributes_tags (sa : StyleAttributes) :
    (propagateWebVTTAttributes sa).WebVTTTags = sa.WebVTTTags := rfl

theorem inlineTimestampLen_no_lt (c : Nat) (t : GoString) (h : c ≠ 60) :
    inlineTimestampLen (c :: t) = none := by
  unfold inlineTimestampLen
  split
  · rename_i heq
    exact absurd (List.cons.inj heq).1 h
  · rfl

theorem findInlineTimestamps_no_lt (pos : Nat) (s : GoString) (h : 60 ∉ s) :
    findInlineTimestamps pos 0 s = [] := by
  induction s generalizing pos with
  | nil => rfl
  | cons c t ih =>
    have hc : c ≠ 60 := fun e => h (by rw [e]; exact List.mem_cons_self _ _)
    rw [findInlineTimestamps, inlineTimestampLen_no_lt c t hc]
    exact ih _ fun e => h (List.mem_cons_of_mem _ e)

/-- A text token without `<` is one item, or none when it is blank. -/
theorem parseTextWebVTTTextToken_no_lt (sa : Option StyleAttributes) (s : GoString)
    (h : 60 ∉ s) :
    parseTextWebVTTTextToken sa s =
      if TrimSpace s ≠ [] then [{ InlineStyle := sa, Text := unescapeWebVTT (TrimSpace s) }]
      else [] := by
  unfold parseTextWebVTTTextToken
  rw [findInlineTimestamps_no_lt 0 s h]

end WebVTT

namespace WebVTT

/-! ### The inline timestamp of a rendered run -/

theorem natDigits_digits (fuel n : Nat) : ∀ x ∈ natDigits fuel n, isDigit x = true := by
  induction fuel generalizing n with
  | zero => intro x hx; cases hx
  | succ k ih =>
    intro x hx
    rw [natDigits] at hx
    split at hx
    · simp only [List.mem_singleton] at hx
      simp only [isDigit, Bool.and_eq_true, decide_eq_true_eq]
      omega
    · rcases List.mem_append.mp hx with e | e
      · exact ih _ x e
      · simp only [List.mem_singleton] at e
        simp only [isDigit, Bool.and_eq_true, decide_eq_true_eq]
        omega

theorem natDigits_small (fuel n : Nat) (h : n < 10) : natDigits (fuel + 1) n = [48 + n] := by
  rw [natDigits, if_pos h]

theorem padDigits_two (n : Nat) (h : n < 100) : padDigits 2 n = [48 + n / 10, 48 + n % 10] := by
  unfold padDigits
  by_cases h1 : n < 10
  · rw [natDigits_small n n h1]
    have e1 : n / 10 = 0 := by omega
    have e2 : n % 10 = n := by omega
    rw [e1, e2]
    rfl
  · obtain ⟨k, hk⟩ : ∃ k, n = k + 1 := ⟨n - 1, by omega⟩
    have e : natDigits (n + 1) n = [48 + n / 10, 48 + n % 10] := by
      rw [natDigits, if_neg h1]
      rw [hk, natDigits_small k ((k + 1) / 10) (by omega)]
      rfl
    rw [e]
    rfl

theorem padDigits_three (n : Nat) (h : n < 1000) :
    padDigits 3 n = [48 + n / 100, 48 + n / 10 % 10, 48 + n % 10] := by
  unfold padDigits
  by_cases h1 : n < 10
  · rw [natDigits_small n n h1]
    have e1 : n / 100 = 0 := by omega
    have e2 : n / 10 % 10 = 0 := by omega
    have e3 : n % 10 = n := by omega
    rw [e1, e2, e3]
    rfl
  · obtain ⟨k, hk⟩ : ∃ k, n = k + 1 := ⟨n - 1, by omega⟩
    by_cases h2 : n < 100
    · have e : natDigits (n + 1) n = [48 + n / 10, 48 + n % 10] := by
        rw [natDigits, if_neg h1]
        rw [hk, natDigits_small k ((k + 1) / 10) (by omega)]
        rfl
      have e1 : n / 100 = 0 := by omega
      have e2 : n / 10 % 10 = n / 10 := by omega
      rw [e, e1, e2]
      rfl
    · obtain ⟨k2, hk2⟩ : ∃ k2, k = k2 + 1 := ⟨k - 1, by omega⟩
      have e : natDigits (n + 1) n = [48 + n / 100, 48 + n / 10 % 10, 48 + n % 10] := by
        rw [natDigits, if_neg h1]
        rw [hk, natDigits, if_neg (by omega)]
        rw [hk2, natDigits_small k2 ((k2 + 1 + 1) / 10 / 10) (by omega)]
        have : (k2 + 1 + 1) / 10 / 10 = (k2 + 1 + 1) / 100 := by omega
        rw [this]
        rfl
      rw [e]
      rfl

theorem padDigits_hours (n : Nat) :
    2 ≤ (padDigits 2 n).length ∧ ∀ x ∈ padDigits 2 n, isDigit x = true := by
  unfold padDigits
  constructor
  · simp only [List.length_append, List.length_replicate]
    omega
  · intro x hx
    rcases List.mem_append.mp hx with e | e
    · rw [(List.mem_replicate.mp e).2]
      decide
    · exact natDigits_digits _ _ x e

theorem isDigit_add (k : Nat) (h : k < 10) : isDigit (48 + k) = true := by
  simp only [isDigit, Bool.and_eq_true, decide_eq_true_eq]
  omega

/-- The rendered timestamp: two or more hour digits, then `:MM:SS.mmm`. -/
theorem formatDuration_shape (d : Duration) :
    ∃ hh m1 m2 s1 s2 f1 f2 f3,
      formatDurationWebVTT d = hh ++ [58, m1, m2, 58, s1, s2, 46, f1, f2, f3] ∧
        2 ≤ hh.length ∧ (∀ x ∈ hh, isDigit x = true) ∧
        isDigit m1 = true ∧ isDigit m2 = true ∧ isDigit s1 = true ∧ isDigit s2 = true ∧
        isDigit f1 = true ∧ isDigit f2 = true ∧ isDigit f3 = true := by
  have hc : str ":" = [58] := by decide
  have hd : str "." = [46] := by decide
  unfold formatDurationWebVTT formatDuration
  simp only []
  rw [padDigits_two (d.toNat / 1000000 / 60000 % 60) (by omega),
    padDigits_two (d.toNat / 1000000 / 1000 % 60) (by omega),
    padDigits_three (d.toNat / 1000000 % 1000) (by omega), hc, hd]
  refine ⟨padDigits 2 (d.toNat / 1000000 / 3600000),
    48 + d.toNat / 1000000 / 60000 % 60 / 10, 48 + d.toNat / 1000000 / 60000 % 60 % 10,
    48 + d.toNat / 1000000 / 1000 % 60 / 10, 48 + d.toNat / 1000000 / 1000 % 60 % 10,
    48 + d.toNat / 1000000 % 1000 / 100, 48 + d.toNat / 1000000 % 1000 / 10 % 10,
    48 + d.toNat / 1000000 % 1000 % 10, by simp,
    (padDigits_hours _).1, (padDigits_hours _).2, ?_, ?_, ?_, ?_, ?_, ?_, ?_⟩ <;>
    exact isDigit_add _ (by omega)

theorem isDigit_range (c : Nat) (h : isDigit c = true) : 48 ≤ c ∧ c ≤ 57 := by
  simpa [isDigit] using h

/-- The inline-timestamp pattern matches a rendered timestamp at its `<`. -/
theorem inlineTimestampLen_timestamp (hh rest : GoString) (m1 m2 s1 s2 f1 f2 f3 : Nat)
    (hlen : 2 ≤ hh.length) (hd : ∀ x ∈ hh, isDigit x = true)
    (h1 : isDigit m1 = true) (h2 : isDigit m2 = true) (h3 : isDigit s1 = true)
    (h4 : isDigit s2 = true) (h5 : isDigit f1 = true) (h6 : isDigit f2 = true)
    (h7 : isDigit f3 = true) :
    inlineTimestampLen (60 :: (hh ++ [58, m1, m2, 58, s1, s2, 46, f1, f2, f3, 62] ++ rest)) =
      some (hh.length + 12) := by
  have hspan : spanLen isDigit (hh ++ [58, m1, m2, 58, s1, s2, 46, f1, f2, f3, 62] ++ rest) =
      hh.length := by
    have := spanLen_stop isDigit hh 58 ([m1, m2, 58, s1, s2, 46, f1, f2, f3, 62] ++ rest) hd
      (by decide)
    simpa using this
  have hdrop : (hh ++ [58, m1, m2, 58, s1, s2, 46, f1, f2, f3, 62] ++ rest).drop hh.length =
      58 :: ([m1, m2, 58, s1, s2, 46, f1, f2, f3, 62] ++ rest) := by
    simp
  have hdrop1 : (hh ++ [58, m1, m2, 58, s1, s2, 46, f1, f2, f3, 62] ++ rest).drop
      (hh.length + 1) = [m1, m2, 58, s1, s2, 46, f1, f2, f3, 62] ++ rest := by
    rw [← List.drop_drop, hdrop]
    rfl
  unfold inlineTimestampLen
  simp only [hspan, hdrop, hdrop1, List.head?_cons]
  have htail : timestampTail (([m1, m2, 58, s1, s2, 46, f1, f2, f3, 62] ++ rest).take 10) =
      true := by
    simp [timestampTail, h1, h2, h3, h4, h5, h6, h7]
  rw [htail]
  simp [hlen]

theorem findInlineTimestamps_skip (pos : Nat) (s rest : GoString) :
    findInlineTimestamps pos s.length (s ++ rest) =
      findInlineTimestamps (pos + s.length) 0 rest := by
  induction s generalizing pos with
  | nil => rfl
  | cons c t ih =>
    simp only [List.length_cons, List.cons_append]
    rw [findInlineTimestamps, ih]
    congr 1
    omega

/-- The inline timestamps of a text that begins with a rendered timestamp: that
one, then those of the rest. -/
theorem findInlineTimestamps_timestamp (d : Duration) (rest : GoString) :
    findInlineTimestamps 0 0 (str "<" ++ formatDurationWebVTT d ++ str ">" ++ rest) =
      (0, (str "<" ++ formatDurationWebVTT d ++ str ">").length) ::
        findInlineTimestamps (str "<" ++ formatDurationWebVTT d ++ str ">").length 0 rest := by
  have hlt : str "<" = [60] := by decide
  have hgt : str ">" = [62] := by decide
  obtain ⟨hh, m1, m2, s1, s2, f1, f2, f3, hf, hlen, hd, h1, h2, h3, h4, h5, h6, h7⟩ :=
    formatDuration_shape d
  rw [hf, hlt, hgt]
  have e : [60] ++ (hh ++ [58, m1, m2, 58, s1, s2, 46, f1, f2, f3]) ++ [62] ++ rest =
      60 :: (hh ++ [58, m1, m2, 58, s1, s2, 46, f1, f2, f3, 62] ++ rest) := by simp
  have e2 : ([60] ++ (hh ++ [58, m1, m2, 58, s1, s2, 46, f1, f2, f3]) ++ [62]).length =
      hh.length + 12 := by simp
  rw [e, e2, findInlineTimestamps,
    inlineTimestampLen_timestamp hh rest m1 m2 s1 s2 f1 f2 f3 hlen hd h1 h2 h3 h4 h5 h6 h7]
  simp only [Nat.zero_add, Nat.add_sub_cancel]
  have e3 : hh.length + 12 - 1 = (hh ++ [58, m1, m2, 58, s1, s2, 46, f1, f2, f3, 62]).length := by
    simp
  rw [e3, findInlineTimestamps_skip]
  congr 2
  simp
  omega

/-- A rendered timestamp is text for the tokenizer: its `<` is followed by a
digit. -/
theorem plainText_timestamp (d : Duration) :
    plainText (str "<" ++ formatDurationWebVTT d ++ str ">") = true := by
  have hlt : str "<" = [60] := by decide
  have hgt : str ">" = [62] := by decide
  obtain ⟨hh, m1, m2, s1, s2, f1, f2, f3, hf, hlen, hd, h1, h2, h3, h4, h5, h6, h7⟩ :=
    formatDuration_shape d
  rw [hf, hlt, hgt]
  have hno : 60 ∉ hh ++ [58, m1, m2, 58, s1, s2, 46, f1, f2, f3] ++ [62] := by
    intro hm
    have r1 := isDigit_range m1 h1
    have r2 := isDigit_range m2 h2
    have r3 := isDigit_range s1 h3
    have r4 := isDigit_range s2 h4
    have r5 := isDigit_range f1 h5
    have r6 := isDigit_range f2 h6
    have r7 := isDigit_range f3 h7
    simp only [List.mem_append, List.mem_cons, List.mem_singleton, List.not_mem_nil,
      or_false] at hm
    rcases hm with (hm | hm) | hm
    · have := isDigit_range 60 (hd 60 hm)
      omega
    · omega
    · omega
  cases hh with
  | nil => simp at hlen
  | cons c t =>
    have rc := isDigit_range c (hd c (List.mem_cons_self _ _))
    have hm : markupStart [60, c] = false := by
      simp only [markupStart, isLetter, Bool.or_eq_false_iff, Bool.and_eq_false_iff,
        decide_eq_false_iff_not, beq_eq_false_iff_ne, ne_eq]
      omega
    show plainText (60 :: c :: (t ++ [58, m1, m2, 58, s1, s2, 46, f1, f2, f3] ++ [62])) = true
    simp only [plainText, hm, Bool.not_false, Bool.true_and]
    exact plainText_of_no_lt _ hno

end WebVTT

namespace WebVTT

/-! ### A rendered run, read again -/

theorem webVTTBytes_eq (li : LineItem) (h : li.colorName = []) :
    li.webVTTBytes =
      (if 0 < li.StartAt then str "<" ++ formatDurationWebVTT li.StartAt ++ str ">" else []) ++
        ((li.tags.map WebVTTTag.startTag).flatten ++
          (escapeWebVTT li.Text ++ (li.tags.reverse.map WebVTTTag.endTag).flatten)) := by
  have e : li.webVTTBytes =
      (if 0 < li.StartAt then str "<" ++ formatDurationWebVTT li.StartAt ++ str ">" else []) ++
        (if li.colorName ≠ [] then str "<c." ++ li.colorName ++ str ">" else []) ++
        (li.tags.map WebVTTTag.startTag).flatten ++
        escapeWebVTT li.Text ++
        (li.tags.reverse.map WebVTTTag.endTag).flatten ++
        (if li.colorName ≠ [] then str "</c>" else []) := rfl
  rw [e, h]
  simp

/-- The text token of a rendered timestamp followed by text without `<`: one item
for the text, none when it is blank. -/
theorem parseTextWebVTTTextToken_timestamp (sa : Option StyleAttributes) (d : Duration)
    (rest : GoString) (h : 60 ∉ rest) :
    parseTextWebVTTTextToken sa (str "<" ++ formatDurationWebVTT d ++ str ">" ++ rest) =
      if TrimSpace rest = [] then []
      else [{ InlineStyle := sa
              StartAt := (parseDurationWebVTT (slice
                (str "<" ++ formatDurationWebVTT d ++ str ">" ++ rest) 1
                ((str "<" ++ formatDurationWebVTT d ++ str ">").length - 1))).getD 0
              Text := unescapeWebVTT (TrimSpace rest) }] := by
  have h0 : TrimSpace [] = [] := by decide
  have hs : slice (str "<" ++ formatDurationWebVTT d ++ str ">" ++ rest)
      (str "<" ++ formatDurationWebVTT d ++ str ">").length
      (str "<" ++ formatDurationWebVTT d ++ str ">" ++ rest).length = rest := by
    unfold slice
    rw [List.take_length, List.drop_left]
  unfold parseTextWebVTTTextToken
  rw [findInlineTimestamps_timestamp, findInlineTimestamps_no_lt _ rest h]
  simp only [slice, List.take_zero, List.drop_zero, h0, ne_eq, not_true_eq_false, if_false,
    List.nil_append]
  rw [textTokenSegments_cons]
  simp only [segmentEnd, hs, textTokenSegments, Nat.zero_add]
  rfl

end WebVTT

namespace WebVTT

/-! ### The tag stack of a run, rendered and read again -/

/-- A run rendered and read again: for every run whose style record carries no
colour of the table and whose tags are well-formed, every run that
`parseTextWebVTT` reads from the text rendered by `LineItem.webVTTBytes` has the
same tag stack, and there is at least one such run when the escaped text is not
blank. -/
theorem webVTTBytes_tags (li : LineItem) (hcolor : li.colorName = [])
    (hplain : ∀ t ∈ li.tags, wellFormedTag t = true) :
    (∀ x ∈ (parseTextWebVTT li.webVTTBytes).Items, x.tags = li.tags) ∧
      (TrimSpace (escapeWebVTT li.Text) ≠ [] → (parseTextWebVTT li.webVTTBytes).Items ≠ []) := by
  have hno := escapeWebVTT_no_lt li.Text
  have hesc : plainText (escapeWebVTT li.Text) = true := plainText_of_no_lt _ hno
  have hpre : plainText
      (if 0 < li.StartAt then str "<" ++ formatDurationWebVTT li.StartAt ++ str ">" else []) =
        true := by
    split
    · exact plainText_timestamp _
    · rfl
  have h0 : TrimSpace [] = [] := by decide
  have hP : parseTextWebVTTTextToken none
      (if 0 < li.StartAt then str "<" ++ formatDurationWebVTT li.StartAt ++ str ">" else []) =
        [] := by
    split
    · have := parseTextWebVTTTextToken_timestamp none li.StartAt [] (by simp)
      rw [List.append_nil, if_pos h0] at this
      exact this
    · exact parseTextWebVTTTextToken_nil none
  rw [webVTTBytes_eq li hcolor]
  cases htags : li.tags with
  | nil =>
    simp only [List.map_nil, List.flatten_nil, List.reverse_nil, List.append_nil,
      List.nil_append]
    rw [parseTextWebVTT_plain _ (plainText_append _ _ hpre hesc)]
    constructor
    · intro x hx
      have := parseTextWebVTTTextToken_style none _ x hx
      unfold LineItem.tags
      rw [this]
    · intro hne
      simp only
      by_cases hs : 0 < li.StartAt
      · rw [if_pos hs, parseTextWebVTTTextToken_timestamp none li.StartAt _ hno, if_neg hne]
        simp
      · rw [if_neg hs, List.nil_append, parseTextWebVTTTextToken_no_lt none _ hno, if_pos hne]
        simp
  | cons t ts =>
    rw [htags] at hplain
    rw [parseTextWebVTT_render _ _ (t :: ts) hplain (by simp) hpre hesc, hP]
    simp only [List.nil_append]
    constructor
    · intro x hx
      have := parseTextWebVTTTextToken_style _ _ x hx
      unfold LineItem.tags
      rw [this]
      exact propagateWebVTTAttributes_tags _
    · intro hne
      rw [parseTextWebVTTTextToken_no_lt _ _ hno, if_pos hne]
      simp

end WebVTT

namespace WebVTT

/-! ### The bytes of escaped text -/

theorem webVTTEscaper_no_gt (b : Nat) : 62 ∉ webVTTEscaper b := by
  rw [webVTTEscaper_eq]
  split
  · decide
  · split
    · decide
    · split
      · decide
      · split
        · decide
        · rename_i h _
          simp only [List.mem_singleton]
          exact fun e => h e.symm

theorem escapeWebVTT_cons (b : Nat) (t : GoString) :
    escapeWebVTT (b :: t) = webVTTEscaper b ++ escapeWebVTT t := by
  simp [escapeWebVTT]

/-- The replacement of one byte holds `&` only as its first byte, and then it is
one of the four entity sequences of the table. -/
theorem webVTTEscaper_amp (b : Nat) (pre post : GoString)
    (h : webVTTEscaper b = pre ++ 38 :: post) :
    pre = [] ∧ (webVTTEscaper b = str "&amp;" ∨ webVTTEscaper b = str "&lt;" ∨
      webVTTEscaper b = str "&gt;" ∨ webVTTEscaper b = str "&nbsp") := by
  have e1 : str "&amp;" = [38, 97, 109, 112, 59] := by decide
  have e2 : str "&lt;" = [38, 108, 116, 59] := by decide
  have e3 : str "&gt;" = [38, 103, 116, 59] := by decide
  have e4 : str "&nbsp" = [38, 110, 98, 115, 112] := by decide
  have key : ∀ (w : GoString), (∀ x ∈ w.drop 1, x ≠ 38) → w = pre ++ 38 :: post → pre = [] := by
    intro w hw e
    cases pre with
    | nil => rfl
    | cons c p =>
      exfalso
      rw [e] at hw
      exact hw 38 (by simp) rfl
  rw [webVTTEscaper_eq] at h ⊢
  rw [e1, e2, e3, e4]
  by_cases h1 : b = 38
  · rw [if_pos h1] at h ⊢
    exact ⟨key _ (by decide) h, Or.inl rfl⟩
  rw [if_neg h1] at h ⊢
  by_cases h2 : b = 60
  · rw [if_pos h2] at h ⊢
    exact ⟨key _ (by decide) h, Or.inr (Or.inl rfl)⟩
  rw [if_neg h2] at h ⊢
  by_cases h3 : b = 62
  · rw [if_pos h3] at h ⊢
    exact ⟨key _ (by decide) h, Or.inr (Or.inr (Or.inl rfl))⟩
  rw [if_neg h3] at h ⊢
  by_cases h4 : b = 160
  · rw [if_pos h4] at h ⊢
    exact ⟨key _ (by decide) h, Or.inr (Or.inr (Or.inr rfl))⟩
  rw [if_neg h4] at h
  exfalso
  cases pre with
  | nil =>
    simp only [List.nil_append, List.cons.injEq] at h
    exact h1 h.1
  | cons c p =>
    simp only [List.cons_append, List.cons.injEq] at h
    have := h.2
    cases p <;> simp at this

theorem HasPrefix_append (p rest : GoString) : HasPrefix (p ++ rest) p = true := by
  induction p with
  | nil => cases rest <;> rfl
  | cons c t ih => simp [HasPrefix, ih]

/-- Every `&` of escaped text begins one of the four entity sequences. -/
theorem escapeWebVTT_amp (s pre post : GoString) (h : escapeWebVTT s = pre ++ 38 :: post) :
    HasPrefix (38 :: post) (str "&amp;") = true ∨ HasPrefix (38 :: post) (str "&lt;") = true ∨
      HasPrefix (38 :: post) (str "&gt;") = true ∨
      HasPrefix (38 :: post) (str "&nbsp") = true := by
  induction s generalizing pre with
  | nil =>
    exfalso
    have : escapeWebVTT [] = [] := rfl
    rw [this] at h
    cases pre <;> simp at h
  | cons b t ih =>
    rw [escapeWebVTT_cons] at h
    rcases List.append_eq_append_iff.mp h with ⟨a, ha, hb⟩ | ⟨c, hc, hd⟩
    · exact ih a hb
    · cases c with
      | nil =>
        rw [List.nil_append] at hd
        exact ih [] (by rw [List.nil_append]; exact hd.symm)
      | cons x c2 =>
        simp only [List.cons_append, List.cons.injEq] at hd
        obtain ⟨hx, hpost⟩ := hd
        rw [← hx] at hc
        obtain ⟨_, hcase⟩ := webVTTEscaper_amp b pre c2 hc
        have hfull : 38 :: post = webVTTEscaper b ++ escapeWebVTT t := by
          have hp := (webVTTEscaper_amp b pre c2 hc).1
          rw [hc, hp, hpost]
          rfl
        rw [hfull]
        rcases hcase with e | e | e | e
        · left; rw [e]; exact HasPrefix_append _ _
        · right; left; rw [e]; exact HasPrefix_append _ _
        · right; right; left; rw [e]; exact HasPrefix_append _ _
        · right; right; right; rw [e]; exact HasPrefix_append _ _

theorem escapeWebVTT_no_gt (s : GoString) : 62 ∉ escapeWebVTT s := by
  unfold escapeWebVTT
  intro h
  obtain ⟨l, hl, hx⟩ := List.mem_flatten.mp h
  obtain ⟨b, _, hb⟩ := List.mem_map.mp hl
  rw [← hb] at hx
  exact webVTTEscaper_no_gt b hx

/-- C22: for every string `s`, `escapeWebVTT s` holds no `<` byte and no `>`
byte, and every `&` in it is the first byte of one of the four sequences
`&amp;`, `&lt;`, `&gt;`, `&nbsp` of the table; so escaped text is one text token
for the tokenizer, the inline-timestamp pattern matches nowhere in it, and the
line read from it is its one run without tags and without start offset, or
nothing when it is blank. -/
theorem escapeWebVTT_bytes (s : GoString) :
    60 ∉ escapeWebVTT s ∧ 62 ∉ escapeWebVTT s ∧
      (∀ pre post, escapeWebVTT s = pre ++ 38 :: post →
        HasPrefix (38 :: post) (str "&amp;") = true ∨
          HasPrefix (38 :: post) (str "&lt;") = true ∨
          HasPrefix (38 :: post) (str "&gt;") = true ∨
          HasPrefix (38 :: post) (str "&nbsp") = true) ∧
      plainText (escapeWebVTT s) = true ∧
      findInlineTimestamps 0 0 (escapeWebVTT s) = [] ∧
      parseTextWebVTT (escapeWebVTT s) =
        { VoiceName := []
          Items :=
            if TrimSpace (escapeWebVTT s) ≠ [] then
              [{ InlineStyle := none, StartAt := 0,
                 Text := unescapeWebVTT (TrimSpace (escapeWebVTT s)) }]
            else [] } := by
  have hno := escapeWebVTT_no_lt s
  refine ⟨hno, escapeWebVTT_no_gt s, escapeWebVTT_amp s, plainText_of_no_lt _ hno,
    findInlineTimestamps_no_lt 0 _ hno, ?_⟩
  rw [parseTextWebVTT_plain _ (plainText_of_no_lt _ hno),
    parseTextWebVTTTextToken_no_lt none _ hno]

end WebVTT

namespace WebVTT

/-! ### The start offset of a rendered run -/

/-- C21 fails for every run with tags: for a run with a positive start offset,
non-blank escaped text, no colour of the table and a non-empty stack of plain
tags, the text rendered by `LineItem.webVTTBytes` has the timestamp before the
tags, and `parseTextWebVTT` reads from it exactly one run, with the tag stack and
the text of the run and with start offset zero; no run read back has the start
offset of the run. -/
theorem webVTTBytes_start_offset_tags (li : LineItem) (hcolor : li.colorName = [])
    (hplain : ∀ t ∈ li.tags, plainTag t = true) (hne : li.tags ≠ [])
    (hpos : 0 < li.StartAt) (htext : TrimSpace (escapeWebVTT li.Text) ≠ []) :
    li.webVTTBytes =
        str "<" ++ formatDurationWebVTT li.StartAt ++ str ">" ++
          ((li.tags.map WebVTTTag.startTag).flatten ++
            (escapeWebVTT li.Text ++ (li.tags.reverse.map WebVTTTag.endTag).flatten)) ∧
      (parseTextWebVTT li.webVTTBytes).Items =
        [{ InlineStyle := some (propagateWebVTTAttributes { WebVTTTags := li.tags })
           StartAt := 0
           Text := unescapeWebVTT (TrimSpace (escapeWebVTT li.Text)) }] ∧
      ∀ x ∈ (parseTextWebVTT li.webVTTBytes).Items, x.StartAt ≠ li.StartAt := by
  have hno := escapeWebVTT_no_lt li.Text
  have hesc : plainText (escapeWebVTT li.Text) = true := plainText_of_no_lt _ hno
  have h0 : TrimSpace [] = [] := by decide
  have hP : parseTextWebVTTTextToken none
      (str "<" ++ formatDurationWebVTT li.StartAt ++ str ">") = [] := by
    have := parseTextWebVTTTextToken_timestamp none li.StartAt [] (by simp)
    rw [List.append_nil, if_pos h0] at this
    exact this
  have hbytes := webVTTBytes_eq li hcolor
  rw [if_pos hpos] at hbytes
  have hitems : (parseTextWebVTT li.webVTTBytes).Items =
      [{ InlineStyle := some (propagateWebVTTAttributes { WebVTTTags := li.tags })
         StartAt := 0
         Text := unescapeWebVTT (TrimSpace (escapeWebVTT li.Text)) }] := by
    rw [hbytes, parseTextWebVTT_render _ _ li.tags
      (fun t ht => wellFormedTag_of_plainTag t (hplain t ht)) hne (plainText_timestamp _) hesc, hP,
      parseTextWebVTTTextToken_no_lt _ _ hno, if_pos htext]
    rfl
  refine ⟨hbytes, hitems, ?_⟩
  intro x hx
  rw [hitems] at hx
  simp only [List.mem_singleton] at hx
  rw [hx]
  intro e
  have e2 : li.StartAt = 0 := e.symm
  rw [e2] at hpos
  exact absurd hpos (by decide)

/-- C21, the failing input: the cue text `<b><00:00:01.000>x</b>` is read as the
run `x` in the tag `b` with the start offset of one second; the run is rendered
as `<00:00:01.000><b>x</b>`, and the run read back from that has start offset
zero. A run without tags keeps its start offset: `<00:00:01.500>x` is read back
as it was. -/
theorem webVTTBytes_start_offset_tags_witness :
    (parseTextWebVTT (str "<b><00:00:01.000>x</b>")).Items = [exampleTimedBold] ∧
      exampleTimedBold.StartAt = 1 * Second ∧
      exampleTimedBold.webVTTBytes = str "<00:00:01.000><b>x</b>" ∧
      (parseTextWebVTT exampleTimedBold.webVTTBytes).Items =
        [{ exampleTimedBold with StartAt := 0 }] ∧
      (∀ x ∈ (parseTextWebVTT exampleTimedBold.webVTTBytes).Items,
        x.StartAt ≠ exampleTimedBold.StartAt) ∧
      exampleTimedPlain.webVTTBytes = str "<00:00:01.500>x" ∧
      (parseTextWebVTT exampleTimedPlain.webVTTBytes).Items = [exampleTimedPlain] :=
  ⟨by decide, by decide, by decide, by decide,
    (webVTTBytes_start_offset_tags exampleTimedBold (by decide) (by decide) (by decide)
      (by decide) (by decide)).2.2,
    by decide, by decide⟩

end WebVTT

namespace WebVTT

/-! ### The start offset of a run without tags -/

theorem foldl_digits_zeros (k : Nat) :
    (List.replicate k 48).foldl (fun acc b => acc * 10 + (b - 48)) 0 = 0 := by
  induction k with
  | zero => rfl
  | succ j ih =>
    rw [List.replicate_succ, List.foldl_cons]
    exact ih

theorem foldl_natDigits (fuel n : Nat) (h : n < fuel) :
    (natDigits fuel n).foldl (fun acc b => acc * 10 + (b - 48)) 0 = n := by
  induction fuel generalizing n with
  | zero => omega
  | succ f ih =>
    rw [natDigits]
    split
    · simp
    · rw [List.foldl_append, ih (n / 10) (by omega)]
      simp only [List.foldl_cons, List.foldl_nil]
      omega

theorem parseDigits_padDigits (w n : Nat) : parseDigits (padDigits w n) = some n := by
  have hall : (padDigits w n).all isDigit = true := by
    rw [List.all_eq_true]
    intro x hx
    unfold padDigits at hx
    rcases List.mem_append.mp hx with e | e
    · rw [(List.mem_replicate.mp e).2]
      decide
    · exact natDigits_digits _ _ x e
  have hval : (padDigits w n).foldl (fun acc b => acc * 10 + (b - 48)) 0 = n := by
    unfold padDigits
    simp only [List.foldl_append, foldl_digits_zeros]
    exact foldl_natDigits (n + 1) n (by omega)
  have hne : padDigits w n ≠ [] := by
    unfold padDigits
    intro e
    exact natDigits_ne_nil n n (List.append_eq_nil.mp e).2
  unfold parseDigits
  split
  · rename_i heq
    exact absurd heq hne
  · rw [if_pos hall, hval]

theorem padDigits_length (w n : Nat) : w ≤ (padDigits w n).length := by
  unfold padDigits
  simp only [List.length_append, List.length_replicate]
  omega

theorem padDigits_two_length (n : Nat) (h : n < 100) : (padDigits 2 n).length = 2 := by
  rw [padDigits_two n h]
  rfl

theorem padDigits_three_length (n : Nat) (h : n < 1000) : (padDigits 3 n).length = 3 := by
  rw [padDigits_three n h]
  rfl

theorem padDigits_bytes (w n : Nat) : ∀ x ∈ padDigits w n, isDigit x = true := by
  intro x hx
  unfold padDigits at hx
  rcases List.mem_append.mp hx with e | e
  · rw [(List.mem_replicate.mp e).2]
    decide
  · exact natDigits_digits _ _ x e

theorem not_mem_digits (c : Nat) (s : GoString) (hs : ∀ x ∈ s, isDigit x = true)
    (hc : c < 48 ∨ 57 < c) : c ∉ s := by
  intro h
  have := isDigit_range c (hs c h)
  omega

/-- Parsing the rendered form of a whole number of milliseconds gives it back. -/
theorem parseDuration_formatDuration (k : Nat) :
    parseDurationWebVTT (formatDurationWebVTT ((k : Int) * Millisecond)) =
      some ((k : Int) * Millisecond) := by
  have hc : str ":" = [58] := by decide
  have hd : str "." = [46] := by decide
  have hms : ((k : Int) * Millisecond).toNat / 1000000 = k := by
    unfold Millisecond
    have : ((k : Int) * 1000000).toNat = k * 1000000 := by omega
    rw [this]
    omega
  have hH := padDigits_bytes 2 (k / 3600000)
  have hM := padDigits_bytes 2 (k / 60000 % 60)
  have hS := padDigits_bytes 2 (k / 1000 % 60)
  have hF := padDigits_bytes 3 (k % 1000)
  unfold parseDurationWebVTT formatDurationWebVTT formatDuration parseDuration
  simp only [hms, hc, hd]
  have e1 : padDigits 2 (k / 3600000) ++ [58] ++ padDigits 2 (k / 60000 % 60) ++ [58] ++
      padDigits 2 (k / 1000 % 60) ++ [46] ++ padDigits 3 (k % 1000) =
      (padDigits 2 (k / 3600000) ++ 58 :: (padDigits 2 (k / 60000 % 60) ++
        58 :: padDigits 2 (k / 1000 % 60))) ++ 46 :: padDigits 3 (k % 1000) := by
    simp
  have hno46 : 46 ∉ padDigits 2 (k / 3600000) ++ 58 :: (padDigits 2 (k / 60000 % 60) ++
      58 :: padDigits 2 (k / 1000 % 60)) := by
    simp only [List.mem_append, List.mem_cons]
    rintro (h | h | h | h | h)
    · exact not_mem_digits 46 _ hH (by omega) h
    · omega
    · exact not_mem_digits 46 _ hM (by omega) h
    · omega
    · exact not_mem_digits 46 _ hS (by omega) h
  rw [e1, Split_single_append 46 _ _ hno46,
    Split_single_of_not_mem 46 _ (not_mem_digits 46 _ hF (by omega))]
  simp only
  have hno58 : 58 ∉ padDigits 2 (k / 3600000) := not_mem_digits 58 _ hH (by omega)
  rw [Split_single_append 58 _ _ hno58,
    Split_single_append 58 _ _ (not_mem_digits 58 _ hM (by omega)),
    Split_single_of_not_mem 58 _ (not_mem_digits 58 _ hS (by omega))]
  have p3 : parseField 3 (padDigits 3 (k % 1000)) = some (k % 1000) := by
    unfold parseField
    rw [if_pos (Or.inr ⟨by decide, padDigits_three_length _ (by omega)⟩)]
    exact parseDigits_padDigits _ _
  have p0 : parseField 0 (padDigits 2 (k / 3600000)) = some (k / 3600000) := by
    unfold parseField
    rw [if_pos (Or.inl ⟨rfl, padDigits_length 2 _⟩)]
    exact parseDigits_padDigits _ _
  have pm : parseField 2 (padDigits 2 (k / 60000 % 60)) = some (k / 60000 % 60) := by
    unfold parseField
    rw [if_pos (Or.inr ⟨by decide, padDigits_two_length _ (by omega)⟩)]
    exact parseDigits_padDigits _ _
  have ps : parseField 2 (padDigits 2 (k / 1000 % 60)) = some (k / 1000 % 60) := by
    unfold parseField
    rw [if_pos (Or.inr ⟨by decide, padDigits_two_length _ (by omega)⟩)]
    exact parseDigits_padDigits _ _
  simp only [p3, p0, pm, ps]
  congr 2
  have : ((k / 3600000 * 60 + k / 60000 % 60) * 60 + k / 1000 % 60) * 1000 + k % 1000 = k := by
    omega
  rw [this]

theorem slice_timestamp (f rest : GoString) :
    slice (str "<" ++ f ++ str ">" ++ rest) 1 ((str "<" ++ f ++ str ">").length - 1) = f := by
  have hlt : str "<" = [60] := by decide
  have hgt : str ">" = [62] := by decide
  rw [hlt, hgt]
  have e1 : [60] ++ f ++ [62] ++ rest = 60 :: (f ++ 62 :: rest) := by simp
  have e2 : ([60] ++ f ++ [62]).length - 1 = f.length + 1 := by simp
  rw [e1, e2]
  unfold slice
  rw [List.take_succ_cons, List.drop_succ_cons, List.drop_zero]
  exact List.take_left _ _

/-- A run without tags and without colour keeps its start offset: for a positive
start offset that is a whole number of milliseconds and non-blank escaped text,
the line read from the rendered text is exactly one run, with no style record,
the same start offset and the text of the run. -/
theorem webVTTBytes_start_offset_plain (li : LineItem) (k : Nat) (hcolor : li.colorName = [])
    (htags : li.tags = []) (hk : li.StartAt = (k : Int) * Millisecond) (hpos : 0 < li.StartAt)
    (htext : TrimSpace (escapeWebVTT li.Text) ≠ []) :
    (parseTextWebVTT li.webVTTBytes).Items =
      [{ InlineStyle := none
         StartAt := li.StartAt
         Text := unescapeWebVTT (TrimSpace (escapeWebVTT li.Text)) }] := by
  have hno := escapeWebVTT_no_lt li.Text
  have hesc : plainText (escapeWebVTT li.Text) = true := plainText_of_no_lt _ hno
  have hslice := slice_timestamp (formatDurationWebVTT li.StartAt) (escapeWebVTT li.Text)
  rw [webVTTBytes_eq li hcolor, if_pos hpos, htags]
  simp only [List.map_nil, List.flatten_nil, List.reverse_nil, List.append_nil, List.nil_append]
  rw [parseTextWebVTT_plain _ (plainText_append _ _ (plainText_timestamp _) hesc)]
  simp only
  rw [parseTextWebVTTTextToken_timestamp none li.StartAt _ hno, if_neg htext, hslice, hk,
    parseDuration_formatDuration k]
  rfl

end WebVTT

namespace WebVTT

/-! ### The offset arithmetic on 33-bit tick counts -/

theorem ticks_product_range (N : Int) (hN : 0 ≤ N ∧ N < 2 ^ 33) :
    -2 ^ 63 ≤ N * Second ∧ N * Second < 2 ^ 63 := by
  unfold Second
  omega

theorem ticks_quotient (N : Int) (hN : 0 ≤ N ∧ N < 2 ^ 33) :
    Int.tdiv (N * Second) 90000 = N * Second / 90000 ∧
      0 ≤ N * Second / 90000 ∧ N * Second / 90000 < 2 ^ 63 ∧
      90000 * (N * Second / 90000) ≤ N * Second ∧
      N * Second < 90000 * (N * Second / 90000) + 90000 ∧
      (9 ∣ N → 90000 * (N * Second / 90000) = N * Second) := by
  have h0 : (0 : Int) ≤ N * Second := by
    unfold Second
    omega
  refine ⟨Int.tdiv_eq_ediv h0 (by decide), ?_, ?_, ?_, ?_, ?_⟩
  · unfold Second; omega
  · unfold Second; omega
  · unfold Second; omega
  · unfold Second; omega
  · intro h9
    unfold Second
    omega

/-- C23: for a correlation header whose MPEGTS sub-field is a tick count `N` with
`0 ≤ N < 2^33` and whose LOCAL sub-field is a non-negative duration `L` of
the 64-bit range, in either order of the two sub-fields: the product
`N * 10^9` and the difference stay within the signed 64-bit range,
`parseTimestampMapWebVTT` returns `N * 10^9 / 90000 - L` nanoseconds, and that
value is at most the exact rational offset `N / 90000` seconds minus `L` and less
than one nanosecond below it; it is the exact offset whenever 9 divides `N`. -/
theorem parseTimestampMapWebVTT_precision (pre l n : GoString) (L N : Int)
    (hpre : 61 ∉ pre)
    (hl : parseDurationWebVTT l = some L)
    (hn : ParseInt n = some N)
    (hN : 0 ≤ N ∧ N < 2 ^ 33)
    (hL : 0 ≤ L ∧ L < 2 ^ 63) :
    (-2 ^ 63 ≤ N * Second ∧ N * Second < 2 ^ 63) ∧
      (-2 ^ 63 ≤ Int.tdiv (N * Second) 90000 - L ∧ Int.tdiv (N * Second) 90000 - L < 2 ^ 63) ∧
      parseTimestampMapWebVTT
          (pre ++ str "=" ++ (str "LOCAL:" ++ l) ++ str "," ++ (str "MPEGTS:" ++ n)) =
        .ok (N * Second / 90000 - L) ∧
      parseTimestampMapWebVTT
          (pre ++ str "=" ++ (str "MPEGTS:" ++ n) ++ str "," ++ (str "LOCAL:" ++ l)) =
        .ok (N * Second / 90000 - L) ∧
      0 ≤ ((N : ℚ) / 90000 * 1000000000 - (L : ℚ)) - ((N * Second / 90000 - L : Int) : ℚ) ∧
      ((N : ℚ) / 90000 * 1000000000 - (L : ℚ)) - ((N * Second / 90000 - L : Int) : ℚ) < 1 ∧
      (9 ∣ N →
        ((N * Second / 90000 - L : Int) : ℚ) = (N : ℚ) / 90000 * 1000000000 - (L : ℚ)) := by
  have hmul := ticks_product_range N hN
  obtain ⟨hdiv, hq0, hq1, hlo, hhi, hex⟩ := ticks_quotient N hN
  have hsub : -2 ^ 63 ≤ Int.tdiv (N * Second) 90000 - L ∧
      Int.tdiv (N * Second) 90000 - L < 2 ^ 63 := by
    rw [hdiv]
    omega
  have hLb := local_field_bytes l L hl
  have hNb := mpegts_field_bytes n N hn
  have hx : (N : ℚ) / 90000 * 1000000000 * 90000 = (N : ℚ) * 1000000000 := by
    field_simp
  have hsec : ((N * Second : Int) : ℚ) = (N : ℚ) * 1000000000 := by
    unfold Second
    push_cast
    ring
  have hloq : (90000 : ℚ) * ((N * Second / 90000 : Int) : ℚ) ≤ (N : ℚ) * 1000000000 := by
    rw [← hsec]
    exact_mod_cast hlo
  have hhiq : (N : ℚ) * 1000000000 <
      (90000 : ℚ) * ((N * Second / 90000 : Int) : ℚ) + 90000 := by
    rw [← hsec]
    exact_mod_cast hhi
  refine ⟨hmul, hsub, ?_, ?_, ?_, ?_, ?_⟩
  · rw [parseTimestampMapWebVTT_fields pre _ _ (L, N) hpre hLb hNb]
    · simp only
      rw [wrapInt64_of_range _ hmul.1 hmul.2, wrapInt64_of_range _ hsub.1 hsub.2, hdiv]
    · intro right
      rw [parts_local right l _ 0 0 L hl, parts_mpegts right n _ L 0 N hn]
      rfl
  · rw [parseTimestampMapWebVTT_fields pre _ _ (L, N) hpre hNb hLb]
    · simp only
      rw [wrapInt64_of_range _ hmul.1 hmul.2, wrapInt64_of_range _ hsub.1 hsub.2, hdiv]
    · intro right
      rw [parts_mpegts right n _ 0 0 N hn, parts_local right l _ 0 N L hl]
      rfl
  · push_cast
    linarith
  · push_cast
    linarith
  · intro h9
    have := hex h9
    have hq : (90000 : ℚ) * ((N * Second / 90000 : Int) : ℚ) = (N : ℚ) * 1000000000 := by
      rw [← hsec]
      exact_mod_cast this
    push_cast
    linarith

/-- C23 at the largest 33-bit tick count and a local time of one hour, and at a
tick count that 9 does not divide: the hypotheses hold, the offsets returned are
`95443717677777 - 3600 * 10^9` and `11111` nanoseconds. -/
theorem parseTimestampMapWebVTT_precision_witness :
    parseDurationWebVTT (str "01:00:00.000") = some (3600 * Second) ∧
      ParseInt (str "8589934591") = some (2 ^ 33 - 1) ∧
      parseTimestampMapWebVTT (str "X-TIMESTAMP-MAP=LOCAL:01:00:00.000,MPEGTS:8589934591") =
        .ok (95443717677777 - 3600 * Second) ∧
      parseTimestampMapWebVTT (str "X-TIMESTAMP-MAP=MPEGTS:1,LOCAL:00:00:00.000") =
        .ok 11111 ∧
      ((-2 ^ 63 ≤ (2 ^ 33 - 1) * Second ∧ (2 ^ 33 - 1) * Second < 2 ^ 63) ∧
        (-2 ^ 63 ≤ Int.tdiv ((2 ^ 33 - 1) * Second) 90000 - 3600 * Second ∧
          Int.tdiv ((2 ^ 33 - 1) * Second) 90000 - 3600 * Second < 2 ^ 63) ∧
        parseTimestampMapWebVTT
            (str "X-TIMESTAMP-MAP" ++ str "=" ++ (str "LOCAL:" ++ str "01:00:00.000") ++
              str "," ++ (str "MPEGTS:" ++ str "8589934591")) =
          .ok ((2 ^ 33 - 1) * Second / 90000 - 3600 * Second) ∧
        parseTimestampMapWebVTT
            (str "X-TIMESTAMP-MAP" ++ str "=" ++ (str "MPEGTS:" ++ str "8589934591") ++
              str "," ++ (str "LOCAL:" ++ str "01:00:00.000")) =
          .ok ((2 ^ 33 - 1) * Second / 90000 - 3600 * Second) ∧
        0 ≤ (((2 ^ 33 - 1 : Int) : ℚ) / 90000 * 1000000000 - ((3600 * Second : Int) : ℚ)) -
            (((2 ^ 33 - 1) * Second / 90000 - 3600 * Second : Int) : ℚ) ∧
        (((2 ^ 33 - 1 : Int) : ℚ) / 90000 * 1000000000 - ((3600 * Second : Int) : ℚ)) -
            (((2 ^ 33 - 1) * Second / 90000 - 3600 * Second : Int) : ℚ) < 1 ∧
        (9 ∣ (2 ^ 33 - 1 : Int) →
          (((2 ^ 33 - 1) * Second / 90000 - 3600 * Second : Int) : ℚ) =
            ((2 ^ 33 - 1 : Int) : ℚ) / 90000 * 1000000000 - ((3600 * Second : Int) : ℚ))) :=
  ⟨by decide, by decide, by decide, by decide,
    parseTimestampMapWebVTT_precision (str "X-TIMESTAMP-MAP") (str "01:00:00.000")
      (str "8589934591") (3600 * Second) (2 ^ 33 - 1) (by decide) (by decide) (by decide)
      (by decide) (by decide)⟩

end WebVTT

namespace WebVTT

/-! ### The style pointers during the scan -/

theorem stepRegion_style (st st2 : ReaderState) (line : GoString)
    (h : stepRegion st line = .ok st2) :
    st2.blockName = st.blockName ∧ st2.webVTTStyles = st.webVTTStyles := by
  unfold stepRegion at h
  split at h
  · cases h
  · cases h
    exact ⟨rfl, rfl⟩

theorem stepTiming_style (st st2 : ReaderState) (line : GoString)
    (h : stepTiming st line = .ok st2) :
    st2.blockName = webvttBlockNameText ∧ st2.webVTTStyles = st.webVTTStyles := by
  unfold stepTiming at h
  split at h
  · split at h
    · split at h
      · cases h
      · split at h
        · cases h
        · split at h
          · cases h
          · cases h
            exact ⟨rfl, rfl⟩
    · cases h
  · cases h

theorem record_of_sound (s : StylePointers) (hs : s.sound) (p : Nat)
    (hp : s.styleVar = some p) :
    ∃ styles, s.heap[p]? = some styles ∧
      s.record s.defaultStyle = some { WebVTTStyles := styles } := by
  obtain ⟨h1, h2, _⟩ := hs
  have hlt := h2 p hp
  refine ⟨s.heap[p], List.getElem?_eq_getElem hlt, ?_⟩
  unfold StylePointers.record
  rw [← h1, hp]
  simp [List.getElem?_eq_getElem hlt]

theorem record_none (s : StylePointers) (hs : s.sound) (hp : s.styleVar = none) :
    s.record s.defaultStyle = none := by
  unfold StylePointers.record
  rw [← hs.1, hp]
  rfl

/-- One line keeps the style pointers sound and never dereferences a nil or
dangling pointer; when a reader state that tells the same accepts the line, the
two states after the line tell the same again. -/
theorem pointerStepLine_sound (s : StylePointers) (line : GoString) (hs : s.sound) :
    ∃ s2, pointerStepLine s line = some s2 ∧ s2.sound ∧
      ∀ st st2, agrees st s → stepLine st line = .ok st2 → agrees st2 s2 := by
  have hcs : ¬ (webvttBlockNameComment = webvttBlockNameStyle) := by decide
  have hts : ¬ (webvttBlockNameText = webvttBlockNameStyle) := by decide
  have hes : ¬ (([] : GoString) = webvttBlockNameStyle) := by decide
  obtain ⟨bn, sv, ds, hp⟩ := s
  obtain ⟨h1, h2, h3⟩ := hs
  simp only at h1 h2 h3
  subst h1
  have hs0 : (⟨bn, sv, sv, hp⟩ : StylePointers).sound := ⟨rfl, h2, h3⟩
  have hblock : ∀ b : GoString, ¬ (b = webvttBlockNameStyle) →
      (⟨b, sv, sv, hp⟩ : StylePointers).sound := fun b hb => ⟨rfl, h2, fun e => absurd e hb⟩
  have hkeep : ∀ (b : GoString) (st st2 : ReaderState),
      agrees st ⟨bn, sv, sv, hp⟩ → st2.blockName = b → st2.webVTTStyles = st.webVTTStyles →
      agrees st2 ⟨b, sv, sv, hp⟩ := fun b st st2 ha e1 e2 => ⟨e1, e2.trans ha.2⟩
  unfold pointerStepLine
  simp only
  by_cases c1 : HasPrefix line (str "NOTE ") = true
  · rw [if_pos c1]
    refine ⟨_, rfl, hblock _ hcs, ?_⟩
    intro st st2 ha h
    unfold stepLine at h
    rw [if_pos c1] at h
    cases h
    exact hkeep _ st _ ha rfl rfl
  rw [if_neg c1]
  by_cases c2 : line.length = 0
  · rw [if_pos c2]
    by_cases hb : bn = webvttBlockNameStyle
    · rw [if_neg (not_not.mpr hb)]
      cases sv with
      | none => exact absurd rfl (h3 hb)
      | some p =>
        obtain ⟨styles, hget, hrec⟩ := record_of_sound _ hs0 p rfl
        simp only at hget hrec
        simp only [hget]
        cases hl : styles.getLast? with
        | none =>
          refine ⟨_, rfl, hblock _ hes, ?_⟩
          intro st st2 ha h
          unfold stepLine at h
          rw [if_neg c1, if_pos c2] at h
          have hopen : styleBlockOpen st = false := by
            unfold styleBlockOpen
            rw [ha.2, hrec]
            simp [hl]
          rw [hopen] at h
          cases h
          exact hkeep _ st _ ha rfl rfl
        | some last =>
          by_cases hsuf : HasSuffix last [125] = true
          · simp only [hsuf, if_true]
            refine ⟨_, rfl, hblock _ hes, ?_⟩
            intro st st2 ha h
            unfold stepLine at h
            rw [if_neg c1, if_pos c2] at h
            have hopen : styleBlockOpen st = false := by
              unfold styleBlockOpen
              rw [ha.2, hrec]
              simp [hl, hsuf]
            rw [hopen] at h
            cases h
            exact hkeep _ st _ ha rfl rfl
          · simp only [hsuf, Bool.false_eq_true, if_false]
            refine ⟨_, rfl, hs0, ?_⟩
            intro st st2 ha h
            unfold stepLine at h
            rw [if_neg c1, if_pos c2] at h
            have hopen : styleBlockOpen st = true := by
              unfold styleBlockOpen
              rw [ha.2, hrec, ha.1]
              simp [hl, hsuf, hb]
            rw [hopen] at h
            cases h
            exact ha
    · rw [if_pos hb]
      refine ⟨_, rfl, hblock _ hes, ?_⟩
      intro st st2 ha h
      unfold stepLine at h
      rw [if_neg c1, if_pos c2] at h
      have hopen : styleBlockOpen st = false := by
        unfold styleBlockOpen
        rw [ha.1]
        simp [hb]
      rw [hopen] at h
      cases h
      exact hkeep _ st _ ha rfl rfl
  rw [if_neg c2]
  by_cases c3 : HasPrefix line (str "Region: ") = true
  · rw [if_pos c3]
    refine ⟨_, rfl, hs0, ?_⟩
    intro st st2 ha h
    unfold stepLine at h
    rw [if_neg c1, if_neg c2, if_pos c3] at h
    obtain ⟨e1, e2⟩ := stepRegion_style _ _ _ h
    exact hkeep _ st _ ha (e1.trans ha.1) e2
  rw [if_neg c3]
  by_cases c4 : HasPrefix line (str "STYLE") = true
  · rw [if_pos c4]
    cases sv with
    | none =>
      refine ⟨_, rfl, ⟨rfl, ?_, fun _ => by simp⟩, ?_⟩
      · intro p hp2
        simp only [Option.some.injEq] at hp2
        simp only [List.length_append, List.length_singleton]
        omega
      · intro st st2 ha h
        unfold stepLine at h
        rw [if_neg c1, if_neg c2, if_neg c3, if_pos c4] at h
        cases h
        refine ⟨rfl, ?_⟩
        have hnone : st.webVTTStyles = none := by
          rw [ha.2]
          rfl
        simp only [hnone]
        unfold StylePointers.record
        simp
    | some q =>
      refine ⟨_, rfl, ⟨rfl, h2, fun _ => by simp⟩, ?_⟩
      intro st st2 ha h
      unfold stepLine at h
      rw [if_neg c1, if_neg c2, if_neg c3, if_pos c4] at h
      cases h
      refine ⟨rfl, ?_⟩
      obtain ⟨styles, _, hrec⟩ := record_of_sound _ hs0 q rfl
      have hsome : st.webVTTStyles = some { WebVTTStyles := styles } := ha.2.trans hrec
      simp only [hsome]
      exact hrec.symm
  rw [if_neg c4]
  by_cases c5 : Contains line webvttTimeBoundariesSeparator = true
  · rw [if_pos c5]
    refine ⟨_, rfl, hblock _ hts, ?_⟩
    intro st st2 ha h
    unfold stepLine at h
    rw [if_neg c1, if_neg c2, if_neg c3, if_neg c4, if_pos c5] at h
    obtain ⟨e1, e2⟩ := stepTiming_style _ _ _ h
    exact hkeep _ st _ ha e1 e2
  rw [if_neg c5]
  by_cases c6 : HasPrefix line webvttTimestampMap = true
  · rw [if_pos c6]
    refine ⟨_, rfl, hs0, ?_⟩
    intro st st2 ha h
    unfold stepLine at h
    rw [if_neg c1, if_neg c2, if_neg c3, if_neg c4, if_neg c5, if_pos c6] at h
    split at h
    · cases h
    · split at h
      · cases h
      · cases h
        exact ha
  rw [if_neg c6]
  by_cases hbc : bn = webvttBlockNameComment
  · rw [if_pos hbc]
    refine ⟨_, rfl, hs0, ?_⟩
    intro st st2 ha h
    unfold stepLine at h
    rw [if_neg c1, if_neg c2, if_neg c3, if_neg c4, if_neg c5, if_neg c6] at h
    unfold stepText at h
    rw [if_pos (ha.1.trans hbc)] at h
    cases h
    exact ha
  rw [if_neg hbc]
  by_cases hb : bn = webvttBlockNameStyle
  · rw [if_pos hb]
    cases sv with
    | none => exact absurd rfl (h3 hb)
    | some p =>
      obtain ⟨styles, hget, hrec⟩ := record_of_sound _ hs0 p rfl
      have hlt := h2 p rfl
      simp only at hget hrec hlt
      simp only [hget]
      refine ⟨_, rfl, ⟨rfl, ?_, fun _ => by simp⟩, ?_⟩
      · intro q hq
        simp only [List.length_set]
        exact h2 q hq
      · intro st st2 ha h
        unfold stepLine at h
        rw [if_neg c1, if_neg c2, if_neg c3, if_neg c4, if_neg c5, if_neg c6] at h
        unfold stepText at h
        have hbn : st.blockName = bn := ha.1
        rw [if_neg (by rw [hbn]; exact hbc), if_pos (hbn.trans hb)] at h
        have hsome : st.webVTTStyles = some { WebVTTStyles := styles } := ha.2.trans hrec
        rw [hsome] at h
        cases h
        refine ⟨ha.1, ?_⟩
        unfold StylePointers.record
        simp [hlt]
  · rw [if_neg hb]
    refine ⟨_, rfl, hs0, ?_⟩
    intro st st2 ha h
    unfold stepLine at h
    rw [if_neg c1, if_neg c2, if_neg c3, if_neg c4, if_neg c5, if_neg c6] at h
    unfold stepText at h
    have hbn : st.blockName = bn := ha.1
    rw [if_neg (by rw [hbn]; exact hbc), if_neg (by rw [hbn]; exact hb)] at h
    split at h
    · simp only at h
      split at h <;> cases h <;> exact ha
    · cases h
      exact ha

/-- The scan keeps the style pointers sound and never dereferences a nil or
dangling pointer; a reader state that the scan of the reader ends with tells the
same as the style pointers after the same lines. -/
theorem pointerScan_sound (lines : List GoString) (s : StylePointers) (hs : s.sound) :
    ∃ s2, pointerScan s lines = some s2 ∧ s2.sound ∧
      ∀ st st2, agrees st s → scan st lines = .ok st2 → agrees st2 s2 := by
  induction lines generalizing s with
  | nil =>
    refine ⟨s, rfl, hs, ?_⟩
    intro st st2 ha h
    cases h
    exact ha
  | cons text rest ih =>
    obtain ⟨s1, h1, hs1, hag1⟩ := pointerStepLine_sound s (TrimSpace text) hs
    obtain ⟨s2, h2, hs2, hag2⟩ := ih s1 hs1
    refine ⟨s2, ?_, hs2, ?_⟩
    · simp only [pointerScan, h1]
      exact h2
    · intro st st2 ha h
      simp only [scan] at h
      cases hstep : step st text with
      | error e => rw [hstep] at h; cases h
      | ok st1 =>
        rw [hstep] at h
        unfold step at hstep
        have ha1 : agrees { st with lineNum := st.lineNum + 1 } s := ha
        exact hag2 st1 st2 (hag1 _ st1 ha1 hstep) h

theorem sound_empty : ({} : StylePointers).sound := by
  refine ⟨rfl, ?_, ?_⟩
  · intro p hp
    cases hp
  · intro h
    exact absurd h (by decide)

theorem agrees_empty (n : Nat) : agrees { lineNum := n } {} := ⟨rfl, rfl⟩

/-- C24: (1) from the empty document, whatever the lines, the scan loop never
dereferences a nil style pointer, the variable `webVTTStyles` and the
`InlineStyle` of the default style of `o.Styles` are the same pointer, and
whenever the block is a style sheet that pointer is set and points to an
allocated record; (2) a state the reader reaches from the empty document has the
block name of the style pointers after the same lines, and its record is the
one the default style points to; (3) so whenever the block of such a state is a
style sheet, its record is present and is the inline style record of the entry
of `o.Styles` under the reserved default identifier; (4) and an ordinary line
read in that state is accepted, the block stays a style sheet, and the line is
the last of the declarations of that default style. -/
theorem style_block_record :
    (∀ lines : List GoString, ∃ s, pointerScan {} lines = some s ∧
      s.styleVar = s.defaultStyle ∧
      (s.blockName = webvttBlockNameStyle →
        ∃ p styles, s.styleVar = some p ∧ s.heap[p]? = some styles)) ∧
    (∀ (n : Nat) (lines : List GoString) (st : ReaderState),
      scan { lineNum := n } lines = .ok st →
      ∃ s, pointerScan {} lines = some s ∧ st.blockName = s.blockName ∧
        st.webVTTStyles = s.record s.styleVar ∧ st.webVTTStyles = s.record s.defaultStyle) ∧
    (∀ (n : Nat) (lines : List GoString) (st : ReaderState),
      scan { lineNum := n } lines = .ok st →
      st.blockName = webvttBlockNameStyle →
      ∃ sa, st.webVTTStyles = some sa ∧
        mapGet st.Styles webvttDefaultStyleID =
          some { ID := webvttDefaultStyleID, InlineStyle := some sa }) ∧
    (∀ (n : Nat) (lines : List GoString) (st : ReaderState) (text : GoString),
      scan { lineNum := n } lines = .ok st →
      st.blockName = webvttBlockNameStyle →
      isOrdinaryLine (TrimSpace text) = true →
      ∃ sa st2, st.webVTTStyles = some sa ∧ step st text = .ok st2 ∧
        st2.blockName = webvttBlockNameStyle ∧
        mapGet st2.Styles webvttDefaultStyleID =
          some { ID := webvttDefaultStyleID,
                 InlineStyle := some { sa with
                   WebVTTStyles := sa.WebVTTStyles ++ [TrimSpace text] } }) := by
  have hsc : ¬ (webvttBlockNameStyle = webvttBlockNameComment) := by decide
  have hrecord : ∀ (n : Nat) (lines : List GoString) (st : ReaderState),
      scan { lineNum := n } lines = .ok st → st.blockName = webvttBlockNameStyle →
      ∃ sa, st.webVTTStyles = some sa := by
    intro n lines st h hb
    obtain ⟨s, _, hs, hag⟩ := pointerScan_sound lines {} sound_empty
    have ha := hag _ st (agrees_empty n) h
    have hb2 : s.blockName = webvttBlockNameStyle := ha.1.symm.trans hb
    cases hv : s.styleVar with
    | none => exact absurd hv (hs.2.2 hb2)
    | some p =>
      obtain ⟨styles, _, hrec⟩ := record_of_sound s hs p hv
      exact ⟨_, ha.2.trans hrec⟩
  refine ⟨?_, ?_, ?_, ?_⟩
  · intro lines
    obtain ⟨s, h, hs, _⟩ := pointerScan_sound lines {} sound_empty
    refine ⟨s, h, hs.1, ?_⟩
    intro hb
    cases hv : s.styleVar with
    | none => exact absurd hv (hs.2.2 hb)
    | some p =>
      obtain ⟨styles, hget, _⟩ := record_of_sound s hs p hv
      exact ⟨p, styles, rfl, hget⟩
  · intro n lines st h
    obtain ⟨s, hp, hs, hag⟩ := pointerScan_sound lines {} sound_empty
    have ha := hag _ st (agrees_empty n) h
    refine ⟨s, hp, ha.1, ?_, ha.2⟩
    rw [hs.1]
    exact ha.2
  · intro n lines st h hb
    obtain ⟨sa, hsa⟩ := hrecord n lines st h hb
    refine ⟨sa, hsa, ?_⟩
    unfold ReaderState.Styles
    rw [hsa]
    simp [mapGet]
  · intro n lines st text h hb hord
    obtain ⟨sa, hsa⟩ := hrecord n lines st h hb
    have hstep : step st text =
        .ok { st with
          lineNum := st.lineNum + 1
          webVTTStyles := some { sa with WebVTTStyles := sa.WebVTTStyles ++ [TrimSpace text] } } := by
      unfold step
      rw [stepLine_ordinary _ _ hord]
      unfold stepText
      simp only [hb, hsc, if_false, if_true, hsa]
    refine ⟨sa, _, hsa, hstep, hb, ?_⟩
    unfold ReaderState.Styles
    simp [mapGet]

/-- C24 after the lines `STYLE` and `::cue`: the reader is in a style block, its
record is present and is that of the default style, and the two style pointers
are the address of the one record allocated, which holds the line. -/
theorem style_block_record_witness :
    scan { lineNum := 1 } [str "STYLE", str "::cue"] = .ok exampleOpenStyle ∧
      exampleOpenStyle.blockName = webvttBlockNameStyle ∧
      pointerScan {} [str "STYLE", str "::cue"] =
        some { blockName := webvttBlockNameStyle, styleVar := some 0, defaultStyle := some 0,
               heap := [[str "::cue"]] } ∧
      ∃ sa, exampleOpenStyle.webVTTStyles = some sa ∧
        mapGet exampleOpenStyle.Styles webvttDefaultStyleID =
          some { ID := webvttDefaultStyleID, InlineStyle := some sa } :=
  ⟨by decide, by decide, by decide,
    style_block_record.2.2.1 1 [str "STYLE", str "::cue"] exampleOpenStyle (by decide)
      (by decide)⟩

end WebVTT

namespace WebVTT

/-- C10, counterexample: the writer sorts the identifiers the regions carry and
then looks each one up as a key of the map. With the region `b` stored under the
key `a` and the region `a` under the key `b`, the line of `b` is written before
the line of `a`, against the byte-wise order, in which `b` does not come before
`a`. With two regions of the identifier `x`, stored under the keys `x` and `y`,
the entry under `x` is written twice and the entry under `y` never. With a region
that has no style record nothing is written at all. -/
theorem WriteToWebVTTWithSync_regions_swapped :
    WriteToWebVTTWithSync exampleSwappedRegions { isZero := true, ticks := 0 } =
        some (str "WEBVTT\n\nRegion: id=b width=40%\nRegion: id=a\n") ∧
      stringLE (str "b") (str "a") = false ∧
      WriteToWebVTTWithSync exampleSharedIdentifier { isZero := true, ticks := 0 } =
        some (str "WEBVTT\n\nRegion: id=x lines=3\nRegion: id=x lines=3\n") ∧
      WriteToWebVTTWithSync exampleBareRegion { isZero := true, ticks := 0 } = none := by
  decide

end WebVTT

namespace WebVTT

/-! ### The inline-timestamp pattern and the timestamps of the spec -/

theorem spanLen_take (p : Nat → Bool) (s : GoString) :
    ∀ x ∈ s.take (spanLen p s), p x = true := by
  induction s with
  | nil => intro x hx; simp [spanLen] at hx
  | cons c t ih =>
    intro x hx
    rw [spanLen] at hx
    split at hx
    · rename_i hc
      rw [List.take_succ_cons] at hx
      rcases List.mem_cons.mp hx with e | e
      · rw [e]; exact hc
      · exact ih x e
    · simp at hx

theorem timestampTail_shape (l : GoString) (h : timestampTail l = true) :
    ∃ a b c d e f g, l = [a, b, 58, c, d, 46, e, f, g, 62] ∧ isDigit a = true ∧
      isDigit b = true ∧ isDigit c = true ∧ isDigit d = true ∧ isDigit e = true ∧
      isDigit f = true ∧ isDigit g = true := by
  unfold timestampTail at h
  split at h
  · rename_i a b c d e f g
    simp only [Bool.and_eq_true] at h
    obtain ⟨⟨⟨⟨⟨⟨h1, h2⟩, h3⟩, h4⟩, h5⟩, h6⟩, h7⟩ := h
    exact ⟨a, b, c, d, e, f, g, rfl, h1, h2, h3, h4, h5, h6, h7⟩
  · cases h

theorem timestampTail_of_shape (a b c d e f g : Nat) (h1 : isDigit a = true)
    (h2 : isDigit b = true) (h3 : isDigit c = true) (h4 : isDigit d = true)
    (h5 : isDigit e = true) (h6 : isDigit f = true) (h7 : isDigit g = true) :
    timestampTail [a, b, 58, c, d, 46, e, f, g, 62] = true := by
  simp [timestampTail, h1, h2, h3, h4, h5, h6, h7]

theorem takeWhile_stop (p : Nat → Bool) (w : GoString) (c : Nat) (rest : GoString)
    (hw : ∀ x ∈ w, p x = true) (hc : p c = false) : (w ++ c :: rest).takeWhile p = w := by
  induction w with
  | nil => simp [List.takeWhile, hc]
  | cons d t ih =>
    rw [List.cons_append, List.takeWhile_cons, if_pos (hw d (List.mem_cons_self _ _)),
      ih fun x hx => hw x (List.mem_cons_of_mem _ hx)]

theorem takeWhile_split (p : Nat → Bool) (t : GoString) (c : Nat)
    (h : (t.drop (t.takeWhile p).length).head? = some c) :
    ∃ rest, t = t.takeWhile p ++ c :: rest := by
  induction t with
  | nil => simp at h
  | cons d t ih =>
    rw [List.takeWhile_cons] at h ⊢
    split at h
    · rename_i hd
      rw [if_pos hd]
      simp only [List.length_cons, List.drop_succ_cons] at h
      obtain ⟨rest, hr⟩ := ih h
      exact ⟨rest, by rw [List.cons_append, ← hr]⟩
    · rename_i hd
      rw [if_neg hd]
      simp only [List.length_nil, List.drop_zero, List.head?_cons, Option.some.injEq] at h
      exact ⟨t, by rw [h]; rfl⟩

theorem not_gt_of_isDigit (x : Nat) (h : isDigit x = true) : (x != 62) = true := by
  have := isDigit_range x h
  simp only [bne_iff_ne, ne_eq]
  omega

/-- The timestamp of the spec on a text of the form `<[HH:]MM:SS.mmm>`. -/
theorem inlineTimestampAt_of_shape (hp rest : GoString) (a b c d e f g : Nat)
    (h1 : isDigit a = true) (h2 : isDigit b = true) (h3 : isDigit c = true)
    (h4 : isDigit d = true) (h5 : isDigit e = true) (h6 : isDigit f = true)
    (h7 : isDigit g = true)
    (hh : hp = [] ∨ ∃ hours, hp = hours ++ [58] ∧ 2 ≤ hours.length ∧
      ∀ x ∈ hours, isDigit x = true) :
    inlineTimestampAt (60 :: (hp ++ ([a, b, 58, c, d, 46, e, f, g] ++ 62 :: rest))) =
      some (hp ++ [a, b, 58, c, d, 46, e, f, g]) := by
  have hbody : ∀ x ∈ hp ++ [a, b, 58, c, d, 46, e, f, g], (x != 62) = true := by
    intro x hx
    rcases List.mem_append.mp hx with hx | hx
    · rcases hh with e0 | ⟨hours, e0, _, hd⟩
      · rw [e0] at hx; cases hx
      · rw [e0] at hx
        rcases List.mem_append.mp hx with hx | hx
        · exact not_gt_of_isDigit x (hd x hx)
        · simp only [List.mem_singleton] at hx
          rw [hx]; rfl
    · simp only [List.mem_cons, List.mem_singleton, List.not_mem_nil, or_false] at hx
      rcases hx with hx | hx | hx | hx | hx | hx | hx | hx | hx
      · rw [hx]; exact not_gt_of_isDigit a h1
      · rw [hx]; exact not_gt_of_isDigit b h2
      · rw [hx]; rfl
      · rw [hx]; exact not_gt_of_isDigit c h3
      · rw [hx]; exact not_gt_of_isDigit d h4
      · rw [hx]; rfl
      · rw [hx]; exact not_gt_of_isDigit e h5
      · rw [hx]; exact not_gt_of_isDigit f h6
      · rw [hx]; exact not_gt_of_isDigit g h7
  have htw : (hp ++ ([a, b, 58, c, d, 46, e, f, g] ++ 62 :: rest)).takeWhile (· != 62) =
      hp ++ [a, b, 58, c, d, 46, e, f, g] := by
    have := takeWhile_stop (· != 62) (hp ++ [a, b, 58, c, d, 46, e, f, g]) 62 rest hbody
      (by simp)
    simpa using this
  have hdrop : (hp ++ ([a, b, 58, c, d, 46, e, f, g] ++ 62 :: rest)).drop
      (hp ++ [a, b, 58, c, d, 46, e, f, g]).length = 62 :: rest := by
    simp
  have htext : isTimestampText (hp ++ [a, b, 58, c, d, 46, e, f, g]) = true := by
    unfold isTimestampText
    rcases hh with e0 | ⟨hours, e0, hlen, hd⟩
    · rw [e0]
      simp [h1, h2, h3, h4, h5, h6, h7]
    · rw [e0]
      simp only [List.reverse_append, List.reverse_cons, List.reverse_nil, List.nil_append,
        List.cons_append, List.singleton_append]
      simp only [h1, h2, h3, h4, h5, h6, h7, Bool.and_self, Bool.true_and, List.length_reverse,
        Bool.and_eq_true, decide_eq_true_eq, List.all_eq_true, List.mem_reverse]
      exact ⟨hlen, hd⟩
  unfold inlineTimestampAt
  simp only [htw, hdrop, htext, List.head?_cons, and_self, if_true]

/-- Where the spec finds a timestamp the text has the form `<[HH:]MM:SS.mmm>`. -/
theorem inlineTimestampAt_shape (t body : GoString)
    (h : inlineTimestampAt (60 :: t) = some body) :
    ∃ hp rest a b c d e f g,
      t = hp ++ ([a, b, 58, c, d, 46, e, f, g] ++ 62 :: rest) ∧
      body = hp ++ [a, b, 58, c, d, 46, e, f, g] ∧
      isDigit a = true ∧ isDigit b = true ∧ isDigit c = true ∧ isDigit d = true ∧
      isDigit e = true ∧ isDigit f = true ∧ isDigit g = true ∧
      (hp = [] ∨ ∃ hours, hp = hours ++ [58] ∧ 2 ≤ hours.length ∧
        ∀ x ∈ hours, isDigit x = true) := by
  unfold inlineTimestampAt at h
  simp only at h
  split at h
  · rename_i hc
    simp only [Option.some.injEq] at h
    obtain ⟨hhead, htext⟩ := hc
    obtain ⟨rest, hrest⟩ := takeWhile_split _ t 62 hhead
    rw [h] at hrest htext
    unfold isTimestampText at htext
    split at htext
    · rename_i f3 f2 f1 s2 s1 m2 m1 hours hrev
      have hb : body = hours.reverse ++ [m1, m2, 58, s1, s2, 46, f1, f2, f3] := by
        have := congrArg List.reverse hrev
        rw [List.reverse_reverse] at this
        rw [this]
        simp
      simp only [Bool.and_eq_true] at htext
      obtain ⟨⟨⟨⟨⟨⟨⟨h1, h2⟩, h3⟩, h4⟩, h5⟩, h6⟩, h7⟩, h8⟩ := htext
      refine ⟨hours.reverse, rest, m1, m2, s1, s2, f1, f2, f3, ?_, hb, h7, h6, h5, h4, h3, h2, h1,
        ?_⟩
      · rw [hrest, hb]
        simp
      · split at h8
        · left; rfl
        · rename_i hs
          right
          simp only [Bool.and_eq_true, decide_eq_true_eq, List.all_eq_true] at h8
          refine ⟨hs.reverse, by simp, by simpa using h8.1, ?_⟩
          intro x hx
          exact h8.2 x (List.mem_reverse.mp hx)
        · cases h8
    · cases htext
  · cases h

theorem timestampTail_third (x y z : Nat) (l : GoString) (hz : z ≠ 58) :
    timestampTail (x :: y :: z :: l) = false := by
  cases h : timestampTail (x :: y :: z :: l) with
  | false => rfl
  | true =>
    obtain ⟨a, b, c, d, e, f, g, hl, _⟩ := timestampTail_shape _ h
    simp only [List.cons.injEq] at hl
    exact absurd hl.2.2.1 hz

theorem isDigit_colon : isDigit 58 = false := by decide

/-- The pattern on a text of the form `<[HH:]MM:SS.mmm>`. -/
theorem inlineTimestampLen_of_shape (hp rest : GoString) (a b c d e f g : Nat)
    (h1 : isDigit a = true) (h2 : isDigit b = true) (h3 : isDigit c = true)
    (h4 : isDigit d = true) (h5 : isDigit e = true) (h6 : isDigit f = true)
    (h7 : isDigit g = true)
    (hh : hp = [] ∨ ∃ hours, hp = hours ++ [58] ∧ 2 ≤ hours.length ∧
      ∀ x ∈ hours, isDigit x = true) :
    inlineTimestampLen (60 :: (hp ++ ([a, b, 58, c, d, 46, e, f, g] ++ 62 :: rest))) =
      some (hp.length + 11) := by
  rcases hh with e0 | ⟨hours, e0, hlen, hd⟩
  · rw [e0]
    have hspan : spanLen isDigit (a :: b :: 58 :: c :: d :: 46 :: e :: f :: g :: 62 :: rest) =
        2 := by
      simp [spanLen, h1, h2, isDigit_colon]
    have htail : timestampTail
        ((c :: d :: 46 :: e :: f :: g :: 62 :: rest).take 10) = false := by
      simp only [List.take_succ_cons]
      exact timestampTail_third c d 46 _ (by decide)
    have htail2 : timestampTail
        ((a :: b :: 58 :: c :: d :: 46 :: e :: f :: g :: 62 :: rest).take 10) = true := by
      simp only [List.take_succ_cons, List.take_zero]
      exact timestampTail_of_shape a b c d e f g h1 h2 h3 h4 h5 h6 h7
    unfold inlineTimestampLen
    simp only [List.nil_append, List.cons_append, hspan, List.drop_succ_cons, List.drop_zero,
      htail, htail2, Bool.false_eq_true, and_false, if_false, if_true, List.length_nil,
      Nat.zero_add]
  · rw [e0]
    have := inlineTimestampLen_timestamp hours rest a b c d e f g hlen hd h1 h2 h3 h4 h5 h6 h7
    simp only [List.append_assoc, List.cons_append, List.nil_append, List.length_append,
      List.length_cons, List.length_nil] at this ⊢
    rw [this]

theorem drop_of_head (t : GoString) (n x : Nat) (h : (t.drop n).head? = some x) :
    t.drop n = x :: t.drop (n + 1) := by
  cases hd : t.drop n with
  | nil => rw [hd] at h; cases h
  | cons y l =>
    rw [hd] at h
    simp only [List.head?_cons, Option.some.injEq] at h
    have : t.drop (n + 1) = l := by
      rw [← List.drop_drop, hd]
      rfl
    rw [this, h]

/-- Where the pattern matches the text has the form `<[HH:]MM:SS.mmm>`. -/
theorem inlineTimestampLen_shape (t : GoString) (n : Nat)
    (h : inlineTimestampLen (60 :: t) = some n) :
    ∃ hp rest a b c d e f g,
      t = hp ++ ([a, b, 58, c, d, 46, e, f, g] ++ 62 :: rest) ∧
      n = hp.length + 11 ∧
      isDigit a = true ∧ isDigit b = true ∧ isDigit c = true ∧ isDigit d = true ∧
      isDigit e = true ∧ isDigit f = true ∧ isDigit g = true ∧
      (hp = [] ∨ ∃ hours, hp = hours ++ [58] ∧ 2 ≤ hours.length ∧
        ∀ x ∈ hours, isDigit x = true) := by
  unfold inlineTimestampLen at h
  simp only at h
  split at h
  · rename_i hc
    obtain ⟨hlen, hhead, htail⟩ := hc
    simp only [Option.some.injEq] at h
    obtain ⟨a, b, c, d, e, f, g, hl, h1, h2, h3, h4, h5, h6, h7⟩ := timestampTail_shape _ htail
    have hd1 := drop_of_head t _ 58 hhead
    have hd2 : t.drop (spanLen isDigit t + 1) =
        [a, b, 58, c, d, 46, e, f, g, 62] ++ (t.drop (spanLen isDigit t + 1)).drop 10 := by
      rw [← hl]
      exact (List.take_append_drop 10 _).symm
    have ht : t = t.take (spanLen isDigit t) ++
        (58 :: ([a, b, 58, c, d, 46, e, f, g, 62] ++ (t.drop (spanLen isDigit t + 1)).drop 10)) := by
      rw [← hd2, ← hd1]
      exact (List.take_append_drop _ t).symm
    have hlt : spanLen isDigit t ≤ t.length := by
      by_contra hne
      rw [List.drop_of_length_le (by omega)] at hd1
      cases hd1
    have hlen2 : (t.take (spanLen isDigit t)).length = spanLen isDigit t := by
      rw [List.length_take]
      omega
    refine ⟨t.take (spanLen isDigit t) ++ [58], (t.drop (spanLen isDigit t + 1)).drop 10,
      a, b, c, d, e, f, g, ?_, ?_, h1, h2, h3, h4, h5, h6, h7, ?_⟩
    · nth_rewrite 1 [ht]
      simp
    · rw [List.length_append, hlen2, ← h]
      rfl
    · right
      exact ⟨_, rfl, by rw [hlen2]; exact hlen, spanLen_take isDigit t⟩
  · split at h
    · rename_i htail
      simp only [Option.some.injEq] at h
      obtain ⟨a, b, c, d, e, f, g, hl, h1, h2, h3, h4, h5, h6, h7⟩ := timestampTail_shape _ htail
      refine ⟨[], t.drop 10, a, b, c, d, e, f, g, ?_, ?_, h1, h2, h3, h4, h5, h6, h7, Or.inl rfl⟩
      · have := (List.take_append_drop 10 t).symm
        rw [hl] at this
        simpa using this
      · rw [← h]
        rfl
    · cases h

/-- The pattern matches at the head of a text exactly where an inline timestamp
of the spec stands, over the same bytes. -/
theorem inlineTimestampLen_eq (s : GoString) :
    inlineTimestampLen s = (inlineTimestampAt s).map fun body => body.length + 2 := by
  cases s with
  | nil => rfl
  | cons c t =>
    by_cases hc : c = 60
    · subst hc
      cases h1 : inlineTimestampLen (60 :: t) with
      | none =>
        cases h2 : inlineTimestampAt (60 :: t) with
        | none => rfl
        | some body =>
          obtain ⟨hp, rest, a, b, c, d, e, f, g, ht, _, d1, d2, d3, d4, d5, d6, d7, hh⟩ :=
            inlineTimestampAt_shape t body h2
          rw [ht, inlineTimestampLen_of_shape hp rest a b c d e f g d1 d2 d3 d4 d5 d6 d7 hh] at h1
          cases h1
      | some n =>
        obtain ⟨hp, rest, a, b, c, d, e, f, g, ht, hn, d1, d2, d3, d4, d5, d6, d7, hh⟩ :=
          inlineTimestampLen_shape t n h1
        rw [ht, inlineTimestampAt_of_shape hp rest a b c d e f g d1 d2 d3 d4 d5 d6 d7 hh, hn]
        simp
    · rw [inlineTimestampLen_no_lt c t hc]
      unfold inlineTimestampAt
      split
      · rename_i heq
        exact absurd (List.cons.inj heq).1 hc
      · rfl

theorem inlineTimestampAt_no_lt (c : Nat) (t : GoString) (h : c ≠ 60) :
    inlineTimestampAt (c :: t) = none := by
  unfold inlineTimestampAt
  split
  · rename_i heq
    exact absurd (List.cons.inj heq).1 h
  · rfl

theorem inlineTimestamps_skip (pos : Nat) (u rest : GoString) (h : 60 ∉ u) :
    inlineTimestamps pos (u ++ rest) = inlineTimestamps (pos + u.length) rest := by
  induction u generalizing pos with
  | nil => rfl
  | cons c t ih =>
    have hc : c ≠ 60 := fun e => h (by rw [e]; exact List.mem_cons_self _ _)
    rw [List.cons_append, inlineTimestamps, inlineTimestampAt_no_lt c _ hc]
    simp only
    rw [ih _ fun e => h (List.mem_cons_of_mem _ e)]
    congr 1
    simp only [List.length_cons]
    omega

theorem isDigit_no_lt (x : Nat) (h : isDigit x = true) : x ≠ 60 := by
  have := isDigit_range x h
  omega

theorem findInlineTimestamps_from (n : Nat) :
    ∀ (s : GoString) (pos : Nat), s.length ≤ n →
      findInlineTimestamps pos 0 s = inlineTimestamps pos s := by
  induction n with
  | zero =>
    intro s pos hs
    have : s = [] := List.length_eq_zero.mp (Nat.le_zero.mp hs)
    rw [this]
    rfl
  | succ k ih =>
    intro s pos hs
    cases s with
    | nil => rfl
    | cons c t =>
      have hlt : t.length ≤ k := by
        simp only [List.length_cons] at hs
        omega
      rw [findInlineTimestamps, inlineTimestamps, inlineTimestampLen_eq]
      cases hat : inlineTimestampAt (c :: t) with
      | none => exact ih t _ hlt
      | some body =>
        have hc : c = 60 := by
          by_contra hne
          rw [inlineTimestampAt_no_lt c t hne] at hat
          cases hat
        subst hc
        obtain ⟨hp, rest, a, b, c, d, e, f, g, ht, hb, d1, d2, d3, d4, d5, d6, d7, hh⟩ :=
          inlineTimestampAt_shape t body hat
        have hno : 60 ∉ body ++ [62] := by
          intro hm
          rw [hb] at hm
          simp only [List.mem_append, List.mem_cons, List.mem_singleton, List.not_mem_nil,
            or_false] at hm
          have r1 := isDigit_no_lt a d1
          have r2 := isDigit_no_lt b d2
          have r3 := isDigit_no_lt c d3
          have r4 := isDigit_no_lt d d4
          have r5 := isDigit_no_lt e d5
          have r6 := isDigit_no_lt f d6
          have r7 := isDigit_no_lt g d7
          rcases hm with (hm | hm) | hm
          · rcases hh with e0 | ⟨hours, e0, _, hd⟩
            · rw [e0] at hm; cases hm
            · rw [e0] at hm
              rcases List.mem_append.mp hm with hm | hm
              · exact isDigit_no_lt 60 (hd 60 hm) rfl
              · simp at hm
          · omega
          · omega
        have ht2 : t = (body ++ [62]) ++ rest := by
          rw [ht, hb]
          simp
        have hl : (body ++ [62]).length = body.length + 2 - 1 := by
          simp
        have hrest : rest.length ≤ k := by
          have := congrArg List.length ht2
          simp only [List.length_append] at this
          omega
        simp only [Option.map_some']
        congr 1
        rw [ht2, ← hl, findInlineTimestamps_skip, inlineTimestamps_skip _ _ _ hno]
        exact ih rest _ hrest

/-- The successive matches of the inline-timestamp pattern are the inline
timestamps of the text: no timestamp begins inside another, so passing over each
match loses none. -/
theorem findInlineTimestamps_eq (line : GoString) :
    findInlineTimestamps 0 0 line = inlineTimestamps 0 line :=
  findInlineTimestamps_from line.length line 0 (Nat.le_refl _)

/-! ### Unescaping -/

theorem HasPrefix_split (s p : GoString) (h : HasPrefix s p = true) : ∃ r, s = p ++ r := by
  induction p generalizing s with
  | nil => exact ⟨s, rfl⟩
  | cons b p ih =>
    cases s with
    | nil => simp [HasPrefix] at h
    | cons a s =>
      simp only [HasPrefix, Bool.and_eq_true, beq_iff_eq] at h
      obtain ⟨r, hr⟩ := ih s h.2
      exact ⟨r, by rw [h.1, hr]; rfl⟩

theorem unescapeWebVTT_entities (s : GoString) : unescapeWebVTT s = unescapeEntities s := by
  unfold unescapeWebVTT
  rw [webVTTUnescaper_eq]
  induction s using unescapeEntities.induct with
  | case1 t ih => 
    simp [replaceFrom, replacerLookup, HasPrefix, unescapeEntities, ih]
  | case2 t ih => 
    simp [replaceFrom, replacerLookup, HasPrefix, unescapeEntities, ih]
  | case3 t ih => 
    simp [replaceFrom, replacerLookup, HasPrefix, unescapeEntities, ih]
  | case4 t ih => 
    simp [replaceFrom, replacerLookup, HasPrefix, unescapeEntities, ih]
  | case5 c t h1 h2 h3 h4 ih =>
    have e1 : HasPrefix (c :: t) [38, 97, 109, 112, 59] = false := by
      cases h : HasPrefix (c :: t) [38, 97, 109, 112, 59] with
      | false => rfl
      | true =>
        obtain ⟨r, hr⟩ := HasPrefix_split _ _ h
        simp only [List.cons_append, List.nil_append, List.cons.injEq] at hr
        exact absurd hr.2 (fun e => h1 r hr.1 e)
    have e2 : HasPrefix (c :: t) [38, 108, 116, 59] = false := by
      cases h : HasPrefix (c :: t) [38, 108, 116, 59] with
      | false => rfl
      | true =>
        obtain ⟨r, hr⟩ := HasPrefix_split _ _ h
        simp only [List.cons_append, List.nil_append, List.cons.injEq] at hr
        exact absurd hr.2 (fun e => h2 r hr.1 e)
    have e3 : HasPrefix (c :: t) [38, 103, 116, 59] = false := by
      cases h : HasPrefix (c :: t) [38, 103, 116, 59] with
      | false => rfl
      | true =>
        obtain ⟨r, hr⟩ := HasPrefix_split _ _ h
        simp only [List.cons_append, List.nil_append, List.cons.injEq] at hr
        exact absurd hr.2 (fun e => h3 r hr.1 e)
    have e4 : HasPrefix (c :: t) [38, 110, 98, 115, 112] = false := by
      cases h : HasPrefix (c :: t) [38, 110, 98, 115, 112] with
      | false => rfl
      | true =>
        obtain ⟨r, hr⟩ := HasPrefix_split _ _ h
        simp only [List.cons_append, List.nil_append, List.cons.injEq] at hr
        exact absurd hr.2 (fun e => h4 r hr.1 e)
    rw [unescapeEntities.eq_5 c t h1 h2 h3 h4, ← ih]
    simp only [replaceFrom, replacerLookup, e1, e2, e3, e4, Bool.false_eq_true, if_false]
  | case6 => rfl


/-! ### The items of a text token -/

theorem textTokenSegments_eq (sa : Option StyleAttributes) (line : GoString)
    (ms : List (Nat × Nat)) :
    textTokenSegments sa line ms = (segmentsAfter line ms).filterMap (segmentItem sa) := by
  induction ms with
  | nil => rfl
  | cons m rest ih =>
    rw [textTokenSegments_cons, ih]
    simp only [segmentsAfter, List.filterMap_cons, segmentItem, unescapeWebVTT_entities]
    by_cases h : TrimSpace (slice line m.2 (segmentEnd line rest)) = []
    · simp only [h, if_true]
    · simp only [h, if_false]

theorem parseTextWebVTTTextToken_eq (sa : Option StyleAttributes) (line : GoString) :
    parseTextWebVTTTextToken sa line = (textSegments line).filterMap (segmentItem sa) := by
  unfold parseTextWebVTTTextToken textSegments
  rw [findInlineTimestamps_eq]
  cases hms : inlineTimestamps 0 line with
  | nil =>
    simp only [segmentEnd, segmentsAfter, slice_zero_length, List.filterMap_cons,
      List.filterMap_nil, segmentItem, unescapeWebVTT_entities]
    by_cases h : TrimSpace line = []
    · simp [h]
    · simp [h]
  | cons first rest =>
    simp only [segmentEnd, List.filterMap_cons, segmentItem, unescapeWebVTT_entities]
    rw [textTokenSegments_eq]
    by_cases h : TrimSpace (slice line 0 first.1) = []
    · simp [h]
    · simp [h]

/-- C18: for every style record `sa` and every text-token content, the matches
of the inline-timestamp pattern are the inline timestamps of the text, that is
every offset at which `<`, a timestamp text `[HH:]MM:SS.mmm` and `>` stand;
unescaping turns each of `&amp;`, `&lt;`, `&gt;`, `&nbsp` into its byte and keeps
every other byte; and `parseTextWebVTTTextToken` returns, in order, the items of
the segments of the text: first the text before the first inline timestamp, with
start offset zero, then for each inline timestamp the segment that follows it up
to the next timestamp or the end, with the parsed timestamp as start offset
(zero when it fails to parse). A segment that is blank after trimming gives no
item, every item carries `sa` and has the unescaped trimmed segment as text, and
with no inline timestamp the result is the single trimmed item or nothing. -/
theorem parseTextWebVTTTextToken_segments (sa : Option StyleAttributes) (line : GoString) :
    findInlineTimestamps 0 0 line = inlineTimestamps 0 line ∧
      (∀ s, unescapeWebVTT s = unescapeEntities s) ∧
      parseTextWebVTTTextToken sa line = (textSegments line).filterMap (segmentItem sa) ∧
      (inlineTimestamps 0 line = [] →
        parseTextWebVTTTextToken sa line =
          if TrimSpace line = [] then []
          else [{ InlineStyle := sa, StartAt := 0, Text := unescapeEntities (TrimSpace line) }]) ∧
      (∀ li ∈ parseTextWebVTTTextToken sa line,
        li.InlineStyle = sa ∧
          ∃ seg ∈ textSegments line, TrimSpace seg.2 ≠ [] ∧
            li.Text = unescapeEntities (TrimSpace seg.2)) := by
  have main := parseTextWebVTTTextToken_eq sa line
  refine ⟨findInlineTimestamps_eq line, unescapeWebVTT_entities, main, ?_, ?_⟩
  · intro hms
    unfold parseTextWebVTTTextToken
    rw [findInlineTimestamps_eq, hms]
    by_cases h : TrimSpace line = []
    · simp [h]
    · simp [h, unescapeWebVTT_entities]
  · intro li hli
    rw [main] at hli
    obtain ⟨seg, hseg, hitem⟩ := List.mem_filterMap.mp hli
    unfold segmentItem at hitem
    split at hitem
    · cases hitem
    · rename_i hne
      simp only [Option.some.injEq] at hitem
      subst hitem
      exact ⟨rfl, seg, hseg, hne, rfl⟩

/-- C18 on a text with three inline timestamps: the pattern finds the three, at
the offsets 11, 33 and 49, and not the text `<5:00.000>`; the token gives three
items, the text before the first timestamp with offset zero, the segment of the
first with one second, nothing for the second, whose segment is blank, and the
segment of the third, written without hours, with 5.25 seconds; every text is
trimmed and unescaped, and every item carries the style record. -/
theorem parseTextWebVTTTextToken_segments_witness :
    findInlineTimestamps 0 0 exampleTimedText = [(11, 25), (33, 47), (49, 60)] ∧
      parseTextWebVTTTextToken (some exampleBoldStyle) exampleTimedText =
        [{ InlineStyle := some exampleBoldStyle, StartAt := 0, Text := str "a & b" },
         { InlineStyle := some exampleBoldStyle, StartAt := 1 * Second, Text := str "c<d" },
         { InlineStyle := some exampleBoldStyle, StartAt := 5250 * Millisecond,
           Text := str "e<5:00.000>" ++ [160] ++ str ";f" }] ∧
      parseTextWebVTTTextToken none (str "  ") = [] ∧
      parseTextWebVTTTextToken none (str " x &gt; y ") =
        [{ InlineStyle := none, StartAt := 0, Text := str "x > y" }] :=
  ⟨(parseTextWebVTTTextToken_segments none exampleTimedText).1.trans (by decide),
   (parseTextWebVTTTextToken_segments (some exampleBoldStyle) exampleTimedText).2.2.1.trans
     (by decide),
   ((parseTextWebVTTTextToken_segments none (str "  ")).2.2.2.1 (by decide)).trans (by decide),
   ((parseTextWebVTTTextToken_segments none (str " x &gt; y ")).2.2.2.1 (by decide)).trans
     (by decide)⟩

end WebVTT

namespace WebVTT

/-! ### Text that is not blank -/

theorem isSpaceRune_length (x : GoString) (h : isSpaceRune x = true) :
    1 ≤ x.length ∧ x.length ≤ 3 := by
  rcases x with _ | ⟨a, _ | ⟨b, _ | ⟨c, _ | ⟨d, l⟩⟩⟩⟩
  · simp [isSpaceRune] at h
  · simp
  · simp
  · simp
  · simp [isSpaceRune] at h

theorem spaceWidth_zero (l : GoString) (h : spaceWidth l = 0) :
    isSpaceRune (l.take 1) = false ∧ isSpaceRune (l.take 2) = false ∧
      isSpaceRune (l.take 3) = false := by
  unfold spaceWidth at h
  split at h
  · cases h
  · split at h
    · cases h
    · split at h
      · cases h
      · rename_i h1 h2 h3
        exact ⟨by simpa using h1, by simpa using h2, by simpa using h3⟩

theorem spaceWidth_of_takes (l : GoString) (h1 : isSpaceRune (l.take 1) = false)
    (h2 : isSpaceRune (l.take 2) = false) (h3 : isSpaceRune (l.take 3) = false) :
    spaceWidth l = 0 := by
  simp [spaceWidth, h1, h2, h3]

theorem spaceWidthRev_pos (r : GoString) (h : spaceWidthRev r ≠ 0) :
    isSpaceRune (r.take (spaceWidthRev r)).reverse = true ∧ 1 ≤ spaceWidthRev r := by
  unfold spaceWidthRev at h ⊢
  split
  · rename_i h1
    exact ⟨h1, Nat.le_refl _⟩
  · rename_i h1
    rw [if_neg h1] at h
    split
    · rename_i h2
      exact ⟨h2, by decide⟩
    · rename_i h2
      rw [if_neg h2] at h
      split
      · rename_i h3
        exact ⟨h3, by decide⟩
      · rename_i h3
        rw [if_neg h3] at h
        exact absurd rfl h

/-- Stripping the leading white space with enough fuel leaves no leading white
space. -/
theorem trimLeftN_width (n : Nat) : ∀ s : GoString, s.length ≤ n →
    spaceWidth (trimLeftN n s) = 0 := by
  induction n with
  | zero =>
    intro s hs
    have : s = [] := List.length_eq_zero.mp (Nat.le_zero.mp hs)
    rw [this]
    decide
  | succ k ih =>
    intro s hs
    rw [trimLeftN]
    split
    · rename_i h
      exact h
    · rename_i h
      apply ih
      rw [List.length_drop]
      omega

theorem reverse_drop_take (x : GoString) (w : Nat) :
    x.reverse.drop w = (x.take (x.length - w)).reverse := by
  by_cases hw : w ≤ x.length
  · have e : x = x.take (x.length - w) ++ x.drop (x.length - w) :=
      (List.take_append_drop _ x).symm
    have hl : (x.drop (x.length - w)).reverse.length = w := by
      rw [List.length_reverse, List.length_drop]
      omega
    nth_rewrite 1 [e]
    rw [List.reverse_append]
    nth_rewrite 1 [← hl]
    exact List.drop_left _ _
  · have e : x.length - w = 0 := by omega
    rw [e, List.take_zero, List.reverse_nil]
    apply List.drop_of_length_le
    rw [List.length_reverse]
    omega

/-- Stripping the trailing white space of a prefix of a text that does not begin
with white space leaves something. -/
theorem trimRightN_prefix (l : GoString) (hw : spaceWidth l = 0) (n : Nat) :
    ∀ j, 1 ≤ j → j ≤ l.length →
      ∃ i, 1 ≤ i ∧ i ≤ j ∧ trimRightN n (l.take j).reverse = (l.take i).reverse := by
  obtain ⟨w1, w2, w3⟩ := spaceWidth_zero l hw
  induction n with
  | zero =>
    intro j h1 h2
    exact ⟨j, h1, Nat.le_refl _, rfl⟩
  | succ k ih =>
    intro j h1 h2
    rw [trimRightN]
    split
    · exact ⟨j, h1, Nat.le_refl _, rfl⟩
    · rename_i hne
      obtain ⟨hsp, hpos⟩ := spaceWidthRev_pos _ hne
      have hlen : (l.take j).length = j := by
        rw [List.length_take]
        omega
      have hlt : spaceWidthRev (l.take j).reverse < j := by
        by_contra hge
        have hall : (l.take j).reverse.take (spaceWidthRev (l.take j).reverse) =
            (l.take j).reverse := by
          apply List.take_of_length_le
          rw [List.length_reverse, hlen]
          omega
        rw [hall, List.reverse_reverse] at hsp
        have hj := isSpaceRune_length _ hsp
        rw [hlen] at hj
        have : j = 1 ∨ j = 2 ∨ j = 3 := by omega
        rcases this with e | e | e
        · rw [e, w1] at hsp; cases hsp
        · rw [e, w2] at hsp; cases hsp
        · rw [e, w3] at hsp; cases hsp
      rw [reverse_drop_take, hlen, List.take_take]
      have hmin : min (j - spaceWidthRev (l.take j).reverse) j =
          j - spaceWidthRev (l.take j).reverse := by omega
      rw [hmin]
      obtain ⟨i, i1, i2, e⟩ := ih (j - spaceWidthRev (l.take j).reverse) (by omega) (by omega)
      exact ⟨i, i1, by omega, e⟩

theorem spaceWidth_take (l : GoString) (hw : spaceWidth l = 0) (i : Nat) (h1 : 1 ≤ i) :
    spaceWidth (l.take i) = 0 := by
  obtain ⟨w1, w2, w3⟩ := spaceWidth_zero l hw
  apply spaceWidth_of_takes
  · rw [List.take_take]
    have : min 1 i = 1 := by omega
    rw [this]
    exact w1
  · rw [List.take_take]
    by_cases h : 2 ≤ i
    · have : min 2 i = 2 := by omega
      rw [this]
      exact w2
    · have : min 2 i = 1 := by omega
      rw [this]
      exact w1
  · rw [List.take_take]
    by_cases h : 3 ≤ i
    · have : min 3 i = 3 := by omega
      rw [this]
      exact w3
    · by_cases h2 : 2 ≤ i
      · have : min 3 i = 2 := by omega
        rw [this]
        exact w2
      · have : min 3 i = 1 := by omega
        rw [this]
        exact w1

/-- What `TrimSpace` returns does not begin with white space. -/
theorem TrimSpace_width (y : GoString) : spaceWidth (TrimSpace y) = 0 := by
  have hw := trimLeftN_width y.length y (Nat.le_refl _)
  unfold TrimSpace
  simp only
  cases hl : trimLeftN y.length y with
  | nil =>
    have : trimRightN ([] : GoString).length ([] : GoString).reverse = [] := by decide
    rw [this]
    decide
  | cons c t =>
    rw [hl] at hw
    obtain ⟨i, i1, _, e⟩ := trimRightN_prefix (c :: t) hw (c :: t).length (c :: t).length
      (by simp) (Nat.le_refl _)
    rw [List.take_length] at e
    rw [e, List.reverse_reverse]
    exact spaceWidth_take _ hw i i1

/-- A text that is not empty and does not begin with white space is not blank. -/
theorem TrimSpace_ne_nil (l : GoString) (hne : l ≠ []) (hw : spaceWidth l = 0) :
    TrimSpace l ≠ [] := by
  have h1 : trimLeftN l.length l = l := trimLeftN_of_width _ l hw
  have hlen : 1 ≤ l.length := List.length_pos.mpr hne
  obtain ⟨i, i1, _, e⟩ := trimRightN_prefix l hw l.length l.length hlen (Nat.le_refl _)
  rw [List.take_length] at e
  unfold TrimSpace
  simp only [h1, e, List.reverse_reverse]
  intro h
  have := congrArg List.length h
  rw [List.length_take] at this
  simp only [List.length_nil] at this
  omega

end WebVTT

namespace WebVTT

/-! ### Unescaping and escaping again -/

theorem isSpaceRune_amp_first (l : GoString) : isSpaceRune (38 :: l) = false := by
  rcases l with _ | ⟨b, _ | ⟨c, _ | ⟨d, l⟩⟩⟩ <;> simp [isSpaceRune]

theorem isSpaceRune_amp_second (c : Nat) (l : GoString) :
    isSpaceRune (c :: 38 :: l) = false := by
  rcases l with _ | ⟨b, _ | ⟨d, l⟩⟩ <;> simp [isSpaceRune]

theorem isSpaceRune_amp_third (c d : Nat) (l : GoString) :
    isSpaceRune (c :: d :: 38 :: l) = false := by
  rcases l with _ | ⟨b, l⟩ <;> simp [isSpaceRune]

theorem unescapeWebVTT_cons (c : Nat) (t : GoString) (hc : c ≠ 38) :
    unescapeWebVTT (c :: t) = c :: unescapeWebVTT t := by
  rw [unescapeWebVTT_entities, unescapeWebVTT_entities, unescapeEntities.eq_5] <;>
    exact fun _ e _ => hc e

theorem unescapeWebVTT_amp (t : GoString) :
    ∃ b r, unescapeWebVTT (38 :: t) = b :: r ∧ (b = 38 ∨ b = 60 ∨ b = 62 ∨ b = 160) := by
  unfold unescapeWebVTT
  rw [webVTTUnescaper_eq]
  simp only [replaceFrom, replacerLookup]
  split_ifs
  · exact ⟨38, _, rfl, Or.inl rfl⟩
  · exact ⟨60, _, rfl, Or.inr (Or.inl rfl)⟩
  · exact ⟨62, _, rfl, Or.inr (Or.inr (Or.inl rfl))⟩
  · exact ⟨160, _, rfl, Or.inr (Or.inr (Or.inr rfl))⟩
  · exact ⟨38, _, rfl, Or.inl rfl⟩

theorem webVTTEscaper_head (b : Nat) (h : b = 38 ∨ b = 60 ∨ b = 62 ∨ b = 160) :
    ∃ r, webVTTEscaper b = 38 :: r := by
  rcases h with e | e | e | e
  · exact ⟨str "amp;", by rw [e]; decide⟩
  · exact ⟨str "lt;", by rw [e]; decide⟩
  · exact ⟨str "gt;", by rw [e]; decide⟩
  · exact ⟨str "nbsp", by rw [e]; decide⟩

/-- The head of a text unescaped and escaped again: either the entity sign, or
the head of the text itself, followed by the rest unescaped and escaped. -/
theorem escape_unescape_head (t : GoString) :
    t = [] ∨ (∃ r, escapeWebVTT (unescapeWebVTT t) = 38 :: r) ∨
      ∃ c t2, t = c :: t2 ∧
        escapeWebVTT (unescapeWebVTT t) = c :: escapeWebVTT (unescapeWebVTT t2) := by
  cases t with
  | nil => left; rfl
  | cons c t2 =>
    right
    by_cases hc : c = 38
    · left
      subst hc
      obtain ⟨b, r, e, hb⟩ := unescapeWebVTT_amp t2
      obtain ⟨r2, e2⟩ := webVTTEscaper_head b hb
      exact ⟨r2 ++ escapeWebVTT r, by rw [e, escapeWebVTT_cons, e2]; rfl⟩
    · rw [unescapeWebVTT_cons c t2 hc, escapeWebVTT_cons]
      by_cases hb : c = 38 ∨ c = 60 ∨ c = 62 ∨ c = 160
      · left
        obtain ⟨r2, e2⟩ := webVTTEscaper_head c hb
        exact ⟨r2 ++ escapeWebVTT (unescapeWebVTT t2), by rw [e2]; rfl⟩
      · right
        refine ⟨c, t2, rfl, ?_⟩
        have : webVTTEscaper c = [c] := by
          rw [webVTTEscaper_eq]
          simp only [not_or] at hb
          simp [hb.1, hb.2.1, hb.2.2.1, hb.2.2.2]
        rw [this]
        rfl

theorem escape_unescape_nil : escapeWebVTT (unescapeWebVTT []) = [] := by decide

/-- Unescaping and escaping again keeps a text from beginning with white
space. -/
theorem spaceWidth_escape_unescape (s : GoString) (hw : spaceWidth s = 0) :
    spaceWidth (escapeWebVTT (unescapeWebVTT s)) = 0 := by
  obtain ⟨w1, w2, w3⟩ := spaceWidth_zero s hw
  rcases escape_unescape_head s with e | ⟨r, e⟩ | ⟨c, t, es, e⟩
  · rw [e, escape_unescape_nil]
    decide
  · rw [e]
    apply spaceWidth_of_takes <;> simp only [List.take_succ_cons] <;>
      exact isSpaceRune_amp_first _
  · rw [e]
    rw [es] at w1 w2 w3
    simp only [List.take_succ_cons, List.take_zero] at w1 w2 w3
    rcases escape_unescape_head t with e1 | ⟨r, e1⟩ | ⟨d, t2, et, e1⟩
    · rw [e1, escape_unescape_nil]
      apply spaceWidth_of_takes <;> simp only [List.take_succ_cons, List.take_zero,
        List.take_nil] <;> exact w1
    · rw [e1]
      apply spaceWidth_of_takes
      · simp only [List.take_succ_cons, List.take_zero]
        exact w1
      · simp only [List.take_succ_cons]
        exact isSpaceRune_amp_second _ _
      · simp only [List.take_succ_cons]
        exact isSpaceRune_amp_second _ _
    · rw [e1]
      rw [et] at w2 w3
      simp only [List.take_succ_cons, List.take_zero] at w2 w3
      rcases escape_unescape_head t2 with e2 | ⟨r, e2⟩ | ⟨f, t3, et2, e2⟩
      · rw [e2, escape_unescape_nil]
        rw [e2] at w3
        simp only [List.take_nil] at w3
        apply spaceWidth_of_takes <;> simp only [List.take_succ_cons, List.take_zero,
          List.take_nil]
        · exact w1
        · exact w2
        · exact w2
      · rw [e2]
        apply spaceWidth_of_takes
        · simp only [List.take_succ_cons, List.take_zero]
          exact w1
        · simp only [List.take_succ_cons, List.take_zero]
          exact w2
        · simp only [List.take_succ_cons]
          exact isSpaceRune_amp_third _ _ _
      · rw [e2]
        rw [et2] at w3
        simp only [List.take_succ_cons, List.take_zero] at w3
        apply spaceWidth_of_takes
        · simp only [List.take_succ_cons, List.take_zero]
          exact w1
        · simp only [List.take_succ_cons, List.take_zero]
          exact w2
        · simp only [List.take_succ_cons, List.take_zero]
          exact w3

theorem escape_unescape_ne_nil (s : GoString) (h : s ≠ []) :
    escapeWebVTT (unescapeWebVTT s) ≠ [] := by
  rcases escape_unescape_head s with e | ⟨r, e⟩ | ⟨c, t, _, e⟩
  · exact absurd e h
  · rw [e]; simp
  · rw [e]; simp

/-- The text of a run read from a non-blank segment is not blank when it is
escaped again. -/
theorem escape_unescape_not_blank (y : GoString) (h : TrimSpace y ≠ []) :
    TrimSpace (escapeWebVTT (unescapeWebVTT (TrimSpace y))) ≠ [] :=
  TrimSpace_ne_nil _ (escape_unescape_ne_nil _ h)
    (spaceWidth_escape_unescape _ (TrimSpace_width y))

/-! ### The runs of a line -/

/-- What holds of the runs of every text token holds of the runs of a line. -/
theorem parseTextTokens_items (P : LineItem → Prop)
    (hP : ∀ (stack : List WebVTTTag) (raw : GoString),
      ∀ x ∈ parseTextWebVTTTextToken
        (if stack ≠ [] then some (propagateWebVTTAttributes { WebVTTTags := stack }) else none)
        raw, P x)
    (toks : List Token) :
    ∀ (stack : List WebVTTTag) (o : Line), (∀ x ∈ o.Items, P x) →
      ∀ x ∈ (parseTextTokens toks stack o).Items, P x := by
  induction toks with
  | nil =>
    intro stack o ho
    exact ho
  | cons tok rest ih =>
    intro stack o ho
    rw [parseTextTokens]
    split
    · exact ih _ _ ho
    · split
      · split
        · split
          · exact ih _ _ ho
          · exact ih _ _ ho
        · exact ih _ _ ho
      · exact ih _ _ ho
    · apply ih
      intro x hx
      simp only at hx
      rcases List.mem_append.mp hx with e | e
      · exact ho x e
      · exact hP stack tok.raw x e
    · exact ih _ _ ho

/-- The runs of a line carry no colour: the reader builds the style record of a
run from the tag stack alone. -/
theorem parseTextWebVTT_colorName (line : GoString) :
    ∀ x ∈ (parseTextWebVTT line).Items, x.colorName = [] := by
  unfold parseTextWebVTT
  refine parseTextTokens_items (fun x => x.colorName = []) ?_ _ [] {} (by intro x hx; cases hx)
  intro stack raw x hx
  have := parseTextWebVTTTextToken_style _ _ x hx
  show x.colorName = []
  unfold LineItem.colorName
  rw [this]
  by_cases hs : stack = []
  · simp [hs]
  · simp only [ne_eq, hs, not_false_eq_true, if_true]
    rfl

/-- The text of a run of a line is the unescaped form of a trimmed segment that
is not blank, and is not blank when it is escaped again. -/
theorem parseTextWebVTT_text (line : GoString) :
    ∀ x ∈ (parseTextWebVTT line).Items, TrimSpace (escapeWebVTT x.Text) ≠ [] := by
  unfold parseTextWebVTT
  refine parseTextTokens_items (fun x => TrimSpace (escapeWebVTT x.Text) ≠ []) ?_ _ [] {}
    (by intro x hx; cases hx)
  intro stack raw x hx
  rw [parseTextWebVTTTextToken_eq] at hx
  obtain ⟨seg, _, hitem⟩ := List.mem_filterMap.mp hx
  unfold segmentItem at hitem
  split at hitem
  · cases hitem
  · rename_i hne
    simp only [Option.some.injEq] at hitem
    subst hitem
    show TrimSpace (escapeWebVTT (unescapeEntities (TrimSpace seg.2))) ≠ []
    rw [← unescapeWebVTT_entities]
    exact escape_unescape_not_blank _ hne

end WebVTT

namespace WebVTT

/-- C15: for every cue-text line whose inline tags are well-formed, that is for
which every tag recorded in the tag stack of a run is a well-formed tag, and for
every run that `parseTextWebVTT` produces from the line: rendering the run with
`LineItem.webVTTBytes` and reading the rendered text again with
`parseTextWebVTT` yields at least one run, and every run it yields has the same
tag stack, the same tags with the same names, class lists and annotations in the
same order. -/
theorem parseTextWebVTT_tag_stack (line : GoString)
    (hwf : ∀ li ∈ (parseTextWebVTT line).Items, ∀ t ∈ li.tags, wellFormedTag t = true) :
    ∀ li ∈ (parseTextWebVTT line).Items,
      (parseTextWebVTT li.webVTTBytes).Items ≠ [] ∧
        ∀ x ∈ (parseTextWebVTT li.webVTTBytes).Items, x.tags = li.tags := by
  intro li hli
  have h := webVTTBytes_tags li (parseTextWebVTT_colorName line li hli) (hwf li hli)
  exact ⟨h.2 (parseTextWebVTT_text line li hli), h.1⟩

/-- C15 on the line `<c.a=b.é><lang en US x=1>x &amp; y</lang> z</c>`: its tags
are well-formed, it is read as two runs, the first inside both tags and the
second inside the outer tag, the first run is rendered as
`<c.a=b.é><lang en US x=1>x &amp; y</lang></c>`, and the runs read back from the
rendered text of either run have the tag stack of that run. -/
theorem parseTextWebVTT_tag_stack_witness :
    (∀ li ∈ (parseTextWebVTT exampleTaggedLine).Items, ∀ t ∈ li.tags,
        wellFormedTag t = true) ∧
      (parseTextWebVTT exampleTaggedLine).Items =
        [{ InlineStyle := some { WebVTTTags := [exampleClassTag, exampleLangTag] }
           Text := str "x & y" },
         { InlineStyle := some { WebVTTTags := [exampleClassTag] }, Text := str "z" }] ∧
      ((parseTextWebVTT exampleTaggedLine).Items.map LineItem.webVTTBytes).head? =
        some (str "<c.a=b." ++ [0xC3, 0xA9] ++ str "><lang en US x=1>x &amp; y</lang></c>") ∧
      ∀ li ∈ (parseTextWebVTT exampleTaggedLine).Items,
        (parseTextWebVTT li.webVTTBytes).Items ≠ [] ∧
          ∀ x ∈ (parseTextWebVTT li.webVTTBytes).Items, x.tags = li.tags :=
  ⟨by decide, by decide, by decide, parseTextWebVTT_tag_stack exampleTaggedLine (by decide)⟩

/-- A run that carries a colour of the table, which no statement of the reader
gives a run, is written with the tag of the colour in front of its own tags: the
run with the tag `c.red` and the colour red is rendered as
`<c.red><c.red>x</c></c>`. -/
theorem webVTTBytes_colored_run :
    exampleRedRun.tags = [{ Name := str "c", Classes := [str "red"], Annotation := [] }] ∧
      exampleRedRun.webVTTBytes = str "<c.red><c.red>x</c></c>" := by
  decide

end WebVTT
